import Mathlib

/-!
# csv-parser: tokenizer, column search and row filter

A shallow embedding of `src/src/ccsv.c` (and the constants of `src/include/ccsv.h`).

* Bytes are natural numbers (`unsigned char` values); `fgetc` returns `none` at end of file.
* A `FILE` is the file's bytes together with the cursor; `fseek` is always `SEEK_CUR`.
* A `char *` buffer obtained from `malloc` is a list of cells; a cell that was never written
  is `none`.  The terminating NUL that `parseColumn` stores at `s[c_count]` is kept implicit.
* `exit(EXIT_FAILURE)`, out-of-bounds or indeterminate accesses, and exhaustion of the step
  budget of a loop are the three ways a run produces no value (`Fault`).
* The C `int` counters are natural numbers: they count bytes and rows of the input.
-/

namespace Ccsv

/-! ## Constants -/

/-- The macro `DEFAULT_COL_NUM` of `ccsv.h`: capacity of `row.columns`. -/
def DEFAULT_COL_NUM : Nat := 200

/-- The macro `LINE_ENDING`, the byte `'\n'`. -/
def LINE_ENDING : Nat := 10

/-- The byte `'\r'`. -/
def CR : Nat := 13

/-- The byte `'"'`. -/
def QUOTE : Nat := 34

/-- The byte `','`. -/
def COMMA : Nat := 44

/-- The macro `ON`. -/
def ON : Nat := 1

/-- The macro `OFF`. -/
def OFF : Nat := 0

/-! ## Streams -/

/-- Ways in which a run ends without a value. -/
inductive Fault where
  /-- The call `exit(EXIT_FAILURE)`. -/
  | exit_failure
  /-- An access outside an allocation, or a read of a cell that was never written. -/
  | undefined
  /-- The step budget of the model ran out. -/
  | fuel
  deriving DecidableEq, Repr

deriving instance DecidableEq for Except

/-- An open stream: the bytes of the file and the cursor. -/
structure FILE where
  data : List Nat
  pos : Nat
  deriving DecidableEq, Repr

/-- The stream of a freshly opened file. -/
def fopen (data : List Nat) : FILE := ⟨data, 0⟩

/-- The call `fgetc(fp)`: the byte under the cursor and the cursor advanced by one, or
`none` (the value `EOF`) with the cursor unchanged. -/
def fgetc (fp : FILE) : Option Nat × FILE :=
  match fp.data[fp.pos]? with
  | some b => (some b, { fp with pos := fp.pos + 1 })
  | none => (none, fp)

/-- The call `fseek(fp, offset, SEEK_CUR)`: `none` is the nonzero return value, given when
the resulting offset would be negative. Seeking past the end of the file succeeds. -/
def fseek (fp : FILE) (offset : Int) : Option FILE :=
  if 0 ≤ (fp.pos : Int) + offset then
    some { fp with pos := ((fp.pos : Int) + offset).toNat }
  else none

/-! ## Column extraction -/

/-- A `char` buffer: `none` marks a cell that was never written. -/
abbrev Buffer := List (Option Nat)

/-- The `for` loop of `parseColumn`, with `n` iterations left: each byte read is stored in
the next cell, a carriage return ends the loop and leaves the remaining cells unwritten.
A read at end of file stores `(char) EOF`, the byte `255`. -/
def readColumn (fp : FILE) : Nat → Buffer × FILE
  | 0 => ([], fp)
  | n + 1 =>
    match fgetc fp with
    | (some c, fp1) =>
      if c = CR then (List.replicate (n + 1) none, fp1)
      else ((some c :: (readColumn fp1 n).1), (readColumn fp1 n).2)
    | (none, fp1) => ((some 255 :: (readColumn fp1 n).1), (readColumn fp1 n).2)

/-- The function `parseColumn(fp, c_count)`: seek back `c_count + 1` bytes (a failed seek
is `exit(EXIT_FAILURE)`), then read `c_count` bytes into a fresh buffer. -/
def parseColumn (fp : FILE) (c_count : Nat) : Except Fault (Buffer × FILE) :=
  let offset : Int := -(c_count : Int) - 1
  match fseek fp offset with
  | none => .error .exit_failure
  | some fp1 => .ok (readColumn fp1 c_count)

/-! ## Row tokenizer -/

/-- The struct `Row` of `ccsv.h`. -/
structure Row where
  columnCount : Nat
  lastRow : Nat
  columns : List Buffer
  deriving DecidableEq, Repr

/-- The statement `row.columns[colCount++] = s`: the array has `DEFAULT_COL_NUM` slots. -/
def storeColumn (columns : List Buffer) (s : Buffer) : Except Fault (List Buffer) :=
  if columns.length < DEFAULT_COL_NUM then .ok (columns ++ [s]) else .error .undefined

/-- The code of `parseRow` after its `while` loop: the final column, `columnCount`, and
the seek over the line ending. -/
def finishRow (fp : FILE) (colCharCount lastRow : Nat) (columns : List Buffer) :
    Except Fault (Row × FILE) :=
  match parseColumn fp colCharCount with
  | .error e => .error e
  | .ok (s, fp1) =>
    match storeColumn columns s with
    | .error e => .error e
    | .ok columns1 =>
      match fseek fp1 1 with
      | none => .error .exit_failure
      | some fp2 => .ok (⟨columns1.length, lastRow, columns1⟩, fp2)

/-- The end of a column inside the `while` loop of `parseRow`: extract it, store it, and
seek one byte forward. -/
def endColumn (fp : FILE) (colCharCount : Nat) (columns : List Buffer) :
    Except Fault (List Buffer × FILE) :=
  match parseColumn fp colCharCount with
  | .error e => .error e
  | .ok (s, fp1) =>
    match storeColumn columns s with
    | .error e => .error e
    | .ok columns1 =>
      match fseek fp1 1 with
      | none => .error .exit_failure
      | some fp2 => .ok (columns1, fp2)

/-- The `while` loop of `parseRow` followed by the rest of the function; the first
argument bounds the number of iterations. -/
def parseRowLoop : Nat → FILE → (colStateQuotes prevChar colCharCount : Nat) →
    List Buffer → Except Fault (Row × FILE)
  | 0, _, _, _, _, _ => .error .fuel
  | fuel + 1, fp, colStateQuotes, prevChar, colCharCount, columns =>
    match fgetc fp with
    | (none, fp1) =>
      -- `c == EOF`: one column here, `lastRow = 1`, `break`, then the code after the loop
      match parseColumn fp1 colCharCount with
      | .error e => .error e
      | .ok (s, fp2) =>
        match storeColumn columns s with
        | .error e => .error e
        | .ok columns1 => finishRow fp2 colCharCount 1 columns1
    | (some c, fp1) =>
      if c = LINE_ENDING then finishRow fp1 colCharCount 0 columns
      else if c = QUOTE ∧ colStateQuotes = 0 then
        parseRowLoop fuel fp1 ON c colCharCount columns
      else if c = COMMA then
        if colStateQuotes = 0 then
          match endColumn fp1 colCharCount columns with
          | .error e => .error e
          | .ok (columns1, fp2) => parseRowLoop fuel fp2 colStateQuotes c 0 columns1
        else if prevChar = QUOTE then
          match endColumn fp1 colCharCount columns with
          | .error e => .error e
          | .ok (columns1, fp2) => parseRowLoop fuel fp2 colStateQuotes c 0 columns1
        else parseRowLoop fuel fp1 colStateQuotes c (colCharCount + 1) columns
      else parseRowLoop fuel fp1 colStateQuotes c (colCharCount + 1) columns

/-- The step budget given to one call of `parseRow`: between two column ends the loop reads
at most every byte once, and every column end moves the cursor forward. The budget is never
exhausted (`parseRow_ne_fuel`). -/
def rowFuel (fp : FILE) : Nat := (fp.data.length + 2) * (fp.data.length + 2)

/-- The function `parseRow(fp)`. -/
def parseRow (fp : FILE) : Except Fault (Row × FILE) :=
  parseRowLoop (rowFuel fp) fp OFF 0 0 []

/-- The loop `for (;;)` of `parseFile`: the rows it reads (and prints), up to and including
the first one with `lastRow == 1`; the first argument bounds the number of rows. -/
def parseFileLoop : Nat → FILE → Except Fault (List Row × FILE)
  | 0, _ => .error .fuel
  | fuel + 1, fp =>
    match parseRow fp with
    | .error e => .error e
    | .ok (row, fp1) =>
      if row.lastRow = 1 then .ok ([row], fp1)
      else
        match parseFileLoop fuel fp1 with
        | .error e => .error e
        | .ok (rows, fp2) => .ok (row :: rows, fp2)

/-- The function `parseFile(fp)`, with the rows it reads as its result. Every row but the
last moves the cursor forward, so one more row than the file has bytes is never needed. -/
def parseFile (fp : FILE) : Except Fault (List Row × FILE) :=
  parseFileLoop (fp.data.length + 2) fp

/-! ## The Python layer -/

/-- A Python `str`, as the bytes of its UTF-8 encoding. -/
abbrev PyStr := List Nat

/-- A Python `dict` from `str` to `int`, in insertion order. -/
abbrev PyDict := List (PyStr × Nat)

/-- A Python `tuple` of `str` objects; `none` is a slot that holds `NULL`. -/
abbrev PyTuple := List (Option PyStr)

/-- The exception types the module raises, and the one `PyUnicode_FromString` raises. -/
inductive PyExc where
  | IOError
  | ValueError
  | MemoryError
  | IndexError
  | Exception
  | UnicodeDecodeError
  deriving DecidableEq, Repr

/-- The C string held by a buffer of `parseColumn`, as `strlen` delimits it: the bytes
before the first NUL, the last possible one being the terminator at `s[c_count]`. Reading a
cell that was never written has no defined result. -/
def stringBytes : Buffer → Except Fault (List Nat)
  | [] => .ok []
  | none :: _ => .error .undefined
  | some b :: rest =>
    if b = 0 then .ok []
    else
      match stringBytes rest with
      | .error e => .error e
      | .ok t => .ok (b :: t)

/-- The strict UTF-8 decoder behind `PyUnicode_FromString`, as a scan over the bytes:
`need` continuation bytes are still expected, the next of them in the range `lo .. hi`.
Overlong forms, surrogates, code points above U+10FFFF, stray continuation bytes and
truncated sequences are refused. -/
def utf8Scan : Nat → Nat → Nat → List Nat → Bool
  | need, _, _, [] => decide (need = 0)
  | 0, _, _, b :: r =>
    if b ≤ 0x7F then utf8Scan 0 0x80 0xBF r
    else if 0xC2 ≤ b ∧ b ≤ 0xDF then utf8Scan 1 0x80 0xBF r
    else if b = 0xE0 then utf8Scan 2 0xA0 0xBF r
    else if (0xE1 ≤ b ∧ b ≤ 0xEC) ∨ b = 0xEE ∨ b = 0xEF then utf8Scan 2 0x80 0xBF r
    else if b = 0xED then utf8Scan 2 0x80 0x9F r
    else if b = 0xF0 then utf8Scan 3 0x90 0xBF r
    else if 0xF1 ≤ b ∧ b ≤ 0xF3 then utf8Scan 3 0x80 0xBF r
    else if b = 0xF4 then utf8Scan 3 0x80 0x8F r
    else false
  | need + 1, lo, hi, b :: r =>
    if lo ≤ b ∧ b ≤ hi then utf8Scan need 0x80 0xBF r else false

/-- Whether a byte string is valid UTF-8. -/
def utf8Valid (t : List Nat) : Bool := utf8Scan 0 0x80 0xBF t

/-- The call `PyUnicode_FromString(s)` on a buffer of `parseColumn`: the C string in `s`
decoded as UTF-8. `none` is the return value `NULL`, given, with a `UnicodeDecodeError`
set, when the bytes are not valid UTF-8. -/
def PyUnicode_FromString (s : Buffer) : Except Fault (Option PyStr) :=
  match stringBytes s with
  | .error e => .error e
  | .ok t => if utf8Valid t then .ok (some t) else .ok none

/-- The call `PyDict_SetItem(dict, key, value)`. -/
def PyDict_SetItem : PyDict → PyStr → Nat → PyDict
  | [], key, value => [(key, value)]
  | (k, v) :: rest, key, value =>
    if k = key then (k, value) :: rest else (k, v) :: PyDict_SetItem rest key value

/-- The call `PyDict_GetItem(dict, key)`; `none` is `NULL`. -/
def PyDict_GetItem : PyDict → PyStr → Option Nat
  | [], _ => none
  | (k, v) :: rest, key => if k = key then some v else PyDict_GetItem rest key

/-- The loop of `convert_row_to_dict`, from index `i` on, over the columns not yet seen.
The result of `PyUnicode_FromString` is not tested: a `NULL` is passed on as the key of
`PyDict_SetItem`, which reads through it. -/
def dictLoop : List Buffer → Nat → PyDict → Except Fault PyDict
  | [], _, py_dict => .ok py_dict
  | s :: rest, i, py_dict =>
    match PyUnicode_FromString s with
    | .error e => .error e
    | .ok none => .error .undefined
    | .ok (some column_string) =>
      dictLoop rest (i + 1) (PyDict_SetItem py_dict column_string i)

/-- The function `convert_row_to_dict(row)`: the loop runs over `row.columnCount` columns. -/
def convert_row_to_dict (row : Row) : Except Fault PyDict :=
  if row.columnCount ≤ row.columns.length then
    dictLoop (row.columns.take row.columnCount) 0 []
  else .error .undefined

/-- The loop of `convert_row_to_tuple`. The result of `PyUnicode_FromString` is not
tested: `PyTuple_SetItem` stores a `NULL` like any other item and returns 0. -/
def tupleLoop : List Buffer → Except Fault PyTuple
  | [] => .ok []
  | s :: rest =>
    match PyUnicode_FromString s with
    | .error e => .error e
    | .ok column_string =>
      match tupleLoop rest with
      | .error e => .error e
      | .ok t => .ok (column_string :: t)

/-- The function `convert_row_to_tuple(row)`. -/
def convert_row_to_tuple (row : Row) : Except Fault PyTuple :=
  if row.columnCount ≤ row.columns.length then
    tupleLoop (row.columns.take row.columnCount)
  else .error .undefined

/-- The function `get_column_index(dict, key)`: the index and the error indicator; an
absent key gives `-1` and a `ValueError`. -/
def get_column_index (dict : PyDict) (key : PyStr) : Int × Option PyExc :=
  match PyDict_GetItem dict key with
  | none => (-1, some .ValueError)
  | some v => ((v : Int), none)

/-- The function `get_headers(self)`. The argument is the content of the file named by
`self->file_name`, or `none` when it cannot be opened: then `fopen` returns `NULL`, the
`IOError` is set, and `parseRow` is still called, on the null stream. The result is the
error indicator and the returned dictionary. -/
def get_headers (file : Option (List Nat)) : Option PyExc × Except Fault PyDict :=
  match file with
  | none => (some .IOError, .error .undefined)
  | some data =>
    match parseRow (fopen data) with
    | .error e => (none, .error e)
    | .ok (row, _) => (none, convert_row_to_dict row)

/-- The header index as the specification describes it: every column name of the first
row mapped to its position. -/
def headerIndex (names : List PyStr) : PyDict := names.zip (List.range names.length)

/-! ## Pattern matcher -/

/-- The memory that holds the C string `s`: its bytes, the terminating NUL, and whatever
cells follow it. -/
def cstring (s : List Nat) (slack : Buffer) : Buffer := s.map some ++ some 0 :: slack

/-- The call `strlen(s)` on the memory starting at `s`. -/
def strlen : Buffer → Except Fault Nat
  | [] => .error .undefined
  | none :: _ => .error .undefined
  | some b :: rest =>
    if b = 0 then .ok 0
    else
      match strlen rest with
      | .error e => .error e
      | .ok n => .ok (n + 1)

/-- The loop `while (column[i] == pattern[pi]) { ++i; ++pi; }` of `search_column`, on the
memory from `column + i` and `pattern + pi` on: the number of iterations made. The loop
has no bound of its own: it stops at the first pair of different bytes. -/
def matchRun : Buffer → Buffer → Except Fault Nat
  | some c :: column, some p :: pattern =>
    if c = p then
      match matchRun column pattern with
      | .error e => .error e
      | .ok k => .ok (k + 1)
    else .ok 0
  | _, _ => .error .undefined

/-- The `for` loop of `search_column`, from index `i` on with the current value of `found`;
the first argument bounds the number of iterations. -/
def searchLoop : Nat → Buffer → Buffer → (pattern_length col_len i found : Nat) →
    Except Fault Nat
  | 0, _, _, _, col_len, i, found => if i < col_len then .error .fuel else .ok found
  | fuel + 1, column, pattern, pattern_length, col_len, i, found =>
    if i < col_len then
      match matchRun (column.drop i) pattern with
      | .error e => .error e
      | .ok pi =>
        searchLoop fuel column pattern pattern_length col_len (i + pi + 1)
          (if pi = pattern_length then 1 else found)
    else .ok found

/-- The function `search_column(column, pattern, pattern_length)` on the memory starting
at `column` and at `pattern`. Every iteration of the `for` loop advances `i`, so `col_len`
iterations are enough. -/
def search_column (column pattern : Buffer) (pattern_length : Nat) : Except Fault Nat :=
  match strlen column with
  | .error e => .error e
  | .ok col_len => searchLoop col_len column pattern pattern_length col_len 0 0

/-! ## Filter -/

/-- The growable array of `filter`: `file_size` is its capacity, a `none` cell was never
written. -/
structure Results where
  file_size : Nat
  result_count : Nat
  tuple_index : Nat
  results_array : List (Option PyTuple)
  deriving DecidableEq, Repr

/-- The state of `filter` before its loop: `malloc(sizeof(PyObject *) * 100)`. -/
def initResults : Results := ⟨100, 0, 0, List.replicate 100 none⟩

/-- The call `realloc(p, n)` on an array of cells: the old cells are kept. -/
def realloc (arr : List (Option PyTuple)) (n : Nat) : List (Option PyTuple) :=
  arr.take n ++ List.replicate (n - arr.length) none

/-- The body of `if (found == 1)` in `filter`, after the tuple was built: count the result,
grow the array by 100 slots when the count reaches the capacity, and write the tuple at
`tuple_index`. A write outside the array has no defined result. -/
def storeResult (st : Results) (row_tuple : PyTuple) : Except Fault Results :=
  let result_count := st.result_count + 1
  let file_size := if result_count ≥ st.file_size then st.file_size + 100 else st.file_size
  let arr := if result_count ≥ st.file_size then realloc st.results_array (st.file_size + 100)
    else st.results_array
  if st.tuple_index < arr.length then
    .ok ⟨file_size, result_count, st.tuple_index + 1, arr.set st.tuple_index (some row_tuple)⟩
  else .error .undefined

/-- One row of the loop of `filter`: `parseRow`, `search_column` on `row.columns[index]`,
and `convert_row_to_tuple` when `found == 1`. The result is the tuple of an accepted row,
`row.lastRow`, and the stream. The cells `slack` follow the column in memory. -/
def filterRow (fp : FILE) (index : Nat) (pattern_str : Buffer) (pattern_length : Nat)
    (slack : Buffer) : Except Fault (Option PyTuple × Nat × FILE) :=
  match parseRow fp with
  | .error e => .error e
  | .ok (row, fp1) =>
    match row.columns[index]? with
    | none => .error .undefined
    | some column =>
      match search_column (column ++ some 0 :: slack) pattern_str pattern_length with
      | .error e => .error e
      | .ok found =>
        if found = 1 then
          match convert_row_to_tuple row with
          | .error e => .error e
          | .ok row_tuple => .ok (some row_tuple, row.lastRow, fp1)
        else .ok (none, row.lastRow, fp1)

/-- The loop `for (;;)` of `filter`; the first argument bounds the number of rows. The
result is the array state and the number of calls of `parseRow`. -/
def filterLoop : Nat → FILE → (index : Nat) → (pattern_str : Buffer) →
    (pattern_length : Nat) → (slack : Buffer) → Results → Nat → Except Fault (Results × Nat)
  | 0, _, _, _, _, _, _, _ => .error .fuel
  | fuel + 1, fp, index, pattern_str, pattern_length, slack, st, parsed =>
    match filterRow fp index pattern_str pattern_length slack with
    | .error e => .error e
    | .ok (none, lastRow, fp1) =>
      if lastRow = 1 then .ok (st, parsed + 1)
      else filterLoop fuel fp1 index pattern_str pattern_length slack st (parsed + 1)
    | .ok (some row_tuple, lastRow, fp1) =>
      match storeResult st row_tuple with
      | .error e => .error e
      | .ok st1 =>
        if lastRow = 1 then .ok (st1, parsed + 1)
        else filterLoop fuel fp1 index pattern_str pattern_length slack st1 (parsed + 1)

/-- The rows the loop of `filter` accepts, in the order of the scan, and the number of calls
of `parseRow`: the same scan as `filterLoop`, with the tuples kept in a list. -/
def acceptedRows : Nat → FILE → (index : Nat) → (pattern_str : Buffer) →
    (pattern_length : Nat) → (slack : Buffer) → Except Fault (List PyTuple × Nat)
  | 0, _, _, _, _, _ => .error .fuel
  | fuel + 1, fp, index, pattern_str, pattern_length, slack =>
    match filterRow fp index pattern_str pattern_length slack with
    | .error e => .error e
    | .ok (t, lastRow, fp1) =>
      if lastRow = 1 then .ok (t.toList, 1)
      else
        match acceptedRows fuel fp1 index pattern_str pattern_length slack with
        | .error e => .error e
        | .ok (ts, n) => .ok (t.toList ++ ts, n + 1)

/-- The array state that holds the tuples `ts` and nothing else: the capacity is the first
multiple of 100 above their number, the tuples fill the first cells in order. -/
def resultsOf (ts : List PyTuple) : Results :=
  ⟨100 * (ts.length / 100 + 1), ts.length, ts.length,
    ts.map some ++ List.replicate (100 * (ts.length / 100 + 1) - ts.length) none⟩

/-- The final loop of `filter`: the list of `results_array[0 .. tuple_index)`. -/
def listOfArray : List (Option PyTuple) → Nat → Except Fault (List PyTuple)
  | _, 0 => .ok []
  | [], _ + 1 => .error .undefined
  | none :: _, _ + 1 => .error .undefined
  | some t :: rest, n + 1 =>
    match listOfArray rest n with
    | .error e => .error e
    | .ok l => .ok (t :: l)

/-- What a call of `filter` leaves behind. -/
structure FilterResult where
  /-- The returned object; `none` when the variable `results` is returned without ever
  having been assigned. -/
  results : Option (List PyTuple)
  /-- The Python error indicator. -/
  error : Option PyExc
  /-- Whether `fopen` was called. -/
  opened : Bool
  /-- The number of calls of `parseRow`. -/
  parsed : Nat
  deriving DecidableEq, Repr

/-- The error indicator when `filter` returns its list: `err` as `get_column_index` left
it, unless a tuple holds a `NULL`: then `PyUnicode_FromString` has set a
`UnicodeDecodeError`, which nothing clears. -/
def errorAfter (results : List PyTuple) (err : Option PyExc) : Option PyExc :=
  if results.any (fun t => t.any Option.isNone) then some .UnicodeDecodeError else err

/-- The step budget of the loop of `filter`: every row but the last moves the cursor
forward. The budget is never exhausted (`filter_ne_fuel`). -/
def filterFuel (data : List Nat) : Nat := data.length + 2

/-- The function `filter(self, column, pattern)`. `file` is the content of the file named
by `self->file_name` (`none` when it cannot be opened: `parseRow` is then called on the
null stream), `headers` is `self->headers`; `slackC` and `slackP` are the cells that follow
a column string and the pattern string in memory. -/
def filter (file : Option (List Nat)) (headers : PyDict) (column pattern : PyStr)
    (slackC slackP : Buffer) : Except Fault FilterResult :=
  let pattern_str := cstring pattern slackP
  match strlen pattern_str with
  | .error e => .error e
  | .ok pattern_length =>
    let (index, err) := get_column_index headers column
    if index < 0 then .ok ⟨none, err, false, 0⟩
    else
      match file with
      | none => .error .undefined
      | some data =>
        match filterLoop (filterFuel data) (fopen data) index.toNat pattern_str
            pattern_length slackC initResults 0 with
        | .error e => .error e
        | .ok (st, parsed) =>
          match listOfArray st.results_array st.tuple_index with
          | .error e => .error e
          | .ok results => .ok ⟨some results, errorAfter results err, true, parsed⟩

/-! ## The tokenizer without the stream -/

/-- The variables of the `while` loop of `parseRow` between two bytes of a row, with the
text in place of the cursor: `raw` holds the bytes read since the last column end,
`skipped` how many of them were not counted in `colCharCount` (the opening quote), `cols`
the columns extracted so far. -/
structure Scan where
  colStateQuotes : Nat
  prevChar : Nat
  skipped : Nat
  raw : List Nat
  cols : List (List Nat)
  deriving DecidableEq, Repr

/-- One iteration of the `while` loop of `parseRow` on a byte `c` that is neither the line
ending nor `EOF`: an opening quote sets the state and is not counted; a comma outside the
quoted state, or right after a quote, ends the column, whose text is the last
`colCharCount` bytes read; every other byte is counted. -/
def scanByte (s : Scan) (c : Nat) : Scan :=
  if c = QUOTE ∧ s.colStateQuotes = 0 then
    ⟨ON, c, s.skipped + 1, s.raw ++ [c], s.cols⟩
  else if c = COMMA ∧ (s.colStateQuotes = 0 ∨ s.prevChar = QUOTE) then
    ⟨s.colStateQuotes, c, 0, [], s.cols ++ [s.raw.drop s.skipped]⟩
  else ⟨s.colStateQuotes, c, s.skipped, s.raw ++ [c], s.cols⟩

/-- The iterations of the `while` loop of `parseRow` over the bytes of a line. -/
def scanRow (s : Scan) : List Nat → Scan
  | [] => s
  | c :: r => scanRow (scanByte s c) r

/-- The state in which `parseRow` enters its loop. -/
def scanStart : Scan := ⟨OFF, 0, 0, [], []⟩

/-- The columns of a line as the loop of `parseRow` cuts them: the columns ended by a
comma, then the column ended by the line ending. -/
def rowFields (line : List Nat) : List (List Nat) :=
  (scanRow scanStart line).cols
    ++ [(scanRow scanStart line).raw.drop (scanRow scanStart line).skipped]

/-! ## The first version of the column extractor (`Parser.c`) -/

/-- The `for` loop of `parseColumn` in `Parser.c`, with `n` iterations left: every byte
read is stored, there is no test for a carriage return. -/
def readColumnParser (fp : FILE) : Nat → Buffer × FILE
  | 0 => ([], fp)
  | n + 1 =>
    match fgetc fp with
    | (some c, fp1) => ((some c :: (readColumnParser fp1 n).1), (readColumnParser fp1 n).2)
    | (none, fp1) => ((some 255 :: (readColumnParser fp1 n).1), (readColumnParser fp1 n).2)

/-- The function `parseColumn(fp, c_count)` of `Parser.c`. -/
def parseColumnParser (fp : FILE) (c_count : Nat) : Except Fault (Buffer × FILE) :=
  let offset : Int := -(c_count : Int) - 1
  match fseek fp offset with
  | none => .error .exit_failure
  | some fp1 => .ok (readColumnParser fp1 c_count)

/-! ## Inputs used in the evaluations -/

/-- The file of the scenario: the lines `a,b,c`, `1,2,3` and `4,5,6`, each ended by a
newline. -/
def scenario : List Nat :=
  [97, 44, 98, 44, 99, 10, 49, 44, 50, 44, 51, 10, 52, 44, 53, 44, 54, 10]

/-- A header line of 201 pairwise distinct two-letter column names. -/
def wideHeader : List Nat :=
  List.intercalate [COMMA] ((List.range 201).map fun i => [97 + i / 16, 97 + i % 16])

/-- A row that starts with the quoted field `"x"` and goes on with 200 fields `"`, each
closed by a quote and a comma. -/
def wideQuotedRow : List Nat := [34, 120, 34, 44] ++ (List.replicate 200 [34, 44]).flatten

/-- The file `name,age\nbob,3\n`. -/
def nameAge : List Nat :=
  [110, 97, 109, 101, 44, 97, 103, 101, 10, 98, 111, 98, 44, 51, 10]

/-- The file made of the given lines, each ended by a newline. -/
def fileOfLines (lines : List (List Nat)) : List Nat :=
  (lines.map fun l => l ++ [LINE_ENDING]).flatten

/-! ## Streams: basic facts -/

theorem fgetc_at (X Y : List Nat) (c : Nat) :
    fgetc ⟨X ++ c :: Y, X.length⟩ = (some c, ⟨X ++ c :: Y, X.length + 1⟩) := by
  have h : (X ++ c :: Y)[X.length]? = some c := by
    rw [List.getElem?_append_right (Nat.le_refl _)]; simp
  simp only [fgetc, h]

theorem fgetc_eof (data : List Nat) (pos : Nat) (h : data.length ≤ pos) :
    fgetc ⟨data, pos⟩ = (none, ⟨data, pos⟩) := by
  have h1 : data[pos]? = none := List.getElem?_eq_none h
  simp only [fgetc, h1]

theorem fseek_one (fp : FILE) : fseek fp 1 = some ⟨fp.data, fp.pos + 1⟩ := by
  unfold fseek
  rw [if_pos (by omega)]
  congr 2

theorem fseek_back (data : List Nat) (p n : Nat) :
    fseek ⟨data, p + n + 1⟩ (-(n : Int) - 1) = some ⟨data, p⟩ := by
  unfold fseek
  have h : ((p + n + 1 : Nat) : Int) + (-(n : Int) - 1) = (p : Int) := by push_cast; ring
  simp only [h]
  simp

theorem readColumn_spec (f : List Nat) : ∀ (X Y : List Nat), CR ∉ f →
    readColumn ⟨X ++ f ++ Y, X.length⟩ f.length
      = (f.map some, ⟨X ++ f ++ Y, X.length + f.length⟩) := by
  induction f with
  | nil => intro X Y _; simp [readColumn]
  | cons c f ih =>
    intro X Y h
    have hc : c ≠ CR := fun e => h (by simp [e])
    have hf : CR ∉ f := fun e => h (by simp [e])
    have e1 : X ++ c :: f ++ Y = X ++ c :: (f ++ Y) := by simp
    have e2 : X ++ c :: (f ++ Y) = (X ++ [c]) ++ f ++ Y := by simp
    have := ih (X ++ [c]) Y hf
    simp only [List.length_append, List.length_singleton] at this
    simp only [List.length_cons, readColumn, e1, fgetc_at, if_neg hc]
    rw [e2, this]
    simp [Nat.add_assoc, Nat.add_comm 1]

/-- Extraction of a column free of carriage returns: the bytes `f` that end one byte before
the cursor are returned, and the cursor is left on the byte that followed them. -/
theorem parseColumn_spec (X f Y : List Nat) (h : CR ∉ f) :
    parseColumn ⟨X ++ f ++ Y, X.length + f.length + 1⟩ f.length
      = .ok (f.map some, ⟨X ++ f ++ Y, X.length + f.length⟩) := by
  simp only [parseColumn, fseek_back, readColumn_spec f X Y h]

theorem storeColumn_ok (cols : List Buffer) (s : Buffer)
    (h : cols.length < DEFAULT_COL_NUM) : storeColumn cols s = .ok (cols ++ [s]) := by
  simp [storeColumn, h]

theorem finishRow_spec (X f Y : List Nat) (h : CR ∉ f) (lastRow : Nat) (cols : List Buffer)
    (hcap : cols.length < DEFAULT_COL_NUM) :
    finishRow ⟨X ++ f ++ Y, X.length + f.length + 1⟩ f.length lastRow cols
      = .ok (⟨cols.length + 1, lastRow, cols ++ [f.map some]⟩,
          ⟨X ++ f ++ Y, X.length + f.length + 1⟩) := by
  simp only [finishRow, parseColumn_spec X f Y h, storeColumn_ok cols _ hcap, fseek_one]
  simp

theorem endColumn_spec (X f Y : List Nat) (h : CR ∉ f) (cols : List Buffer)
    (hcap : cols.length < DEFAULT_COL_NUM) :
    endColumn ⟨X ++ f ++ Y, X.length + f.length + 1⟩ f.length cols
      = .ok (cols ++ [f.map some], ⟨X ++ f ++ Y, X.length + f.length + 1⟩) := by
  simp only [endColumn, parseColumn_spec X f Y h, storeColumn_ok cols _ hcap, fseek_one]

theorem splitOn_single (f : List Nat) (h : COMMA ∉ f) : f.splitOn COMMA = [f] := by
  unfold List.splitOn
  apply List.splitOnP_eq_single
  intro x hx hp
  have : x = COMMA := by simpa using hp
  exact h (this ▸ hx)

theorem splitOn_first (f r : List Nat) (h : COMMA ∉ f) :
    (f ++ COMMA :: r).splitOn COMMA = f :: r.splitOn COMMA := by
  unfold List.splitOn
  apply List.splitOnP_first
  · intro x hx hp
    have : x = COMMA := by simpa using hp
    exact h (this ▸ hx)
  · simp

/-- The `while` loop of `parseRow` in the unquoted state, on the rest `r` of a line without
quotes and carriage returns, after the bytes `f` of the current column. -/
theorem parseRowLoop_unquoted (post : List Nat) : ∀ (r A f : List Nat) (cols : List Buffer)
    (fuel prev : Nat) (data : List Nat) (pos n : Nat),
    data = A ++ f ++ r ++ LINE_ENDING :: post → pos = A.length + f.length → n = f.length →
    COMMA ∉ f → CR ∉ f → QUOTE ∉ r → CR ∉ r → LINE_ENDING ∉ r →
    cols.length + r.count COMMA < DEFAULT_COL_NUM → r.length < fuel →
    parseRowLoop fuel ⟨data, pos⟩ OFF prev n cols
      = .ok (⟨cols.length + r.count COMMA + 1, 0,
              cols ++ ((f ++ r).splitOn COMMA).map (List.map some)⟩,
            ⟨data, A.length + f.length + r.length + 1⟩) := by
  intro r
  induction r with
  | nil =>
    intro A f cols fuel prev data pos n hd hp hn hfc hfr _ _ _ hcap hfuel
    obtain ⟨fuel, rfl⟩ : ∃ k, fuel = k + 1 := ⟨fuel - 1, by omega⟩
    subst hp hn
    have hd1 : data = (A ++ f) ++ LINE_ENDING :: post := by simp [hd]
    have hg : fgetc ⟨data, A.length + f.length⟩
        = (some LINE_ENDING, ⟨data, A.length + f.length + 1⟩) := by
      rw [hd1, ← List.length_append]; exact fgetc_at _ _ _
    have hcap1 : cols.length < DEFAULT_COL_NUM := by simp at hcap; exact hcap
    have hfin := finishRow_spec A f (LINE_ENDING :: post) hfr 0 cols hcap1
    rw [← hd1] at hfin
    simp only [parseRowLoop, hg, if_true, hfin]
    simp [splitOn_single f hfc]
  | cons c r ih =>
    intro A f cols fuel prev data pos n hd hp hn hfc hfr hq hcr hnl hcap hfuel
    obtain ⟨fuel, rfl⟩ : ∃ k, fuel = k + 1 := ⟨fuel - 1, by omega⟩
    subst hp hn
    have hc1 : c ≠ LINE_ENDING := fun e => hnl (by simp [e])
    have hc2 : c ≠ QUOTE := fun e => hq (by simp [e])
    have hc3 : c ≠ CR := fun e => hcr (by simp [e])
    have hq1 : QUOTE ∉ r := fun e => hq (by simp [e])
    have hcr1 : CR ∉ r := fun e => hcr (by simp [e])
    have hnl1 : LINE_ENDING ∉ r := fun e => hnl (by simp [e])
    have hd1 : data = (A ++ f) ++ c :: (r ++ LINE_ENDING :: post) := by simp [hd]
    have hg : fgetc ⟨data, A.length + f.length⟩
        = (some c, ⟨data, A.length + f.length + 1⟩) := by
      rw [hd1, ← List.length_append]; exact fgetc_at _ _ _
    have hlen : r.length < fuel := by simp at hfuel; omega
    by_cases hcomma : c = COMMA
    · subst hcomma
      have hcnt : (COMMA :: r).count COMMA = r.count COMMA + 1 := by simp
      have hcap1 : cols.length < DEFAULT_COL_NUM := by omega
      have hend := endColumn_spec A f (COMMA :: (r ++ LINE_ENDING :: post)) hfr cols hcap1
      rw [← hd1] at hend
      have hih := ih (A ++ f ++ [COMMA]) [] (cols ++ [f.map some]) fuel COMMA data
        (A.length + f.length + 1) 0 (by simp [hd]) (by simp; omega) rfl (by simp) (by simp)
        hq1 hcr1 hnl1 (by simp; omega) hlen
      simp only [parseRowLoop, hg, if_neg hc1, hc2, false_and, if_false, if_true, OFF, hend]
      simp only [OFF] at hih
      rw [hih]
      simp [splitOn_first f r hfc, hcnt]
      omega
    · have hcnt : (c :: r).count COMMA = r.count COMMA := by
        simp [List.count_cons, Ne.symm hcomma]
      have hih := ih A (f ++ [c]) cols fuel c data (A.length + f.length + 1) (f.length + 1)
        (by simp [hd]) (by simp; omega) (by simp)
        (by simp; exact ⟨hfc, Ne.symm hcomma⟩) (by simp; exact ⟨hfr, Ne.symm hc3⟩)
        hq1 hcr1 hnl1 (by omega) hlen
      simp only [parseRowLoop, hg, if_neg hc1, hc2, false_and, if_false, if_neg hcomma]
      rw [hih]
      simp [hcnt]
      omega

theorem storeColumn_full (cols : List Buffer) (s : Buffer)
    (h : DEFAULT_COL_NUM ≤ cols.length) : storeColumn cols s = .error .undefined := by
  simp [storeColumn, Nat.not_lt.mpr h]

theorem finishRow_full (X f Y : List Nat) (h : CR ∉ f) (lastRow : Nat) (cols : List Buffer)
    (hcap : DEFAULT_COL_NUM ≤ cols.length) :
    finishRow ⟨X ++ f ++ Y, X.length + f.length + 1⟩ f.length lastRow cols
      = .error .undefined := by
  simp only [finishRow, parseColumn_spec X f Y h, storeColumn_full cols _ hcap]

theorem endColumn_full (X f Y : List Nat) (h : CR ∉ f) (cols : List Buffer)
    (hcap : DEFAULT_COL_NUM ≤ cols.length) :
    endColumn ⟨X ++ f ++ Y, X.length + f.length + 1⟩ f.length cols = .error .undefined := by
  simp only [endColumn, parseColumn_spec X f Y h, storeColumn_full cols _ hcap]

/-- The `while` loop of `parseRow` in the unquoted state, on a line that has more columns
than `row.columns` has slots. -/
theorem parseRowLoop_unquoted_full (post : List Nat) : ∀ (r A f : List Nat)
    (cols : List Buffer) (fuel prev : Nat) (data : List Nat) (pos n : Nat),
    data = A ++ f ++ r ++ LINE_ENDING :: post → pos = A.length + f.length → n = f.length →
    COMMA ∉ f → CR ∉ f → QUOTE ∉ r → CR ∉ r → LINE_ENDING ∉ r →
    DEFAULT_COL_NUM ≤ cols.length + r.count COMMA → r.length < fuel →
    parseRowLoop fuel ⟨data, pos⟩ OFF prev n cols = .error .undefined := by
  intro r
  induction r with
  | nil =>
    intro A f cols fuel prev data pos n hd hp hn hfc hfr _ _ _ hcap hfuel
    obtain ⟨fuel, rfl⟩ : ∃ k, fuel = k + 1 := ⟨fuel - 1, by omega⟩
    subst hp hn
    have hd1 : data = (A ++ f) ++ LINE_ENDING :: post := by simp [hd]
    have hg : fgetc ⟨data, A.length + f.length⟩
        = (some LINE_ENDING, ⟨data, A.length + f.length + 1⟩) := by
      rw [hd1, ← List.length_append]; exact fgetc_at _ _ _
    have hcap1 : DEFAULT_COL_NUM ≤ cols.length := by simp at hcap; exact hcap
    have hfin := finishRow_full A f (LINE_ENDING :: post) hfr 0 cols hcap1
    rw [← hd1] at hfin
    simp only [parseRowLoop, hg, if_true, hfin]
  | cons c r ih =>
    intro A f cols fuel prev data pos n hd hp hn hfc hfr hq hcr hnl hcap hfuel
    obtain ⟨fuel, rfl⟩ : ∃ k, fuel = k + 1 := ⟨fuel - 1, by omega⟩
    subst hp hn
    have hc1 : c ≠ LINE_ENDING := fun e => hnl (by simp [e])
    have hc2 : c ≠ QUOTE := fun e => hq (by simp [e])
    have hc3 : c ≠ CR := fun e => hcr (by simp [e])
    have hq1 : QUOTE ∉ r := fun e => hq (by simp [e])
    have hcr1 : CR ∉ r := fun e => hcr (by simp [e])
    have hnl1 : LINE_ENDING ∉ r := fun e => hnl (by simp [e])
    have hd1 : data = (A ++ f) ++ c :: (r ++ LINE_ENDING :: post) := by simp [hd]
    have hg : fgetc ⟨data, A.length + f.length⟩
        = (some c, ⟨data, A.length + f.length + 1⟩) := by
      rw [hd1, ← List.length_append]; exact fgetc_at _ _ _
    have hlen : r.length < fuel := by simp at hfuel; omega
    by_cases hcomma : c = COMMA
    · subst hcomma
      have hcnt : (COMMA :: r).count COMMA = r.count COMMA + 1 := by simp
      by_cases hfull : DEFAULT_COL_NUM ≤ cols.length
      · have hend := endColumn_full A f (COMMA :: (r ++ LINE_ENDING :: post)) hfr cols hfull
        rw [← hd1] at hend
        simp only [parseRowLoop, hg, if_neg hc1, hc2, false_and, if_false, if_true, OFF, hend]
      · have hcap1 : cols.length < DEFAULT_COL_NUM := by omega
        have hend := endColumn_spec A f (COMMA :: (r ++ LINE_ENDING :: post)) hfr cols hcap1
        rw [← hd1] at hend
        have hih := ih (A ++ f ++ [COMMA]) [] (cols ++ [f.map some]) fuel COMMA data
          (A.length + f.length + 1) 0 (by simp [hd]) (by simp; omega) rfl (by simp) (by simp)
          hq1 hcr1 hnl1 (by simp; omega) hlen
        simp only [parseRowLoop, hg, if_neg hc1, hc2, false_and, if_false, if_true, OFF, hend]
        simp only [OFF] at hih
        rw [hih]
    · have hcnt : (c :: r).count COMMA = r.count COMMA := by
        simp [List.count_cons, Ne.symm hcomma]
      have hih := ih A (f ++ [c]) cols fuel c data (A.length + f.length + 1) (f.length + 1)
        (by simp [hd]) (by simp; omega) (by simp)
        (by simp; exact ⟨hfc, Ne.symm hcomma⟩) (by simp; exact ⟨hfr, Ne.symm hc3⟩)
        hq1 hcr1 hnl1 (by omega) hlen
      simp only [parseRowLoop, hg, if_neg hc1, hc2, false_and, if_false, if_neg hcomma]
      rw [hih]

/-! ## The step budget of `parseRow` is never exhausted -/

theorem readColumn_pos : ∀ (n : Nat) (fp : FILE),
    (readColumn fp n).2.data = fp.data ∧ fp.pos ≤ (readColumn fp n).2.pos ∧
    (readColumn fp n).2.pos ≤ fp.pos + n := by
  intro n
  induction n with
  | zero => intro fp; simp [readColumn]
  | succ n ih =>
    intro fp
    cases hget : fp.data[fp.pos]? with
    | none =>
      have h := ih fp
      have e : readColumn fp (n + 1)
          = ((some 255 :: (readColumn fp n).1), (readColumn fp n).2) := by
        simp only [readColumn, fgetc, hget]
      rw [e]
      exact ⟨h.1, h.2.1, by have := h.2.2; dsimp only; omega⟩
    | some c =>
      have h := ih ⟨fp.data, fp.pos + 1⟩
      by_cases hc : c = CR
      · have e : readColumn fp (n + 1)
            = (List.replicate (n + 1) none, ⟨fp.data, fp.pos + 1⟩) := by
          simp only [readColumn, fgetc, hget, hc, if_true]
        rw [e]
        exact ⟨rfl, by dsimp only; omega, by dsimp only; omega⟩
      · have e : readColumn fp (n + 1)
            = ((some c :: (readColumn ⟨fp.data, fp.pos + 1⟩ n).1),
                (readColumn ⟨fp.data, fp.pos + 1⟩ n).2) := by
          simp only [readColumn, fgetc, hget, hc, if_false]
        rw [e]
        dsimp only at h ⊢
        exact ⟨h.1, by omega, by omega⟩

theorem fseek_back_le (data : List Nat) (pos n : Nat) (h : n ≤ pos) :
    fseek ⟨data, pos + 1⟩ (-(n : Int) - 1) = some ⟨data, pos - n⟩ := by
  have e : pos + 1 = (pos - n) + n + 1 := by omega
  rw [e, fseek_back]

theorem endColumn_pos (data : List Nat) (pos n : Nat) (cols cols1 : List Buffer) (fp2 : FILE)
    (h : n ≤ pos) (hend : endColumn ⟨data, pos + 1⟩ n cols = .ok (cols1, fp2)) :
    fp2.data = data ∧ pos - n + 1 ≤ fp2.pos ∧ fp2.pos ≤ pos + 1 := by
  have hr := readColumn_pos n ⟨data, pos - n⟩
  simp only [endColumn, parseColumn, fseek_back_le data pos n h] at hend
  cases hs : storeColumn cols (readColumn ⟨data, pos - n⟩ n).1 with
  | error e => rw [hs] at hend; simp at hend
  | ok c1 =>
    rw [hs] at hend
    simp only [fseek_one, Except.ok.injEq, Prod.mk.injEq] at hend
    obtain ⟨_, hfp⟩ := hend
    subst hfp
    dsimp only at hr ⊢
    exact ⟨hr.1, by omega, by omega⟩

theorem endColumn_ne_fuel (fp : FILE) (n : Nat) (cols : List Buffer) :
    endColumn fp n cols ≠ .error .fuel := by
  simp only [endColumn, parseColumn]
  cases fseek fp (-(n : Int) - 1) with
  | none => simp
  | some fp1 =>
    simp only [storeColumn]
    split_ifs <;> simp [fseek_one]

theorem finishRow_ne_fuel (fp : FILE) (n lastRow : Nat) (cols : List Buffer) :
    finishRow fp n lastRow cols ≠ .error .fuel := by
  simp only [finishRow, parseColumn]
  cases fseek fp (-(n : Int) - 1) with
  | none => simp
  | some fp1 =>
    simp only [storeColumn]
    split_ifs <;> simp [fseek_one]

theorem parseColumn_ne_fuel (fp : FILE) (n : Nat) : parseColumn fp n ≠ .error .fuel := by
  simp only [parseColumn]
  cases fseek fp (-(n : Int) - 1) <;> simp

theorem endColumn_step (fuel : Nat) (data : List Nat) (pos q c n : Nat) (cols : List Buffer)
    (a : Nat) (hn : n ≤ pos) (hpos : pos < data.length)
    (ha : data.length + 1 ≤ a + (pos - n))
    (hfuel : a * (data.length + 2) + (data.length + 1 - pos) < fuel + 1)
    (ih : ∀ (data : List Nat) (pos q prev n : Nat) (cols : List Buffer) (a : Nat),
      0 < fuel →
      (pos < data.length → n ≤ pos ∧ data.length + 1 ≤ a + (pos - n) ∧
        a * (data.length + 2) + (data.length + 1 - pos) < fuel) →
      parseRowLoop fuel ⟨data, pos⟩ q prev n cols ≠ .error .fuel) :
    (match endColumn ⟨data, pos + 1⟩ n cols with
      | .error e => (.error e : Except Fault (Row × FILE))
      | .ok (columns1, fp2) => parseRowLoop fuel fp2 q c 0 columns1) ≠ .error .fuel := by
  cases hend : endColumn ⟨data, pos + 1⟩ n cols with
  | error e =>
    intro h
    simp only [Except.error.injEq] at h
    subst h
    exact endColumn_ne_fuel _ _ _ hend
  | ok r =>
    obtain ⟨cols1, fp2⟩ := r
    obtain ⟨hd, hlo, hhi⟩ := endColumn_pos data pos n cols cols1 fp2 hn hend
    obtain ⟨d2, p2⟩ := fp2
    simp only at hd hlo hhi
    subst hd
    obtain ⟨b, rfl⟩ : ∃ b, a = b + 1 := ⟨a - 1, by omega⟩
    have hmul : (b + 1) * (d2.length + 2) = b * (d2.length + 2) + (d2.length + 2) := by ring
    simp only
    exact ih d2 p2 q c 0 cols1 b (by omega) (fun _ => ⟨by omega, by omega, by omega⟩)

/-- The `while` loop of `parseRow` ends within its budget: a count `a` of column ends still
possible and the distance of the cursor from the end of the file bound the iterations. -/
theorem parseRowLoop_ne_fuel : ∀ (fuel : Nat) (data : List Nat) (pos q prev n : Nat)
    (cols : List Buffer) (a : Nat),
    0 < fuel →
    (pos < data.length → n ≤ pos ∧ data.length + 1 ≤ a + (pos - n) ∧
      a * (data.length + 2) + (data.length + 1 - pos) < fuel) →
    parseRowLoop fuel ⟨data, pos⟩ q prev n cols ≠ .error .fuel := by
  intro fuel
  induction fuel with
  | zero => intro data pos q prev n cols a h0; omega
  | succ fuel ih =>
    intro data pos q prev n cols a _ hinv
    cases hget : data[pos]? with
    | none =>
      simp only [parseRowLoop, fgetc, hget]
      cases hp : parseColumn ⟨data, pos⟩ n with
      | error e =>
        intro h
        simp only [Except.error.injEq] at h
        subst h
        exact parseColumn_ne_fuel _ _ hp
      | ok r =>
        obtain ⟨s, fp2⟩ := r
        simp only [storeColumn]
        split_ifs
        · exact finishRow_ne_fuel _ _ _ _
        · simp
    | some c =>
      have hpos : pos < data.length := by
        by_contra hcon
        have : data[pos]? = none := List.getElem?_eq_none (by omega)
        rw [this] at hget
        exact Option.noConfusion hget
      obtain ⟨hn, ha, hfuel⟩ := hinv hpos
      have hfuel0 : 0 < fuel := by omega
      simp only [parseRowLoop, fgetc, hget]
      split_ifs with h1 h2 h3 h4 h5
      · exact finishRow_ne_fuel _ _ _ _
      · exact ih data (pos + 1) ON c n cols a hfuel0 (fun _ => ⟨by omega, by omega, by omega⟩)
      · exact endColumn_step fuel data pos q c n cols a hn hpos ha hfuel ih
      · exact endColumn_step fuel data pos q c n cols a hn hpos ha hfuel ih
      · exact ih data (pos + 1) q c (n + 1) cols a hfuel0
          (fun _ => ⟨by omega, by omega, by omega⟩)
      · exact ih data (pos + 1) q c (n + 1) cols a hfuel0
          (fun _ => ⟨by omega, by omega, by omega⟩)

/-- The call `parseRow(fp)` never exhausts its step budget: whenever the model gives no
row, the code calls `exit` or has no defined behaviour. -/
theorem parseRow_ne_fuel (fp : FILE) : parseRow fp ≠ .error .fuel := by
  obtain ⟨data, pos⟩ := fp
  simp only [parseRow, rowFuel]
  apply parseRowLoop_ne_fuel _ data pos OFF 0 0 [] (data.length + 1)
  · exact Nat.mul_pos (by omega) (by omega)
  · intro hpos
    refine ⟨by omega, by omega, ?_⟩
    have : (data.length + 2) * (data.length + 2)
        = (data.length + 1) * (data.length + 2) + (data.length + 2) := by ring
    omega

/-! ## Every row but the last moves the cursor forward -/

theorem finishRow_pos (data : List Nat) (pos n lastRow : Nat) (cols : List Buffer) (row : Row)
    (fp2 : FILE) (h : n ≤ pos)
    (hfin : finishRow ⟨data, pos + 1⟩ n lastRow cols = .ok (row, fp2)) :
    fp2.data = data ∧ pos - n + 1 ≤ fp2.pos ∧ fp2.pos ≤ pos + 1 ∧ row.lastRow = lastRow := by
  have hr := readColumn_pos n ⟨data, pos - n⟩
  simp only [finishRow, parseColumn, fseek_back_le data pos n h] at hfin
  cases hs : storeColumn cols (readColumn ⟨data, pos - n⟩ n).1 with
  | error e => rw [hs] at hfin; simp at hfin
  | ok c1 =>
    rw [hs] at hfin
    simp only [fseek_one, Except.ok.injEq, Prod.mk.injEq] at hfin
    obtain ⟨hrow, hfp⟩ := hfin
    subst hfp hrow
    dsimp only at hr ⊢
    exact ⟨hr.1, by omega, by omega, rfl⟩

theorem finishRow_lastRow (fp : FILE) (n lastRow : Nat) (cols : List Buffer) (row : Row)
    (fp2 : FILE) (hfin : finishRow fp n lastRow cols = .ok (row, fp2)) :
    row.lastRow = lastRow := by
  simp only [finishRow] at hfin
  cases hp : parseColumn fp n with
  | error e => rw [hp] at hfin; simp at hfin
  | ok r =>
    obtain ⟨s, fp1⟩ := r
    rw [hp] at hfin
    simp only at hfin
    cases hs : storeColumn cols s with
    | error e => rw [hs] at hfin; simp at hfin
    | ok c1 =>
      rw [hs] at hfin
      simp only [fseek_one, Except.ok.injEq, Prod.mk.injEq] at hfin
      rw [← hfin.1]

/-- A row that is not the last one leaves the cursor after the position `p0` at which the
current column started or later, and inside the file. -/
theorem parseRowLoop_progress : ∀ (fuel : Nat) (data : List Nat) (pos q prev n : Nat)
    (cols : List Buffer) (p0 : Nat) (row : Row) (fp2 : FILE),
    p0 + n ≤ pos →
    parseRowLoop fuel ⟨data, pos⟩ q prev n cols = .ok (row, fp2) → row.lastRow ≠ 1 →
    fp2.data = data ∧ p0 < fp2.pos ∧ fp2.pos ≤ data.length := by
  intro fuel
  induction fuel with
  | zero => intro data pos q prev n cols p0 row fp2 _ h; simp [parseRowLoop] at h
  | succ fuel ih =>
    intro data pos q prev n cols p0 row fp2 hp0 hrun hlast
    cases hget : data[pos]? with
    | none =>
      exfalso
      simp only [parseRowLoop, fgetc, hget] at hrun
      cases hp : parseColumn ⟨data, pos⟩ n with
      | error e => rw [hp] at hrun; simp at hrun
      | ok r =>
        obtain ⟨s, fp1⟩ := r
        rw [hp] at hrun
        simp only at hrun
        cases hs : storeColumn cols s with
        | error e => rw [hs] at hrun; simp at hrun
        | ok c1 =>
          rw [hs] at hrun
          exact hlast (finishRow_lastRow _ _ _ _ _ _ hrun)
    | some c =>
      have hpos : pos < data.length := by
        by_contra hcon
        have : data[pos]? = none := List.getElem?_eq_none (by omega)
        rw [this] at hget
        exact Option.noConfusion hget
      simp only [parseRowLoop, fgetc, hget] at hrun
      have hend : ∀ (c : Nat),
          (match endColumn ⟨data, pos + 1⟩ n cols with
            | .error e => (.error e : Except Fault (Row × FILE))
            | .ok (columns1, fp1) => parseRowLoop fuel fp1 q c 0 columns1) = .ok (row, fp2) →
          fp2.data = data ∧ p0 < fp2.pos ∧ fp2.pos ≤ data.length := by
        intro c hr2
        cases he : endColumn ⟨data, pos + 1⟩ n cols with
        | error e => rw [he] at hr2; simp at hr2
        | ok r =>
          obtain ⟨cols1, fp1⟩ := r
          rw [he] at hr2
          obtain ⟨hd, hlo, hhi⟩ := endColumn_pos data pos n cols cols1 fp1 (by omega) he
          obtain ⟨d1, p1⟩ := fp1
          simp only at hd hlo hhi hr2
          subst hd
          exact ih d1 p1 q c 0 cols1 p0 row fp2 (by omega) hr2 hlast
      split_ifs at hrun with h1 h2 h3 h4 h5
      · obtain ⟨hd, hlo, hhi, _⟩ := finishRow_pos data pos n 0 cols row fp2 (by omega) hrun
        exact ⟨hd, by omega, by omega⟩
      · exact ih data (pos + 1) ON c n cols p0 row fp2 (by omega) hrun hlast
      · exact hend c hrun
      · exact hend c hrun
      · exact ih data (pos + 1) q c (n + 1) cols p0 row fp2 (by omega) hrun hlast
      · exact ih data (pos + 1) q c (n + 1) cols p0 row fp2 (by omega) hrun hlast

theorem parseRow_progress (fp : FILE) (row : Row) (fp2 : FILE)
    (h : parseRow fp = .ok (row, fp2)) (hlast : row.lastRow ≠ 1) :
    fp2.data = fp.data ∧ fp.pos < fp2.pos ∧ fp2.pos ≤ fp.data.length := by
  obtain ⟨data, pos⟩ := fp
  exact parseRowLoop_progress _ data pos OFF 0 0 [] pos row fp2 (by omega) h hlast

/-- The loop of `parseFile` never exhausts its budget when it is given one more step than
the cursor is away from the end of the file. -/
theorem parseFileLoop_ne_fuel : ∀ (fuel : Nat) (fp : FILE),
    0 < fuel → fp.data.length < fp.pos + fuel → parseFileLoop fuel fp ≠ .error .fuel := by
  intro fuel
  induction fuel with
  | zero => intro fp h0; omega
  | succ fuel ih =>
    intro fp _ h
    simp only [parseFileLoop]
    cases hrow : parseRow fp with
    | error e =>
      intro hh
      simp only [Except.error.injEq] at hh
      subst hh
      exact parseRow_ne_fuel _ hrow
    | ok r =>
      obtain ⟨row, fp1⟩ := r
      simp only
      split_ifs with hl
      · simp
      · obtain ⟨hd, hlo, hhi⟩ := parseRow_progress fp row fp1 hrow hl
        have := ih fp1 (by omega) (by rw [hd]; omega)
        cases hrest : parseFileLoop fuel fp1 with
        | error e =>
          intro hh
          simp only [Except.error.injEq] at hh
          subst hh
          exact this hrest
        | ok r => simp

/-- The call `parseFile(fp)` never exhausts its step budget. -/
theorem parseFile_ne_fuel (fp : FILE) : parseFile fp ≠ .error .fuel :=
  parseFileLoop_ne_fuel _ fp (by omega) (by omega)

theorem rowFuel_gt (data : List Nat) (pos : Nat) : data.length < rowFuel ⟨data, pos⟩ := by
  simp only [rowFuel]
  nlinarith

/-- The tokenizer on a line without quotes and carriage returns that has fewer than
`DEFAULT_COL_NUM` commas. -/
theorem parseRow_line (pre line post : List Nat)
    (hq : QUOTE ∉ line) (hcr : CR ∉ line) (hnl : LINE_ENDING ∉ line)
    (hcap : line.count COMMA < DEFAULT_COL_NUM) :
    parseRow ⟨pre ++ line ++ LINE_ENDING :: post, pre.length⟩
      = .ok (⟨line.count COMMA + 1, 0, (line.splitOn COMMA).map (List.map some)⟩,
            ⟨pre ++ line ++ LINE_ENDING :: post, pre.length + line.length + 1⟩) := by
  have hfuel : line.length < rowFuel ⟨pre ++ line ++ LINE_ENDING :: post, pre.length⟩ := by
    have := rowFuel_gt (pre ++ line ++ LINE_ENDING :: post) pre.length
    simp only [List.length_append, List.length_cons] at this
    omega
  have h := parseRowLoop_unquoted post line pre [] [] _ 0
    (pre ++ line ++ LINE_ENDING :: post) pre.length 0 (by simp) (by simp) rfl
    (by simp) (by simp) hq hcr hnl (by simpa using hcap) hfuel
  simpa [parseRow] using h

/-- The tokenizer on a line without quotes and carriage returns that has at least
`DEFAULT_COL_NUM` commas: a column is stored outside `row.columns`. -/
theorem parseRow_line_full (pre line post : List Nat)
    (hq : QUOTE ∉ line) (hcr : CR ∉ line) (hnl : LINE_ENDING ∉ line)
    (hcap : DEFAULT_COL_NUM ≤ line.count COMMA) :
    parseRow ⟨pre ++ line ++ LINE_ENDING :: post, pre.length⟩ = .error .undefined := by
  have hfuel : line.length < rowFuel ⟨pre ++ line ++ LINE_ENDING :: post, pre.length⟩ := by
    have := rowFuel_gt (pre ++ line ++ LINE_ENDING :: post) pre.length
    simp only [List.length_append, List.length_cons] at this
    omega
  have h := parseRowLoop_unquoted_full post line pre [] [] _ 0
    (pre ++ line ++ LINE_ENDING :: post) pre.length 0 (by simp) (by simp) rfl
    (by simp) (by simp) hq hcr hnl (by simpa using hcap) hfuel
  simpa [parseRow] using h

/-! ## C1: rows without quotes -/

/-- C1 (as stated, refuted): a line of 200 commas followed by a newline has no quote, no
carriage return and no newline, yet `parseRow` does not return its 201 empty fields: the
201st column is stored outside the `DEFAULT_COL_NUM` slots of `row.columns`. -/
theorem parseRow_unquoted_line_overflow :
    QUOTE ∉ List.replicate 200 COMMA ∧ CR ∉ List.replicate 200 COMMA ∧
    LINE_ENDING ∉ List.replicate 200 COMMA ∧
    parseRow ⟨[] ++ List.replicate 200 COMMA ++ LINE_ENDING :: [], 0⟩ = .error .undefined ∧
    parseRow ⟨[] ++ List.replicate 200 COMMA ++ LINE_ENDING :: [], 0⟩
      ≠ .ok (⟨(List.replicate 200 COMMA).count COMMA + 1, 0,
              ((List.replicate 200 COMMA).splitOn COMMA).map (List.map some)⟩,
            ⟨[] ++ List.replicate 200 COMMA ++ LINE_ENDING :: [], 0 + 200 + 1⟩) := by
  have h : parseRow ⟨[] ++ List.replicate 200 COMMA ++ LINE_ENDING :: [], 0⟩
      = .error .undefined :=
    parseRow_line_full [] (List.replicate 200 COMMA) [] (by decide) (by decide) (by decide)
      (by rw [List.count_replicate_self]; decide)
  refine ⟨by decide, by decide, by decide, h, ?_⟩
  rw [h]
  exact fun e => Except.noConfusion e

/-- C1 (amended): for every line without double quote, carriage return and newline that has
fewer than `DEFAULT_COL_NUM` commas and is followed by a newline, `parseRow` called with the
cursor at the start of the line returns the fields of the line split at every comma, in
order, with `columnCount` the number of commas plus one and `lastRow = 0`, and leaves the
cursor after the newline. -/
theorem parseRow_unquoted_line (pre line post : List Nat)
    (hq : QUOTE ∉ line) (hcr : CR ∉ line) (hnl : LINE_ENDING ∉ line)
    (hcap : line.count COMMA < DEFAULT_COL_NUM) :
    parseRow ⟨pre ++ line ++ LINE_ENDING :: post, pre.length⟩
      = .ok (⟨line.count COMMA + 1, 0, (line.splitOn COMMA).map (List.map some)⟩,
            ⟨pre ++ line ++ LINE_ENDING :: post, pre.length + line.length + 1⟩) :=
  parseRow_line pre line post hq hcr hnl hcap

/-- C1 (amended), at the line `a,b`. -/
theorem parseRow_unquoted_line_witness :
    (QUOTE ∉ [97, 44, 98] ∧ CR ∉ [97, 44, 98] ∧ LINE_ENDING ∉ [97, 44, 98] ∧
      [97, 44, 98].count COMMA < DEFAULT_COL_NUM) ∧
    parseRow ⟨[] ++ [97, 44, 98] ++ LINE_ENDING :: [], ([] : List Nat).length⟩
      = .ok (⟨[97, 44, 98].count COMMA + 1, 0,
              ([97, 44, 98].splitOn COMMA).map (List.map some)⟩,
            ⟨[] ++ [97, 44, 98] ++ LINE_ENDING :: [],
              ([] : List Nat).length + [97, 44, 98].length + 1⟩) :=
  ⟨by decide, parseRow_unquoted_line [] [97, 44, 98] [] (by decide) (by decide) (by decide)
    (by decide)⟩

/-! ## C2: quoted fields -/

/-- C2 (evaluation at the failing input): on the row text `"hello, world",42\n` the
tokenizer returns two columns, and the first one is `hello, world"`: the opening quote is
dropped and the closing quote is kept. -/
theorem parseRow_quoted_keeps_closing_quote :
    parseRow (fopen [34, 104, 101, 108, 108, 111, 44, 32, 119, 111, 114, 108, 100, 34, 44,
        52, 50, 10])
      = .ok (⟨2, 0, [[some 104, some 101, some 108, some 108, some 111, some 44, some 32,
                some 119, some 111, some 114, some 108, some 100, some 34],
              [some 52, some 50]]⟩,
            ⟨[34, 104, 101, 108, 108, 111, 44, 32, 119, 111, 114, 108, 100, 34, 44, 52, 50,
                10], 18⟩) := by
  decide

/-! ## C5, C6, C7: end of file and carriage returns -/

/-- C5 (evaluation at the failing input): on the file `h\n1\n`, a header line and one data
line, reading the header row and then reading rows until one is flagged last gives two
rows: the data row `1` with `lastRow = 0`, and a row of two empty columns with
`lastRow = 1`. -/
theorem parseFile_after_header_extra_row :
    parseRow (fopen [104, 10, 49, 10])
      = .ok (⟨1, 0, [[some 104]]⟩, ⟨[104, 10, 49, 10], 2⟩) ∧
    parseFile ⟨[104, 10, 49, 10], 2⟩
      = .ok ([⟨1, 0, [[some 49]]⟩, ⟨2, 1, [[], []]⟩], ⟨[104, 10, 49, 10], 3⟩) := by
  decide

/-- C6 (evaluation at the failing input): on the stream `a,b`, which ends without a
newline, `parseRow` returns three columns, `a`, `,` and `a`, with `lastRow = 1`: at end of
file a column is extracted both in the loop and after it, each time from one byte too
far back. -/
theorem parseRow_eof_without_newline :
    parseRow (fopen [97, 44, 98])
      = .ok (⟨3, 1, [[some 97], [some 44], [some 97]]⟩, ⟨[97, 44, 98], 2⟩) := by
  decide

/-- C7 (evaluation at the failing input): on the row text `a,b\r\n` the buffer of the last
column has two cells, the byte `b` and a cell that is never written, so the column is `b`
followed by whatever `malloc` left there; building the Python string from it reads that
cell. -/
theorem parseRow_crlf_leaves_unwritten_byte :
    parseRow (fopen [97, 44, 98, 13, 10])
      = .ok (⟨2, 0, [[some 97], [some 98, none]]⟩, ⟨[97, 44, 98, 13, 10], 5⟩) ∧
    PyUnicode_FromString [some 98, none] = .error .undefined := by
  decide

/-! ## C4: the pattern matcher -/

/-- C4 (evaluation at the failing inputs): whatever follows the two strings in memory,
`search_column` returns 0 for the pattern `ab` in the column `aab`, where the occurrence
overlaps a failed start, and it does not return 1 for the pattern `ab` in the column `xab`,
where the occurrence ends at the last byte of the column. -/
theorem search_column_misses_occurrences (slackC slackP : Buffer) :
    search_column (cstring [97, 97, 98] slackC) (cstring [97, 98] slackP) 2 = .ok 0 ∧
    search_column (cstring [120, 97, 98] slackC) (cstring [97, 98] slackP) 2 ≠ .ok 1 := by
  constructor
  · simp [search_column, cstring, strlen, searchLoop, matchRun]
  · cases h : matchRun slackC slackP with
    | error e => simp [search_column, cstring, strlen, searchLoop, matchRun, h]
    | ok k =>
      have hk : ¬ (1 + (k + 1 + 1 + 1) + 1 < 3) := by omega
      simp [search_column, cstring, strlen, searchLoop, matchRun, h, hk]

theorem matchRun_error : ∀ (column pattern : Buffer) (e : Fault),
    matchRun column pattern = .error e → e = .undefined := by
  intro column
  induction column with
  | nil => intro pattern e h; simp [matchRun] at h; exact h.symm
  | cons c column ih =>
    intro pattern e h
    cases c with
    | none => simp [matchRun] at h; exact h.symm
    | some c =>
      cases pattern with
      | nil => simp [matchRun] at h; exact h.symm
      | cons p pattern =>
        cases p with
        | none => simp [matchRun] at h; exact h.symm
        | some p =>
          simp only [matchRun] at h
          split at h
          · cases h2 : matchRun column pattern with
            | error e2 =>
              rw [h2] at h
              simp at h
              exact h ▸ ih pattern e2 h2
            | ok k => rw [h2] at h; simp at h
          · simp at h

/-! ## The step budgets of `search_column` and `filter` are never exhausted -/

theorem strlen_ne_fuel : ∀ (m : Buffer), strlen m ≠ .error .fuel := by
  intro m
  induction m with
  | nil => simp [strlen]
  | cons c m ih =>
    cases c with
    | none => simp [strlen]
    | some b =>
      simp only [strlen]
      split_ifs
      · simp
      · cases h : strlen m with
        | error e =>
          intro hh
          simp only [Except.error.injEq] at hh
          subst hh
          exact ih h
        | ok n => simp

theorem searchLoop_ne_fuel : ∀ (fuel : Nat) (column pattern : Buffer)
    (pattern_length col_len i found : Nat), col_len ≤ i + fuel →
    searchLoop fuel column pattern pattern_length col_len i found ≠ .error .fuel := by
  intro fuel
  induction fuel with
  | zero =>
    intro column pattern pattern_length col_len i found h
    simp only [searchLoop]
    rw [if_neg (by omega)]
    simp
  | succ fuel ih =>
    intro column pattern pattern_length col_len i found h
    simp only [searchLoop]
    split_ifs with hi
    · cases hm : matchRun (column.drop i) pattern with
      | error e =>
        have := matchRun_error _ _ _ hm
        subst this
        simp
      | ok k => exact ih column pattern pattern_length col_len _ _ (by omega)
    · simp

/-- The call `search_column` never exhausts its step budget. -/
theorem search_column_ne_fuel (column pattern : Buffer) (pattern_length : Nat) :
    search_column column pattern pattern_length ≠ .error .fuel := by
  simp only [search_column]
  cases h : strlen column with
  | error e =>
    intro hh
    simp only [Except.error.injEq] at hh
    subst hh
    exact strlen_ne_fuel _ h
  | ok col_len => exact searchLoop_ne_fuel _ _ _ _ _ _ _ (by omega)

theorem stringBytes_ne_fuel : ∀ (s : Buffer), stringBytes s ≠ .error .fuel := by
  intro s
  induction s with
  | nil => simp [stringBytes]
  | cons c s ih =>
    cases c with
    | none => simp [stringBytes]
    | some b =>
      simp only [stringBytes]
      split_ifs
      · simp
      · cases h : stringBytes s with
        | error e =>
          intro hh
          simp only [Except.error.injEq] at hh
          subst hh
          exact ih h
        | ok t => simp

theorem PyUnicode_FromString_ne_fuel (s : Buffer) :
    PyUnicode_FromString s ≠ .error .fuel := by
  simp only [PyUnicode_FromString]
  cases h : stringBytes s with
  | error e =>
    intro hh
    simp only [Except.error.injEq] at hh
    subst hh
    exact stringBytes_ne_fuel _ h
  | ok t =>
    dsimp only
    split_ifs <;> simp

theorem tupleLoop_ne_fuel : ∀ (l : List Buffer), tupleLoop l ≠ .error .fuel := by
  intro l
  induction l with
  | nil => simp [tupleLoop]
  | cons s l ih =>
    simp only [tupleLoop]
    cases h : PyUnicode_FromString s with
    | error e =>
      intro hh
      simp only [Except.error.injEq] at hh
      subst hh
      exact PyUnicode_FromString_ne_fuel _ h
    | ok t =>
      cases h2 : tupleLoop l with
      | error e =>
        intro hh
        simp only [Except.error.injEq] at hh
        subst hh
        exact ih h2
      | ok t2 => simp

theorem convert_row_to_tuple_ne_fuel (row : Row) : convert_row_to_tuple row ≠ .error .fuel := by
  simp only [convert_row_to_tuple]
  split_ifs
  · exact tupleLoop_ne_fuel _
  · simp

theorem filterRow_ne_fuel (fp : FILE) (index : Nat) (pattern_str : Buffer)
    (pattern_length : Nat) (slack : Buffer) :
    filterRow fp index pattern_str pattern_length slack ≠ .error .fuel := by
  simp only [filterRow]
  cases hrow : parseRow fp with
  | error e =>
    intro hh
    simp only [Except.error.injEq] at hh
    subst hh
    exact parseRow_ne_fuel _ hrow
  | ok r =>
    obtain ⟨row, fp1⟩ := r
    simp only
    cases hcol : row.columns[index]? with
    | none => simp
    | some column =>
      simp only
      cases hs : search_column (column ++ some 0 :: slack) pattern_str pattern_length with
      | error e =>
        intro hh
        simp only [Except.error.injEq] at hh
        subst hh
        exact search_column_ne_fuel _ _ _ hs
      | ok found =>
        simp only
        split_ifs
        · cases ht : convert_row_to_tuple row with
          | error e =>
            intro hh
            simp only [Except.error.injEq] at hh
            subst hh
            exact convert_row_to_tuple_ne_fuel _ ht
          | ok t => simp
        · simp

theorem filterRow_progress (fp : FILE) (index : Nat) (pattern_str : Buffer)
    (pattern_length : Nat) (slack : Buffer) (t : Option PyTuple) (lastRow : Nat)
    (fp1 : FILE) (h : filterRow fp index pattern_str pattern_length slack = .ok (t, lastRow, fp1))
    (hlast : lastRow ≠ 1) :
    fp1.data = fp.data ∧ fp.pos < fp1.pos ∧ fp1.pos ≤ fp.data.length := by
  simp only [filterRow] at h
  cases hrow : parseRow fp with
  | error e => rw [hrow] at h; simp at h
  | ok r =>
    obtain ⟨row, fp2⟩ := r
    rw [hrow] at h
    simp only at h
    cases hcol : row.columns[index]? with
    | none => rw [hcol] at h; simp at h
    | some column =>
      rw [hcol] at h
      simp only at h
      cases hs : search_column (column ++ some 0 :: slack) pattern_str pattern_length with
      | error e => rw [hs] at h; simp at h
      | ok found =>
        rw [hs] at h
        simp only at h
        have key : lastRow = row.lastRow ∧ fp1 = fp2 := by
          split_ifs at h
          · cases ht : convert_row_to_tuple row with
            | error e => rw [ht] at h; simp at h
            | ok tt =>
              rw [ht] at h
              simp only [Except.ok.injEq, Prod.mk.injEq] at h
              exact ⟨h.2.1.symm, h.2.2.symm⟩
          · simp only [Except.ok.injEq, Prod.mk.injEq] at h
            exact ⟨h.2.1.symm, h.2.2.symm⟩
        obtain ⟨h1, h2⟩ := key
        subst h1 h2
        exact parseRow_progress fp row fp1 hrow hlast

theorem storeResult_ne_fuel (st : Results) (t : PyTuple) :
    storeResult st t ≠ .error .fuel := by
  simp only [storeResult]
  split_ifs <;> simp

theorem filterLoop_ne_fuel : ∀ (fuel : Nat) (fp : FILE) (index : Nat) (pattern_str : Buffer)
    (pattern_length : Nat) (slack : Buffer) (st : Results) (parsed : Nat),
    0 < fuel → fp.data.length < fp.pos + fuel →
    filterLoop fuel fp index pattern_str pattern_length slack st parsed ≠ .error .fuel := by
  intro fuel
  induction fuel with
  | zero => intro fp index pattern_str pattern_length slack st parsed h0; omega
  | succ fuel ih =>
    intro fp index pattern_str pattern_length slack st parsed _ h
    simp only [filterLoop]
    cases hrow : filterRow fp index pattern_str pattern_length slack with
    | error e =>
      intro hh
      simp only [Except.error.injEq] at hh
      subst hh
      exact filterRow_ne_fuel _ _ _ _ _ hrow
    | ok r =>
      obtain ⟨t, lastRow, fp1⟩ := r
      cases t with
      | none =>
        simp only
        split_ifs with hl
        · simp
        · obtain ⟨hd, hlo, hhi⟩ := filterRow_progress _ _ _ _ _ _ _ _ hrow hl
          exact ih fp1 _ _ _ _ _ _ (by omega) (by rw [hd]; omega)
      | some t =>
        simp only
        cases hst : storeResult st t with
        | error e =>
          intro hh
          simp only [Except.error.injEq] at hh
          subst hh
          exact storeResult_ne_fuel _ _ hst
        | ok st1 =>
          simp only
          split_ifs with hl
          · simp
          · obtain ⟨hd, hlo, hhi⟩ := filterRow_progress _ _ _ _ _ _ _ _ hrow hl
            exact ih fp1 _ _ _ _ _ _ (by omega) (by rw [hd]; omega)

theorem listOfArray_ne_fuel : ∀ (arr : List (Option PyTuple)) (n : Nat),
    listOfArray arr n ≠ .error .fuel := by
  intro arr n
  induction n generalizing arr with
  | zero => cases arr <;> simp [listOfArray]
  | succ n ih =>
    cases arr with
    | nil => simp [listOfArray]
    | cons c arr =>
      cases c with
      | none => simp [listOfArray]
      | some t =>
        simp only [listOfArray]
        cases h : listOfArray arr n with
        | error e =>
          intro hh
          simp only [Except.error.injEq] at hh
          subst hh
          exact ih arr h
        | ok l => simp

/-- The call `filter` never exhausts the step budgets of the model: whenever the model
gives no result, the code calls `exit` or has no defined behaviour. -/
theorem filter_ne_fuel (file : Option (List Nat)) (headers : PyDict) (column pattern : PyStr)
    (slackC slackP : Buffer) :
    filter file headers column pattern slackC slackP ≠ .error .fuel := by
  simp only [filter]
  cases hlen : strlen (cstring pattern slackP) with
  | error e =>
    intro hh
    simp only [Except.error.injEq] at hh
    subst hh
    exact strlen_ne_fuel _ hlen
  | ok pattern_length =>
    simp only
    split_ifs
    · simp
    · cases file with
      | none => simp
      | some data =>
        simp only
        cases hloop : filterLoop (filterFuel data) (fopen data) (get_column_index headers
            column).1.toNat (cstring pattern slackP) pattern_length slackC initResults 0 with
        | error e =>
          intro hh
          simp only [Except.error.injEq] at hh
          subst hh
          exact filterLoop_ne_fuel _ _ _ _ _ _ _ _ (by simp [filterFuel])
            (by simp [filterFuel, fopen]) hloop
        | ok r =>
          obtain ⟨st, parsed⟩ := r
          simp only
          cases hl : listOfArray st.results_array st.tuple_index with
          | error e =>
            intro hh
            simp only [Except.error.injEq] at hh
            subst hh
            exact listOfArray_ne_fuel _ _ hl
          | ok l => simp

/-! ## C3: the filter on the scenario file -/

/-- C3 (evaluation at the failing input): on the scenario file the header index is
`{a:0, b:1, c:2}`, and `filter(column="b", pattern="5")` does not return the row
`("4","5","6")`: whatever follows the strings in memory, the call either runs
into memory that holds no defined byte or returns the empty list after four calls of
`parseRow`. -/
theorem filter_scenario_misses_row (slackC slackP : Buffer) :
    get_headers (some scenario) = (none, .ok [([97], 0), ([98], 1), ([99], 2)]) ∧
    (filter (some scenario) [([97], 0), ([98], 1), ([99], 2)] [98] [53] slackC slackP
        = .error .undefined ∨
      filter (some scenario) [([97], 0), ([98], 1), ([99], 2)] [98] [53] slackC slackP
        = .ok ⟨some [], none, true, 4⟩) := by
  have h1 : parseRow (fopen scenario)
      = .ok (⟨3, 0, [[some 97], [some 98], [some 99]]⟩, ⟨scenario, 6⟩) := by decide
  have h2 : parseRow ⟨scenario, 6⟩
      = .ok (⟨3, 0, [[some 49], [some 50], [some 51]]⟩, ⟨scenario, 12⟩) := by decide
  have h3 : parseRow ⟨scenario, 12⟩
      = .ok (⟨3, 0, [[some 52], [some 53], [some 54]]⟩, ⟨scenario, 18⟩) := by decide
  have h4 : parseRow ⟨scenario, 18⟩ = .ok (⟨2, 1, [[], []]⟩, ⟨scenario, 17⟩) := by decide
  have hlen : scenario.length = 18 := by decide
  refine ⟨by decide, ?_⟩
  cases h : matchRun slackC slackP with
  | error e =>
    left
    simp [filter, filterFuel, hlen, filterLoop, filterRow, h1, h2, h3, h4, search_column,
      cstring, strlen, searchLoop, matchRun, h, get_column_index, PyDict_GetItem]
    exact matchRun_error _ _ _ h
  | ok k =>
    right
    simp [filter, filterFuel, hlen, filterLoop, filterRow, h1, h2, h3, h4, search_column,
      cstring, strlen, searchLoop, matchRun, h, get_column_index, PyDict_GetItem,
      listOfArray, initResults, errorAfter]

/-! ## C8: the header index -/

theorem stringBytes_map_some (h : List Nat) (h0 : 0 ∉ h) :
    stringBytes (h.map some) = .ok h := by
  induction h with
  | nil => simp [stringBytes]
  | cons b h ih =>
    have hb : b ≠ 0 := fun e => h0 (by simp [e])
    have hh : 0 ∉ h := fun e => h0 (by simp [e])
    simp [stringBytes, hb, ih hh]

theorem PyUnicode_FromString_map_some (h : List Nat) (h0 : 0 ∉ h)
    (hv : utf8Valid h = true) : PyUnicode_FromString (h.map some) = .ok (some h) := by
  simp only [PyUnicode_FromString, stringBytes_map_some h h0, hv, if_true]

theorem PyDict_SetItem_append (d : PyDict) (key : PyStr) (v : Nat)
    (h : key ∉ d.map Prod.fst) : PyDict_SetItem d key v = d ++ [(key, v)] := by
  induction d with
  | nil => simp [PyDict_SetItem]
  | cons kv d ih =>
    obtain ⟨k, w⟩ := kv
    have hk : k ≠ key := fun e => h (by simp [e])
    have hd : key ∉ d.map Prod.fst := fun e => h (by simp at e ⊢; exact Or.inr e)
    simp [PyDict_SetItem, hk, ih hd]

theorem dictLoop_distinct (names : List PyStr) : ∀ (i : Nat) (d : PyDict),
    (∀ h ∈ names, 0 ∉ h) → (∀ h ∈ names, utf8Valid h = true) → names.Nodup →
    (∀ h ∈ names, h ∉ d.map Prod.fst) →
    dictLoop (names.map (List.map some)) i d
      = .ok (d ++ names.zip (List.range' i names.length)) := by
  induction names with
  | nil => intro i d _ _ _ _; simp [dictLoop]
  | cons h names ih =>
    intro i d h0 hv hnd hd
    have hnd' := List.nodup_cons.mp hnd
    have hstep := ih (i + 1) (d ++ [(h, i)]) (fun x hx => h0 x (by simp [hx]))
      (fun x hx => hv x (by simp [hx])) hnd'.2
      (by
        intro x hx hmem
        simp only [List.map_append, List.map_cons, List.map_nil, List.mem_append,
          List.mem_singleton] at hmem
        rcases hmem with hmem | hmem
        · exact hd x (by simp [hx]) hmem
        · exact hnd'.1 (hmem ▸ hx))
    simp only [List.map_cons, dictLoop,
      PyUnicode_FromString_map_some h (h0 h (by simp)) (hv h (by simp)),
      PyDict_SetItem_append d h i (hd h (by simp)), hstep]
    simp [List.range']

theorem PyDict_GetItem_zip (names : List PyStr) : ∀ (i k : Nat) (h : PyStr),
    names.Nodup → names[k]? = some h →
    PyDict_GetItem (names.zip (List.range' i names.length)) h = some (i + k) := by
  induction names with
  | nil => intro i k h _ hk; simp at hk
  | cons x names ih =>
    intro i k h hnd hk
    have hnd' := List.nodup_cons.mp hnd
    cases k with
    | zero =>
      simp at hk
      simp [List.range', PyDict_GetItem, hk]
    | succ k =>
      simp at hk
      have hmem : h ∈ names := List.getElem?_mem hk
      have hx : x ≠ h := fun e => hnd'.1 (e ▸ hmem)
      have := ih (i + 1) k h hnd'.2 hk
      have e : i + (k + 1) = i + 1 + k := by omega
      rw [e, ← this]
      simp [List.range', PyDict_GetItem, hx, List.zip]

theorem PyDict_GetItem_absent (d : PyDict) (key : PyStr) (h : key ∉ d.map Prod.fst) :
    PyDict_GetItem d key = none := by
  induction d with
  | nil => simp [PyDict_GetItem]
  | cons kv d ih =>
    obtain ⟨k, w⟩ := kv
    have hk : k ≠ key := fun e => h (by simp [e])
    have hd : key ∉ d.map Prod.fst := fun e => h (by simp at e ⊢; exact Or.inr e)
    simp [PyDict_GetItem, hk, ih hd]

theorem mem_of_mem_splitOnP (p : Nat → Bool) (l : List Nat) :
    ∀ h ∈ l.splitOnP p, ∀ x ∈ h, x ∈ l := by
  induction l with
  | nil => intro h hh x hx; simp at hh; subst hh; simp at hx
  | cons a l ih =>
    intro h hh x hx
    rw [List.splitOnP_cons] at hh
    split at hh
    · simp only [List.mem_cons] at hh
      rcases hh with hh | hh
      · subst hh; simp at hx
      · exact List.mem_cons_of_mem _ (ih h hh x hx)
    · cases hs : List.splitOnP p l with
      | nil => exact absurd hs (List.splitOnP_ne_nil _ _)
      | cons hd tl =>
        rw [hs] at hh ih
        simp only [List.modifyHead_cons, List.mem_cons] at hh
        rcases hh with hh | hh
        · subst hh
          simp only [List.mem_cons] at hx
          rcases hx with hx | hx
          · simp [hx]
          · exact List.mem_cons_of_mem _ (ih hd (by simp) x hx)
        · exact List.mem_cons_of_mem _ (ih h (by simp [hh]) x hx)

theorem splitOn_no_nul (line : List Nat) (h0 : 0 ∉ line) :
    ∀ h ∈ line.splitOn COMMA, 0 ∉ h :=
  fun h hh hmem => h0 (mem_of_mem_splitOnP _ line h hh 0 hmem)

theorem length_splitOn (line : List Nat) :
    (line.splitOn COMMA).length = line.count COMMA + 1 := by
  unfold List.splitOn
  induction line with
  | nil => simp
  | cons a l ih =>
    rw [List.splitOnP_cons]
    by_cases h : a = COMMA
    · subst h; simp [ih]
    · have h1 : (a == COMMA) = false := by simpa using h
      have h2 : (a :: l).count COMMA = l.count COMMA := by
        simp [List.count_cons, h]
      simp only [h1, Bool.false_eq_true, if_false, List.length_modifyHead, ih, h2]

/-- C8 (amended): for every file whose first line is ended by a newline, has no double
quote, no carriage return and no NUL byte, has fewer than `DEFAULT_COL_NUM` commas and
pairwise distinct column names, each of them valid UTF-8, `get_headers` returns the index
that maps every column name to its position; `get_column_index` returns `i` for the `i`-th
name, and `-1` with a `ValueError` for every key that is not one of the names. -/
theorem get_headers_index (line rest : List Nat)
    (hq : QUOTE ∉ line) (hcr : CR ∉ line) (hnl : LINE_ENDING ∉ line) (h0 : 0 ∉ line)
    (hutf : ∀ h ∈ line.splitOn COMMA, utf8Valid h = true)
    (hcap : line.count COMMA < DEFAULT_COL_NUM) (hnd : (line.splitOn COMMA).Nodup) :
    get_headers (some (line ++ LINE_ENDING :: rest))
      = (none, .ok (headerIndex (line.splitOn COMMA))) ∧
    (∀ (i : Nat) (h : PyStr), (line.splitOn COMMA)[i]? = some h →
      get_column_index (headerIndex (line.splitOn COMMA)) h = ((i : Int), none)) ∧
    (∀ key : PyStr, key ∉ line.splitOn COMMA →
      get_column_index (headerIndex (line.splitOn COMMA)) key = (-1, some .ValueError)) := by
  have hlen := length_splitOn line
  have hrow := parseRow_line [] line rest hq hcr hnl hcap
  simp only [List.nil_append, List.length_nil] at hrow
  have hdict := dictLoop_distinct (line.splitOn COMMA) 0 [] (splitOn_no_nul line h0) hutf
    hnd (by simp)
  refine ⟨?_, ?_, ?_⟩
  · simp only [get_headers, fopen, hrow, convert_row_to_dict, List.length_map, hlen,
      Nat.le_refl, if_true]
    rw [← hlen, ← List.length_map (List.splitOn COMMA line) (List.map some), List.take_length,
      hdict]
    simp [headerIndex, List.range_eq_range']
  · intro i h hi
    have := PyDict_GetItem_zip (line.splitOn COMMA) 0 i h hnd hi
    simp only [get_column_index, headerIndex, List.range_eq_range', this]
    simp
  · intro key hkey
    have habs : key ∉ (headerIndex (line.splitOn COMMA)).map Prod.fst := by
      intro hmem
      obtain ⟨⟨k, v⟩, hkv, hk⟩ := List.mem_map.mp hmem
      simp only at hk
      subst hk
      exact hkey (List.of_mem_zip hkv).1
    simp only [get_column_index, PyDict_GetItem_absent _ key habs]

/-- C8 (amended), at the scenario file: the first line `a,b,c` gives `{a:0, b:1, c:2}`, the
name `b` resolves to 1 and the name `z` is rejected. -/
theorem get_headers_index_witness :
    (QUOTE ∉ [97, 44, 98, 44, 99] ∧ CR ∉ [97, 44, 98, 44, 99] ∧
      LINE_ENDING ∉ [97, 44, 98, 44, 99] ∧ 0 ∉ [97, 44, 98, 44, 99] ∧
      (∀ h ∈ [97, 44, 98, 44, 99].splitOn COMMA, utf8Valid h = true) ∧
      [97, 44, 98, 44, 99].count COMMA < DEFAULT_COL_NUM ∧
      ([97, 44, 98, 44, 99].splitOn COMMA).Nodup) ∧
    get_headers (some ([97, 44, 98, 44, 99] ++ LINE_ENDING :: [49, 44, 50, 44, 51, 10]))
      = (none, .ok (headerIndex ([97, 44, 98, 44, 99].splitOn COMMA))) ∧
    headerIndex ([97, 44, 98, 44, 99].splitOn COMMA) = [([97], 0), ([98], 1), ([99], 2)] ∧
    get_column_index (headerIndex ([97, 44, 98, 44, 99].splitOn COMMA)) [98]
      = (((1 : Nat) : Int), none) ∧
    get_column_index (headerIndex ([97, 44, 98, 44, 99].splitOn COMMA)) [122]
      = (-1, some .ValueError) :=
  have h := get_headers_index [97, 44, 98, 44, 99] [49, 44, 50, 44, 51, 10]
    (by decide) (by decide) (by decide) (by decide) (by decide) (by decide) (by decide)
  ⟨by decide, h.1, by decide, h.2.1 1 [98] (by decide), h.2.2 [122] (by decide)⟩

theorem wideHeader_chars :
    QUOTE ∉ wideHeader ∧ CR ∉ wideHeader ∧ LINE_ENDING ∉ wideHeader ∧ 0 ∉ wideHeader := by
  decide!

theorem wideHeader_nodup : (wideHeader.splitOn COMMA).Nodup := by
  decide!

theorem wideHeader_commas : wideHeader.count COMMA = 200 := by
  decide!

theorem get_headers_full (line rest : List Nat)
    (hq : QUOTE ∉ line) (hcr : CR ∉ line) (hnl : LINE_ENDING ∉ line)
    (hcap : DEFAULT_COL_NUM ≤ line.count COMMA) :
    get_headers (some (line ++ LINE_ENDING :: rest)) = (none, .error .undefined) := by
  have h := parseRow_line_full [] line rest hq hcr hnl hcap
  simp only [List.nil_append, List.length_nil] at h
  simp only [get_headers, fopen, h]

theorem wideHeader_overflow :
    get_headers (some (wideHeader ++ LINE_ENDING :: [])) = (none, .error .undefined) :=
  get_headers_full wideHeader [] wideHeader_chars.1 wideHeader_chars.2.1
    wideHeader_chars.2.2.1 (Nat.le_of_eq wideHeader_commas.symm)

/-- C8 (as stated, refuted): first, the header line `a\0b,c` has two distinct names and no
quote or carriage return, but the index built from it has the key `a` where the claim has
`a\0b`, and looking up the name `a\0b` fails; second, on a header line of 201 distinct
names `get_headers` returns no index at all, the 201st column being stored outside the
`DEFAULT_COL_NUM` slots of `row.columns`; third, on the header line `a\xff,b`, whose first
name is not valid UTF-8, `get_headers` returns no index either: `PyUnicode_FromString`
returns `NULL`, which `convert_row_to_dict` passes to `PyDict_SetItem` as the key. -/
theorem get_headers_index_counterexample :
    (QUOTE ∉ [97, 0, 98, 44, 99] ∧ CR ∉ [97, 0, 98, 44, 99] ∧
      LINE_ENDING ∉ [97, 0, 98, 44, 99] ∧ ([97, 0, 98, 44, 99].splitOn COMMA).Nodup ∧
      [97, 0, 98, 44, 99].splitOn COMMA = [[97, 0, 98], [99]] ∧
      get_headers (some ([97, 0, 98, 44, 99] ++ LINE_ENDING :: []))
        = (none, .ok [([97], 0), ([99], 1)]) ∧
      get_column_index [([97], 0), ([99], 1)] [97, 0, 98] = (-1, some .ValueError)) ∧
    (QUOTE ∉ wideHeader ∧ CR ∉ wideHeader ∧ LINE_ENDING ∉ wideHeader ∧
      (wideHeader.splitOn COMMA).Nodup ∧
      get_headers (some (wideHeader ++ LINE_ENDING :: [])) = (none, .error .undefined)) ∧
    (QUOTE ∉ [97, 255, 44, 98] ∧ CR ∉ [97, 255, 44, 98] ∧ LINE_ENDING ∉ [97, 255, 44, 98] ∧
      0 ∉ [97, 255, 44, 98] ∧ ([97, 255, 44, 98].splitOn COMMA).Nodup ∧
      [97, 255, 44, 98].splitOn COMMA = [[97, 255], [98]] ∧
      utf8Valid [97, 255] = false ∧
      PyUnicode_FromString [some 97, some 255] = .ok none ∧
      get_headers (some ([97, 255, 44, 98] ++ LINE_ENDING :: []))
        = (none, .error .undefined)) :=
  ⟨by decide, ⟨wideHeader_chars.1, wideHeader_chars.2.1, wideHeader_chars.2.2.1,
    wideHeader_nodup, wideHeader_overflow⟩, by decide⟩

/-! ## C9: unknown column -/

theorem strlen_cstring (p : List Nat) (slack : Buffer) :
    ∃ n, strlen (cstring p slack) = .ok n := by
  induction p with
  | nil => exact ⟨0, by simp [cstring, strlen]⟩
  | cons b p ih =>
    obtain ⟨n, hn⟩ := ih
    by_cases hb : b = 0
    · exact ⟨0, by simp [cstring, strlen, hb]⟩
    · refine ⟨n + 1, ?_⟩
      simp only [cstring] at hn
      simp [cstring, strlen, hb, hn]

/-- C9 (what the code does): when the column name is absent from the header index, `filter`
sets a `ValueError` and returns before `fopen` and before any call of `parseRow`; the object
it returns is the variable `results`, which has not been assigned: no empty result is
built. -/
theorem filter_unknown_column (file : Option (List Nat)) (headers : PyDict)
    (column pattern : PyStr) (slackC slackP : Buffer)
    (h : PyDict_GetItem headers column = none) :
    filter file headers column pattern slackC slackP
      = .ok ⟨none, some .ValueError, false, 0⟩ := by
  obtain ⟨n, hn⟩ := strlen_cstring pattern slackP
  simp [filter, hn, get_column_index, h]

/-- C9, at the header index `{a:0}` and the column name `z`. -/
theorem filter_unknown_column_witness :
    PyDict_GetItem [([97], 0)] [122] = none ∧
    filter (some [97, 10, 49, 10]) [([97], 0)] [122] [49] [] []
      = .ok ⟨none, some .ValueError, false, 0⟩ :=
  ⟨by decide, filter_unknown_column (some [97, 10, 49, 10]) [([97], 0)] [122] [49] [] []
    (by decide)⟩

/-! ## C10: the result array -/

theorem set_at_end {α : Type} (xs : List (Option α)) (k : Nat) (v : Option α) :
    (xs ++ List.replicate (k + 1) none).set xs.length v
      = (xs ++ [v]) ++ List.replicate k none := by
  induction xs with
  | nil => simp [List.replicate_succ]
  | cons x xs ih => simp [ih]

theorem resultsOf_length (ts : List PyTuple) :
    (resultsOf ts).results_array.length = (resultsOf ts).file_size := by
  simp only [resultsOf, List.length_append, List.length_map, List.length_replicate]
  omega

theorem storeResult_resultsOf (ts : List PyTuple) (t : PyTuple) :
    storeResult (resultsOf ts) t = .ok (resultsOf (ts ++ [t])) := by
  have hlen := resultsOf_length ts
  by_cases hgrow : ts.length + 1 ≥ 100 * (ts.length / 100 + 1)
  · have hcap : 100 * (ts.length / 100 + 1) - ts.length = 0 + 1 := by omega
    have hcap' : 100 * ((ts.length + 1) / 100 + 1) = 100 * (ts.length / 100 + 1) + 100 := by
      omega
    have harr : realloc (resultsOf ts).results_array (100 * (ts.length / 100 + 1) + 100)
        = ts.map some ++ List.replicate (100 + 1) none := by
      have h1 : (resultsOf ts).results_array.length = 100 * (ts.length / 100 + 1) := hlen
      simp only [realloc, h1]
      rw [List.take_of_length_le (by omega)]
      simp only [resultsOf, hcap, List.append_assoc]
      congr 1
      rw [List.append_replicate_replicate]
      congr 1
      omega
    have hset := set_at_end (ts.map some) 100 (some t)
    simp only [List.length_map] at hset
    simp only [storeResult, resultsOf, ge_iff_le] at harr ⊢
    simp only [ge_iff_le] at hgrow
    simp only [hgrow, if_true, harr, hset, List.length_append, List.length_map,
      List.length_replicate, List.length_singleton, List.map_append, List.map_cons,
      List.map_nil, hcap']
    have e : 100 * (ts.length / 100 + 1) + 100 - (ts.length + 1) = 100 := by omega
    rw [if_pos (show ts.length < ts.length + (100 + 1) by omega), e]
  · have hk : ∃ k, 100 * (ts.length / 100 + 1) - ts.length = k + 1 :=
      ⟨100 * (ts.length / 100 + 1) - ts.length - 1, by omega⟩
    obtain ⟨k, hk⟩ := hk
    have hcap' : 100 * ((ts.length + 1) / 100 + 1) = 100 * (ts.length / 100 + 1) := by omega
    have hset := set_at_end (ts.map some) k (some t)
    simp only [List.length_map] at hset
    simp only [ge_iff_le] at hgrow
    simp only [storeResult, resultsOf, ge_iff_le, hgrow, if_false, hk, hset,
      List.length_append, List.length_map, List.length_replicate, List.length_singleton,
      List.map_append, List.map_cons, List.map_nil, hcap']
    have e : 100 * (ts.length / 100 + 1) - (ts.length + 1) = k := by omega
    rw [if_pos (show ts.length < ts.length + (k + 1) by omega), e]

theorem filterLoop_resultsOf : ∀ (fuel : Nat) (fp : FILE) (index : Nat)
    (pattern_str : Buffer) (pattern_length : Nat) (slack : Buffer)
    (acc : List PyTuple) (parsed : Nat),
    filterLoop fuel fp index pattern_str pattern_length slack (resultsOf acc) parsed
      = match acceptedRows fuel fp index pattern_str pattern_length slack with
        | .error e => .error e
        | .ok (ts, n) => .ok (resultsOf (acc ++ ts), parsed + n) := by
  intro fuel
  induction fuel with
  | zero => intro fp index pattern_str pattern_length slack acc parsed; rfl
  | succ fuel ih =>
    intro fp index pattern_str pattern_length slack acc parsed
    simp only [filterLoop, acceptedRows]
    cases hrow : filterRow fp index pattern_str pattern_length slack with
    | error e => rfl
    | ok r =>
      obtain ⟨t, lastRow, fp1⟩ := r
      cases t with
      | none =>
        by_cases hl : lastRow = 1
        · simp [hl]
        · simp only [hl, if_false, ih fp1 index pattern_str pattern_length slack acc
            (parsed + 1)]
          cases acceptedRows fuel fp1 index pattern_str pattern_length slack with
          | error e => rfl
          | ok r => simp [Nat.add_assoc, Nat.add_comm 1]
      | some t =>
        simp only [storeResult_resultsOf]
        by_cases hl : lastRow = 1
        · simp [hl]
        · simp only [hl, if_false, ih fp1 index pattern_str pattern_length slack (acc ++ [t])
            (parsed + 1)]
          cases acceptedRows fuel fp1 index pattern_str pattern_length slack with
          | error e => rfl
          | ok r => simp [Nat.add_assoc, Nat.add_comm 1]

theorem listOfArray_map_some (ts : List PyTuple) (rest : List (Option PyTuple)) :
    listOfArray (ts.map some ++ rest) ts.length = .ok ts := by
  induction ts with
  | nil => cases rest <;> simp [listOfArray]
  | cons t ts ih => simp [listOfArray, ih]

/-- The call `filter` in terms of the scan: an absent column name ends it before the file
is opened; otherwise the returned list is the list of the accepted rows. -/
theorem filter_eq_acceptedRows (file : Option (List Nat)) (headers : PyDict)
    (column pattern : PyStr) (slackC slackP : Buffer) :
    filter file headers column pattern slackC slackP
      = match strlen (cstring pattern slackP) with
        | .error e => .error e
        | .ok pattern_length =>
          match PyDict_GetItem headers column with
          | none => .ok ⟨none, some .ValueError, false, 0⟩
          | some index =>
            match file with
            | none => .error .undefined
            | some data =>
              match acceptedRows (filterFuel data) (fopen data) index (cstring pattern slackP)
                  pattern_length slackC with
              | .error e => .error e
              | .ok (accepted, n) => .ok ⟨some accepted, errorAfter accepted none, true, n⟩ := by
  simp only [filter]
  cases strlen (cstring pattern slackP) with
  | error e => rfl
  | ok pattern_length =>
    cases hget : PyDict_GetItem headers column with
    | none => simp [get_column_index, hget]
    | some index =>
      have hneg : ¬ ((index : Int) < 0) := by omega
      cases file with
      | none => simp [get_column_index, hget]
      | some data =>
        have h := filterLoop_resultsOf (filterFuel data) (fopen data) index
          (cstring pattern slackP) pattern_length slackC [] 0
        have h0 : resultsOf [] = initResults := by decide
        rw [h0] at h
        simp only [get_column_index, hget, hneg, if_false, Int.toNat_ofNat, h]
        cases acceptedRows (filterFuel data) (fopen data) index (cstring pattern slackP)
            pattern_length slackC with
        | error e => rfl
        | ok r =>
          obtain ⟨accepted, n⟩ := r
          simp only [List.nil_append, Nat.zero_add]
          have hl := listOfArray_map_some accepted
            (List.replicate (100 * (accepted.length / 100 + 1) - accepted.length) none)
          simp only [resultsOf, hl]

/-- C10: the result array of `filter` neither drops nor reorders a match. For every list
`ts` of tuples already stored and every further tuple `t`: the write of `t` succeeds, at an
index strictly below the capacity of that moment, and leaves the array holding `ts`
followed by `t`, growth by 100 included; the loop of `filter`, started on the empty array of
capacity 100, ends with the array that holds exactly the accepted rows of the scan in scan
order; the list built from an array holding `ts` is `ts`, of the same length; and the list
`filter` returns for a known column is the list of the accepted rows. -/
theorem filter_result_array (data : List Nat) (index : Nat) (headers : PyDict)
    (column pattern : PyStr) (slackC slackP : Buffer) (ts : List PyTuple)
    (t : PyTuple) :
    (storeResult (resultsOf ts) t = .ok (resultsOf (ts ++ [t])) ∧
      (resultsOf ts).tuple_index < (resultsOf (ts ++ [t])).file_size ∧
      (resultsOf (ts ++ [t])).results_array.take (ts.length + 1) = (ts ++ [t]).map some) ∧
    (∀ (fuel : Nat) (fp : FILE) (pattern_str : Buffer) (pattern_length : Nat),
      filterLoop fuel fp index pattern_str pattern_length slackC initResults 0
        = (match acceptedRows fuel fp index pattern_str pattern_length slackC with
          | .error e => .error e
          | .ok (accepted, n) => .ok (resultsOf accepted, n))) ∧
    (listOfArray (resultsOf ts).results_array (resultsOf ts).tuple_index = .ok ts ∧
      (resultsOf ts).tuple_index = ts.length) ∧
    filter (some data) ((column, index) :: headers) column pattern slackC slackP
      = (match strlen (cstring pattern slackP) with
        | .error e => .error e
        | .ok pattern_length =>
          match acceptedRows (filterFuel data) (fopen data) index (cstring pattern slackP)
              pattern_length slackC with
          | .error e => .error e
          | .ok (accepted, n) => .ok ⟨some accepted, errorAfter accepted none, true, n⟩) := by
  refine ⟨⟨storeResult_resultsOf ts t, ?_, ?_⟩, ?_, ⟨?_, rfl⟩, ?_⟩
  · simp only [resultsOf, List.length_append, List.length_singleton]
    omega
  · have h : ts.length + 1 = ((ts ++ [t]).map some).length := by simp
    simp only [resultsOf]
    rw [h, List.take_left]
  · intro fuel fp pattern_str pattern_length
    have h := filterLoop_resultsOf fuel fp index pattern_str pattern_length slackC [] 0
    have h0 : resultsOf [] = initResults := by decide
    rw [h0] at h
    rw [h]
    cases acceptedRows fuel fp index pattern_str pattern_length slackC with
    | error e => rfl
    | ok r => simp
  · exact listOfArray_map_some ts _
  · rw [filter_eq_acceptedRows]
    simp [PyDict_GetItem]

/-! ## The tokenizer on a line without carriage returns -/

theorem scanByte_cols_le (s : Scan) (c : Nat) : s.cols.length ≤ (scanByte s c).cols.length := by
  simp only [scanByte]
  split_ifs <;> simp

theorem scanRow_cols_le : ∀ (r : List Nat) (s : Scan),
    s.cols.length ≤ (scanRow s r).cols.length := by
  intro r
  induction r with
  | nil => intro s; simp [scanRow]
  | cons c r ih =>
    intro s
    simp only [scanRow]
    exact Nat.le_trans (scanByte_cols_le s c) (ih _)

theorem scanRow_raw_suffix : ∀ (r : List Nat) (s : Scan),
    ∃ X, s.raw ++ r = X ++ (scanRow s r).raw := by
  intro r
  induction r with
  | nil => intro s; exact ⟨[], by simp [scanRow]⟩
  | cons c r ih =>
    intro s
    obtain ⟨X, hX⟩ := ih (scanByte s c)
    simp only [scanRow]
    simp only [scanByte] at hX ⊢
    split_ifs at hX ⊢
    · exact ⟨X, by simpa using hX⟩
    · refine ⟨s.raw ++ c :: X, ?_⟩
      simp only [List.nil_append] at hX
      rw [List.append_assoc, List.cons_append, ← hX]
    · exact ⟨X, by simpa using hX⟩

theorem scanRow_skipped_le : ∀ (r : List Nat) (s : Scan), s.skipped ≤ s.raw.length →
    (scanRow s r).skipped ≤ (scanRow s r).raw.length := by
  intro r
  induction r with
  | nil => intro s h; simpa [scanRow] using h
  | cons c r ih =>
    intro s h
    simp only [scanRow]
    apply ih
    simp only [scanByte]
    split_ifs <;> simp <;> omega

theorem ite_or_same {α : Type} (p q : Prop) [Decidable p] [Decidable q] (E B : α)
    (h : p ∨ q) : (if p then E else if q then E else B) = E := by
  split_ifs with hp hq
  · rfl
  · rfl
  · exact absurd h (by simp [hp, hq])

/-- The `while` loop of `parseRow` over the bytes `r` of a line, none of them a carriage
return or the line ending: the loop arrives at the state `scanRow s r`, unless one of the
columns it ends on the way lies outside `row.columns`. -/
theorem parseRowLoop_scan (rest : List Nat) : ∀ (r : List Nat) (s : Scan) (X : List Nat)
    (fuel : Nat) (data : List Nat) (pos n : Nat) (cols : List Buffer),
    data = X ++ s.raw ++ r ++ rest → pos = X.length + s.raw.length →
    n + s.skipped = s.raw.length → cols = s.cols.map (List.map some) →
    s.cols.length ≤ DEFAULT_COL_NUM → CR ∉ s.raw → CR ∉ r → LINE_ENDING ∉ r →
    parseRowLoop (fuel + r.length) ⟨data, pos⟩ s.colStateQuotes s.prevChar n cols
      = if (scanRow s r).cols.length ≤ DEFAULT_COL_NUM then
          parseRowLoop fuel ⟨data, pos + r.length⟩
            (scanRow s r).colStateQuotes (scanRow s r).prevChar
            ((scanRow s r).raw.length - (scanRow s r).skipped)
            ((scanRow s r).cols.map (List.map some))
        else .error .undefined := by
  intro r
  induction r with
  | nil =>
    intro s X fuel data pos n cols _ _ hn hcols hcap _ _ _
    have e : s.raw.length - s.skipped = n := by omega
    simp only [scanRow, List.length_nil, Nat.add_zero, if_pos hcap, e, hcols]
  | cons c r ih =>
    intro s X fuel data pos n cols hd hp hn hcols hcap hraw hcr hnl
    have hc1 : c ≠ LINE_ENDING := fun e => hnl (by simp [e])
    have hc3 : c ≠ CR := fun e => hcr (by simp [e])
    have hcr1 : CR ∉ r := fun e => hcr (by simp [e])
    have hnl1 : LINE_ENDING ∉ r := fun e => hnl (by simp [e])
    have hd1 : data = (X ++ s.raw) ++ c :: (r ++ rest) := by simp [hd]
    have hg : fgetc ⟨data, pos⟩ = (some c, ⟨data, pos + 1⟩) := by
      rw [hd1, hp, ← List.length_append]; exact fgetc_at _ _ _
    have hfuel : fuel + (c :: r).length = (fuel + r.length) + 1 := by
      simp only [List.length_cons]; omega
    have hpos : pos + (c :: r).length = pos + 1 + r.length := by
      simp only [List.length_cons]; omega
    rw [hfuel, hpos]
    simp only [scanRow, parseRowLoop, hg, if_neg hc1]
    by_cases h1 : c = QUOTE ∧ s.colStateQuotes = 0
    · have hs : scanByte s c = ⟨ON, c, s.skipped + 1, s.raw ++ [c], s.cols⟩ := by
        simp only [scanByte, if_pos h1]
      rw [if_pos h1, hs]
      exact ih ⟨ON, c, s.skipped + 1, s.raw ++ [c], s.cols⟩ X fuel data (pos + 1) n cols
        (by simp [hd]) (by simp [hp]; omega) (by simp; omega) hcols hcap
        (by simp [hraw, Ne.symm hc3]) hcr1 hnl1
    · rw [if_neg h1]
      by_cases h2 : c = COMMA ∧ (s.colStateQuotes = 0 ∨ s.prevChar = QUOTE)
      · have hs : scanByte s c
            = ⟨s.colStateQuotes, c, 0, [], s.cols ++ [s.raw.drop s.skipped]⟩ := by
          simp only [scanByte, if_neg h1, if_pos h2]
        rw [if_pos h2.1, ite_or_same _ _ _ _ h2.2, hs]
        have hdrop : CR ∉ s.raw.drop s.skipped := fun e => hraw (List.mem_of_mem_drop e)
        have hd2 : data = (X ++ s.raw.take s.skipped) ++ s.raw.drop s.skipped
            ++ c :: (r ++ rest) := by
          rw [List.append_assoc X, List.take_append_drop]; exact hd1
        have hp2 : pos + 1 = (X ++ s.raw.take s.skipped).length
            + (s.raw.drop s.skipped).length + 1 := by
          simp only [List.length_append, List.length_take, List.length_drop, hp]; omega
        have hn2 : n = (s.raw.drop s.skipped).length := by
          simp only [List.length_drop]; omega
        have hlen : cols.length = s.cols.length := by simp [hcols]
        by_cases hfull : s.cols.length < DEFAULT_COL_NUM
        · have hend := endColumn_spec (X ++ s.raw.take s.skipped) (s.raw.drop s.skipped)
            (c :: (r ++ rest)) hdrop cols (by omega)
          rw [← hd2, ← hp2, ← hn2] at hend
          rw [hend]
          exact ih ⟨s.colStateQuotes, c, 0, [], s.cols ++ [s.raw.drop s.skipped]⟩
            (X ++ s.raw ++ [c]) fuel data (pos + 1) 0 (cols ++ [(s.raw.drop s.skipped).map some])
            (by simp [hd]) (by simp [hp]; omega) (by simp) (by simp [hcols])
            (by simp; omega) (by simp) hcr1 hnl1
        · have hend := endColumn_full (X ++ s.raw.take s.skipped) (s.raw.drop s.skipped)
            (c :: (r ++ rest)) hdrop cols (by omega)
          rw [← hd2, ← hp2, ← hn2] at hend
          rw [hend]
          have hmono := scanRow_cols_le r
            ⟨s.colStateQuotes, c, 0, [], s.cols ++ [s.raw.drop s.skipped]⟩
          simp only [List.length_append, List.length_singleton] at hmono
          rw [if_neg (by omega)]
      · have hs : scanByte s c = ⟨s.colStateQuotes, c, s.skipped, s.raw ++ [c], s.cols⟩ := by
          simp only [scanByte, if_neg h1, if_neg h2]
        have hih := ih ⟨s.colStateQuotes, c, s.skipped, s.raw ++ [c], s.cols⟩ X fuel data
          (pos + 1) (n + 1) cols (by simp [hd]) (by simp [hp]; omega) (by simp; omega) hcols
          hcap (by simp [hraw, Ne.symm hc3]) hcr1 hnl1
        rw [hs]
        by_cases hcm : c = COMMA
        · have hq : ¬ s.colStateQuotes = 0 := fun e => h2 ⟨hcm, Or.inl e⟩
          have hpq : ¬ s.prevChar = QUOTE := fun e => h2 ⟨hcm, Or.inr e⟩
          rw [if_pos hcm, if_neg hq, if_neg hpq]
          exact hih
        · rw [if_neg hcm]
          exact hih

/-- The tokenizer on a line without carriage returns, quotes allowed: `parseRow` returns
the columns `rowFields line` and leaves the cursor after the line ending, unless the line
has more columns than `row.columns` has slots. -/
theorem parseRow_row (pre line post : List Nat) (hcr : CR ∉ line) (hnl : LINE_ENDING ∉ line) :
    parseRow ⟨pre ++ line ++ LINE_ENDING :: post, pre.length⟩
      = if (rowFields line).length ≤ DEFAULT_COL_NUM then
          .ok (⟨(rowFields line).length, 0, (rowFields line).map (List.map some)⟩,
            ⟨pre ++ line ++ LINE_ENDING :: post, pre.length + line.length + 1⟩)
        else .error .undefined := by
  have hF := rowFuel_gt (pre ++ line ++ LINE_ENDING :: post) pre.length
  simp only [List.length_append, List.length_cons] at hF
  simp only [parseRow]
  generalize rowFuel ⟨pre ++ line ++ LINE_ENDING :: post, pre.length⟩ = F at hF ⊢
  obtain ⟨fuel, rfl⟩ : ∃ fuel, F = (fuel + 1) + line.length :=
    ⟨F - 1 - line.length, by omega⟩
  have hscan := parseRowLoop_scan (LINE_ENDING :: post) line scanStart pre (fuel + 1)
    (pre ++ line ++ LINE_ENDING :: post) pre.length 0 [] (by simp [scanStart])
    (by simp [scanStart]) (by simp [scanStart]) (by simp [scanStart])
    (by simp [scanStart]) (by simp [scanStart]) hcr hnl
  obtain ⟨X, hX⟩ := scanRow_raw_suffix line scanStart
  have hsk := scanRow_skipped_le line scanStart (by simp [scanStart])
  have hlen : (rowFields line).length = (scanRow scanStart line).cols.length + 1 := by
    simp [rowFields]
  have hfields : rowFields line = (scanRow scanStart line).cols
      ++ [(scanRow scanStart line).raw.drop (scanRow scanStart line).skipped] := rfl
  have hq0 : scanStart.colStateQuotes = OFF := rfl
  have hp0 : scanStart.prevChar = 0 := rfl
  have hc0 : List.map (List.map some) scanStart.cols = [] := rfl
  have hr0 : scanStart.raw = [] := rfl
  rw [hq0, hp0] at hscan
  rw [hr0, List.nil_append] at hX
  rw [hscan, hlen, hfields]
  generalize scanRow scanStart line = s' at hX hsk ⊢
  have hrawcr : CR ∉ s'.raw := fun e => hcr (by rw [hX]; simp [e])
  have hdrop : CR ∉ s'.raw.drop s'.skipped := fun e => hrawcr (List.mem_of_mem_drop e)
  have hd1 : pre ++ line ++ LINE_ENDING :: post = (pre ++ line) ++ LINE_ENDING :: post := by
    simp
  have hg : fgetc ⟨pre ++ line ++ LINE_ENDING :: post, pre.length + line.length⟩
      = (some LINE_ENDING, ⟨pre ++ line ++ LINE_ENDING :: post,
          pre.length + line.length + 1⟩) := by
    rw [hd1, ← List.length_append]; exact fgetc_at _ _ _
  have hd2 : pre ++ line ++ LINE_ENDING :: post
      = (pre ++ X ++ s'.raw.take s'.skipped) ++ s'.raw.drop s'.skipped
        ++ LINE_ENDING :: post := by
    rw [List.append_assoc (pre ++ X), List.take_append_drop, List.append_assoc pre X, ← hX]
  have hp2 : pre.length + line.length + 1 = (pre ++ X ++ s'.raw.take s'.skipped).length
      + (s'.raw.drop s'.skipped).length + 1 := by
    have : line.length = X.length + s'.raw.length := by rw [hX]; simp
    simp only [List.length_append, List.length_take, List.length_drop]
    omega
  have hn2 : s'.raw.length - s'.skipped = (s'.raw.drop s'.skipped).length := by
    simp only [List.length_drop]
  by_cases hcap : s'.cols.length ≤ DEFAULT_COL_NUM
  · rw [if_pos hcap]
    simp only [parseRowLoop, hg, if_true]
    by_cases hlt : s'.cols.length < DEFAULT_COL_NUM
    · have hfin := finishRow_spec (pre ++ X ++ s'.raw.take s'.skipped)
        (s'.raw.drop s'.skipped) (LINE_ENDING :: post) hdrop 0
        (s'.cols.map (List.map some)) (by simpa using hlt)
      rw [← hd2, ← hp2, ← hn2] at hfin
      rw [hfin, if_pos (by omega)]
      simp
    · have hfin := finishRow_full (pre ++ X ++ s'.raw.take s'.skipped)
        (s'.raw.drop s'.skipped) (LINE_ENDING :: post) hdrop 0
        (s'.cols.map (List.map some)) (by simp; omega)
      rw [← hd2, ← hp2, ← hn2] at hfin
      rw [hfin, if_neg (by omega)]
  · rw [if_neg hcap, if_neg (by omega)]

theorem scanRow_cols_le_commas : ∀ (r : List Nat) (s : Scan),
    (scanRow s r).cols.length ≤ s.cols.length + r.count COMMA := by
  intro r
  induction r with
  | nil => intro s; simp [scanRow]
  | cons c r ih =>
    intro s
    have h := ih (scanByte s c)
    simp only [scanRow]
    by_cases hc : c = COMMA
    · have hb : (scanByte s c).cols.length ≤ s.cols.length + 1 := by
        simp only [scanByte]
        split_ifs <;> simp
      have hcnt : (c :: r).count COMMA = r.count COMMA + 1 := by simp [hc]
      omega
    · have hb : (scanByte s c).cols.length = s.cols.length := by
        simp only [scanByte]
        split_ifs with a1 a2
        · rfl
        · exact absurd a2.1 hc
        · rfl
      have hcnt : (c :: r).count COMMA = r.count COMMA := by
        simp [List.count_cons, Ne.symm hc]
      omega

/-- A line with fewer than `DEFAULT_COL_NUM` commas has at most `DEFAULT_COL_NUM` columns. -/
theorem rowFields_length_le (line : List Nat) (h : line.count COMMA < DEFAULT_COL_NUM) :
    (rowFields line).length ≤ DEFAULT_COL_NUM := by
  have := scanRow_cols_le_commas line scanStart
  simp only [rowFields, List.length_append, List.length_singleton]
  simp only [scanStart, List.length_nil] at this
  simp only [scanStart]
  omega

/-! ## C11: a file that cannot be opened -/

/-- C11 (what the code does): when the file cannot be opened, `get_headers` sets the
`IOError` and still goes on to `parseRow`, on the null stream; `filter`, for a column that
is in the header index, goes on to `parseRow` on the null stream as well, and it has set no
error at all. -/
theorem open_failure_still_parses (headers : PyDict) (column pattern : PyStr) (index : Nat)
    (slackC slackP : Buffer) :
    get_headers none = (some .IOError, .error .undefined) ∧
    filter none ((column, index) :: headers) column pattern slackC slackP
      = .error .undefined := by
  refine ⟨rfl, ?_⟩
  obtain ⟨n, hn⟩ := strlen_cstring pattern slackP
  rw [filter_eq_acceptedRows, hn]
  simp [PyDict_GetItem]

/-! ## C12: the cursor after a row -/

/-- C12 (as stated, refuted): a line of 200 commas followed by a newline contains no
carriage return, yet `parseRow` does not return with the cursor after the newline: it
returns no row at all, the 201st column being stored outside the `DEFAULT_COL_NUM` slots
of `row.columns`. -/
theorem parseRow_cursor_overflow :
    CR ∉ List.replicate 200 COMMA ∧ LINE_ENDING ∉ List.replicate 200 COMMA ∧
    parseRow ⟨[] ++ List.replicate 200 COMMA ++ LINE_ENDING :: [], 0⟩ = .error .undefined :=
  ⟨by decide, by decide,
    parseRow_line_full [] (List.replicate 200 COMMA) [] (by decide) (by decide) (by decide)
      (by rw [List.count_replicate_self]; decide)⟩

/-- C12 (amended): for every line without carriage return that is ended by a newline and
has at most `DEFAULT_COL_NUM` columns (quotes allowed), `parseRow` called with the cursor on
the first byte of the line returns the row of its columns with `lastRow = 0` and leaves the
cursor one byte past the newline of that line; the bytes before and after the line are
arbitrary, so the next call starts on the next line. -/
theorem parseRow_cursor_after_line (pre line post : List Nat)
    (hcr : CR ∉ line) (hnl : LINE_ENDING ∉ line)
    (hcap : (rowFields line).length ≤ DEFAULT_COL_NUM) :
    parseRow ⟨pre ++ line ++ LINE_ENDING :: post, pre.length⟩
      = .ok (⟨(rowFields line).length, 0, (rowFields line).map (List.map some)⟩,
          ⟨pre ++ line ++ LINE_ENDING :: post, pre.length + line.length + 1⟩) := by
  rw [parseRow_row pre line post hcr hnl, if_pos hcap]

/-- C12 (amended), at the second line of the file `a\n"x",b\nc\n`: the call starts at
offset 2 and ends at offset 8, on the third line. -/
theorem parseRow_cursor_after_line_witness :
    (CR ∉ [34, 120, 34, 44, 98] ∧ LINE_ENDING ∉ [34, 120, 34, 44, 98] ∧
      (rowFields [34, 120, 34, 44, 98]).length ≤ DEFAULT_COL_NUM) ∧
    rowFields [34, 120, 34, 44, 98] = [[120, 34], [98]] ∧
    parseRow ⟨[97, 10] ++ [34, 120, 34, 44, 98] ++ LINE_ENDING :: [99, 10], [97, 10].length⟩
      = .ok (⟨(rowFields [34, 120, 34, 44, 98]).length, 0,
            (rowFields [34, 120, 34, 44, 98]).map (List.map some)⟩,
          ⟨[97, 10] ++ [34, 120, 34, 44, 98] ++ LINE_ENDING :: [99, 10],
            [97, 10].length + [34, 120, 34, 44, 98].length + 1⟩) :=
  ⟨by decide, by decide,
    parseRow_cursor_after_line [97, 10] [34, 120, 34, 44, 98] [99, 10] (by decide) (by decide)
      (by decide)⟩

/-! ## C13: the column extractor -/

theorem readColumnParser_spec (f : List Nat) : ∀ (X Y : List Nat),
    readColumnParser ⟨X ++ f ++ Y, X.length⟩ f.length
      = (f.map some, ⟨X ++ f ++ Y, X.length + f.length⟩) := by
  induction f with
  | nil => intro X Y; simp [readColumnParser]
  | cons c f ih =>
    intro X Y
    have e1 : X ++ c :: f ++ Y = X ++ c :: (f ++ Y) := by simp
    have e2 : X ++ c :: (f ++ Y) = (X ++ [c]) ++ f ++ Y := by simp
    have := ih (X ++ [c]) Y
    simp only [List.length_append, List.length_singleton] at this
    simp only [List.length_cons, readColumnParser, e1, fgetc_at]
    rw [e2, this]
    simp [Nat.add_assoc, Nat.add_comm 1]

/-- The bytes at the offsets `k .. k + n - 1` of a stream, when each of them exists: the
stream splits around them. -/
theorem split_at_bytes (data : List Nat) (k n : Nat)
    (hb : ∀ i, i < n → ∃ b, data[k + i]? = some b) (hn : 0 < n) :
    data = data.take k ++ (data.drop k).take n ++ data.drop (k + n) ∧
    (data.take k).length = k ∧ ((data.drop k).take n).length = n := by
  obtain ⟨b, hlast⟩ := hb (n - 1) (by omega)
  have hlt : k + (n - 1) < data.length := by
    by_contra hcon
    rw [List.getElem?_eq_none (by omega)] at hlast
    exact Option.noConfusion hlast
  refine ⟨?_, ?_, ?_⟩
  · rw [List.append_assoc, ← List.drop_drop, List.take_append_drop, List.take_append_drop]
  · simp only [List.length_take]; omega
  · simp only [List.length_take, List.length_drop]; omega

/-- C13: for every stream, cursor position `p` and length `n` with `p ≥ n + 1`, if the `n`
offsets `p - n - 1 .. p - 2` hold bytes none of which is a carriage return, then
`parseColumn(fp, n)` returns exactly those `n` bytes, in order, and leaves the cursor at
`p - 1`; the same holds for the version of `Parser.c`. -/
theorem parseColumn_rereads (data : List Nat) (p n : Nat) (hp : n + 1 ≤ p)
    (hb : ∀ i, i < n → ∃ b, data[p - n - 1 + i]? = some b ∧ b ≠ CR) :
    parseColumn ⟨data, p⟩ n
      = .ok (((data.drop (p - n - 1)).take n).map some, ⟨data, p - 1⟩) ∧
    ((data.drop (p - n - 1)).take n).length = n ∧
    parseColumnParser ⟨data, p⟩ n
      = .ok (((data.drop (p - n - 1)).take n).map some, ⟨data, p - 1⟩) := by
  obtain ⟨q, rfl⟩ : ∃ q, p = q + 1 := ⟨p - 1, by omega⟩
  by_cases hn : n = 0
  · subst hn
    have hs := fseek_back_le data q 0 (by omega)
    simp only [Nat.sub_zero] at hs
    simp only [parseColumn, parseColumnParser]
    simp only [Nat.cast_zero] at hs ⊢
    rw [hs]
    simp [readColumn, readColumnParser]
  · have hk : q + 1 - n - 1 = q - n := by omega
    rw [hk] at hb ⊢
    obtain ⟨hd, hX, hf⟩ := split_at_bytes data (q - n) n
      (fun i hi => (hb i hi).imp fun _ h => h.1) (by omega)
    have hcr : CR ∉ (data.drop (q - n)).take n := by
      intro hmem
      obtain ⟨i, hi⟩ := List.mem_iff_getElem?.mp hmem
      have hin : i < n := by
        by_contra hcon
        rw [List.getElem?_eq_none (by rw [hf]; omega)] at hi
        exact Option.noConfusion hi
      rw [List.getElem?_take_of_lt hin, List.getElem?_drop] at hi
      obtain ⟨b, hb1, hb2⟩ := hb i hin
      rw [hb1] at hi
      exact hb2 (Option.some.inj hi)
    have h1 := parseColumn_spec (data.take (q - n)) ((data.drop (q - n)).take n)
      (data.drop (q - n + n)) hcr
    have h2 := readColumnParser_spec ((data.drop (q - n)).take n) (data.take (q - n))
      (data.drop (q - n + n))
    rw [← hd, hX, hf] at h1 h2
    have e1 : q - n + n + 1 = q + 1 := by omega
    have e2 : q - n + n = q := by omega
    have e3 : q + 1 - 1 = q := by omega
    simp only [e1] at h1
    simp only [e2] at h1 h2
    refine ⟨by rw [h1, e3], hf, ?_⟩
    simp only [parseColumnParser, fseek_back_le data q n (by omega), h2, e3]

/-- C13, on the stream `ab,c` with the cursor after the comma: the two bytes before the
comma are returned and the cursor is left on the comma. -/
theorem parseColumn_rereads_witness :
    (2 + 1 ≤ 3 ∧ ∀ i, i < 2 → ∃ b, [97, 98, 44, 99][3 - 2 - 1 + i]? = some b ∧ b ≠ CR) ∧
    parseColumn ⟨[97, 98, 44, 99], 3⟩ 2
      = .ok ((([97, 98, 44, 99].drop (3 - 2 - 1)).take 2).map some, ⟨[97, 98, 44, 99], 3 - 1⟩) ∧
    (([97, 98, 44, 99].drop (3 - 2 - 1)).take 2).map some = [some 97, some 98] :=
  have hb : ∀ i, i < 2 → ∃ b, [97, 98, 44, 99][3 - 2 - 1 + i]? = some b ∧ b ≠ CR := by
    intro i hi
    have : i = 0 ∨ i = 1 := by omega
    rcases this with rfl | rfl
    · exact ⟨97, by decide, by decide⟩
    · exact ⟨98, by decide, by decide⟩
  ⟨⟨by decide, hb⟩, (parseColumn_rereads [97, 98, 44, 99] 3 2 (by decide) hb).1, by decide⟩

/-! ## C14: the quoted state after a quoted column -/

/-- C14 (evaluation at the failing input): the row text `"x",b,c\n` tokenizes to two
columns, `x"` and `b,c`: `colStateQuotes` is still `ON` after the first column, so the
comma after `b` is counted as content. -/
theorem parseRow_quoted_state_kept :
    parseRow (fopen [34, 120, 34, 44, 98, 44, 99, 10])
      = .ok (⟨2, 0, [[some 120, some 34], [some 98, some 44, some 99]]⟩,
          ⟨[34, 120, 34, 44, 98, 44, 99, 10], 8⟩) := by
  decide

/-! ## C15: a row with one unbalanced quote -/

theorem readColumn_length : ∀ (n : Nat) (fp : FILE), (readColumn fp n).1.length = n := by
  intro n
  induction n with
  | zero => intro fp; simp [readColumn]
  | succ n ih =>
    intro fp
    simp only [readColumn]
    cases hg : fgetc fp with
    | mk o fp1 =>
      cases o with
      | none => simp [ih]
      | some c =>
        simp only
        split_ifs <;> simp [ih]

theorem finishRow_ok (data : List Nat) (pos n lastRow : Nat) (cols : List Buffer)
    (h : n ≤ pos) (hcap : cols.length < DEFAULT_COL_NUM) :
    ∃ s fp2, finishRow ⟨data, pos + 1⟩ n lastRow cols
      = .ok (⟨cols.length + 1, lastRow, cols ++ [s]⟩, fp2) ∧ s.length = n := by
  refine ⟨(readColumn ⟨data, pos - n⟩ n).1,
    ⟨(readColumn ⟨data, pos - n⟩ n).2.data, (readColumn ⟨data, pos - n⟩ n).2.pos + 1⟩, ?_,
    readColumn_length _ _⟩
  simp only [finishRow, parseColumn, fseek_back_le data pos n h, storeColumn_ok cols _ hcap,
    fseek_one]
  simp

/-- The loop of `parseRow` in the quoted state over bytes that hold no quote and no line
ending, the first of them not a comma when the byte before was a quote: every byte is
counted, no column ends. -/
theorem parseRowLoop_quoted_run (rest : List Nat) : ∀ (B X : List Nat) (fuel prev n : Nat)
    (cols : List Buffer) (data : List Nat) (pos : Nat),
    data = X ++ B ++ rest → pos = X.length → QUOTE ∉ B → LINE_ENDING ∉ B →
    (prev = QUOTE → B.head? ≠ some COMMA) →
    parseRowLoop (fuel + B.length) ⟨data, pos⟩ ON prev n cols
      = parseRowLoop fuel ⟨data, pos + B.length⟩ ON (B.getLastD prev) (n + B.length) cols := by
  intro B
  induction B with
  | nil => intro X fuel prev n cols data pos _ _ _ _ _; simp
  | cons c B ih =>
    intro X fuel prev n cols data pos hd hp hq hnl hhead
    have hc1 : c ≠ LINE_ENDING := fun e => hnl (by simp [e])
    have hc2 : c ≠ QUOTE := fun e => hq (by simp [e])
    have hq1 : QUOTE ∉ B := fun e => hq (by simp [e])
    have hnl1 : LINE_ENDING ∉ B := fun e => hnl (by simp [e])
    have hd1 : data = X ++ c :: (B ++ rest) := by simp [hd]
    have hg : fgetc ⟨data, pos⟩ = (some c, ⟨data, pos + 1⟩) := by
      rw [hd1, hp]; exact fgetc_at _ _ _
    have hfuel : fuel + (c :: B).length = (fuel + B.length) + 1 := by
      simp only [List.length_cons]; omega
    have hpos : pos + (c :: B).length = pos + 1 + B.length := by
      simp only [List.length_cons]; omega
    have hcnt : n + (c :: B).length = n + 1 + B.length := by
      simp only [List.length_cons]; omega
    have hih := ih (X ++ [c]) fuel c (n + 1) cols data (pos + 1) (by simp [hd]) (by simp [hp])
      hq1 hnl1 (fun e => absurd e hc2)
    rw [hfuel, hpos, hcnt, List.getLastD_cons]
    simp only [parseRowLoop, hg, if_neg hc1, hc2, false_and, if_false]
    by_cases hcm : c = COMMA
    · have hpq : ¬ prev = QUOTE := fun e => hhead e (by simp [hcm])
      have hon : ¬ ON = 0 := by decide
      rw [if_pos hcm, if_neg hon, if_neg hpq]
      exact hih
    · rw [if_neg hcm]
      exact hih

/-- The tokenizer state after bytes without quotes, read in the unquoted state: the columns
ended so far and the bytes of the current one are the fields of a split at every comma. -/
theorem scanRow_unquoted : ∀ (A : List Nat) (s : Scan), QUOTE ∉ A → s.colStateQuotes = 0 →
    s.skipped = 0 → COMMA ∉ s.raw →
    (scanRow s A).colStateQuotes = 0 ∧ (scanRow s A).skipped = 0 ∧
    (scanRow s A).cols ++ [(scanRow s A).raw] = s.cols ++ (s.raw ++ A).splitOn COMMA ∧
    (scanRow s A).cols.length = s.cols.length + A.count COMMA := by
  intro A
  induction A with
  | nil =>
    intro s _ hq hsk hraw
    simp [scanRow, hq, hsk, splitOn_single s.raw hraw]
  | cons c A ih =>
    intro s hqA hq hsk hraw
    have hc2 : c ≠ QUOTE := fun e => hqA (by simp [e])
    have hq1 : QUOTE ∉ A := fun e => hqA (by simp [e])
    have h1 : ¬ (c = QUOTE ∧ s.colStateQuotes = 0) := fun e => hc2 e.1
    simp only [scanRow]
    by_cases hcm : c = COMMA
    · have hs : scanByte s c = ⟨s.colStateQuotes, c, 0, [], s.cols ++ [s.raw]⟩ := by
        simp only [scanByte, if_neg h1, if_pos (⟨hcm, Or.inl hq⟩ : c = COMMA ∧ _), hsk,
          List.drop_zero]
      obtain ⟨i1, i2, i3, i4⟩ := ih ⟨s.colStateQuotes, c, 0, [], s.cols ++ [s.raw]⟩ hq1 hq rfl
        (by simp)
      rw [hs]
      refine ⟨i1, i2, ?_, ?_⟩
      · rw [i3, hcm, splitOn_first s.raw A hraw]
        simp
      · rw [i4, hcm]
        simp
        omega
    · have h2 : ¬ (c = COMMA ∧ (s.colStateQuotes = 0 ∨ s.prevChar = QUOTE)) :=
        fun e => hcm e.1
      have hs : scanByte s c = ⟨s.colStateQuotes, c, s.skipped, s.raw ++ [c], s.cols⟩ := by
        simp only [scanByte, if_neg h1, if_neg h2]
      obtain ⟨i1, i2, i3, i4⟩ := ih ⟨s.colStateQuotes, c, s.skipped, s.raw ++ [c], s.cols⟩ hq1
        hq hsk (by simp [hraw, Ne.symm hcm])
      rw [hs]
      refine ⟨i1, i2, ?_, ?_⟩
      · rw [i3]; simp
      · rw [i4]
        simp [List.count_cons, Ne.symm hcm]

theorem scanRow_append : ∀ (A B : List Nat) (s : Scan),
    scanRow s (A ++ B) = scanRow (scanRow s A) B := by
  intro A
  induction A with
  | nil => intro B s; rfl
  | cons c A ih =>
    intro B s
    show scanRow (scanByte s c) (A ++ B) = scanRow (scanRow (scanByte s c) A) B
    exact ih B _

/-- The tokenizer on a row `A"B` with one quote: the commas of `A` end columns, the bytes of
`B` are content of the last column. -/
theorem parseRow_one_quote (pre A B post : List Nat)
    (hqA : QUOTE ∉ A) (hqB : QUOTE ∉ B) (hcrA : CR ∉ A) (hnlA : LINE_ENDING ∉ A)
    (hnlB : LINE_ENDING ∉ B) (hB : B.head? ≠ some COMMA)
    (hcap : A.count COMMA < DEFAULT_COL_NUM) :
    ∃ (front : List (List Nat)) (last : List Nat) (s : Buffer) (fp2 : FILE),
      A.splitOn COMMA = front ++ [last] ∧ s.length = last.length + B.length ∧
      parseRow ⟨pre ++ A ++ QUOTE :: B ++ LINE_ENDING :: post, pre.length⟩
        = .ok (⟨A.count COMMA + 1, 0, front.map (List.map some) ++ [s]⟩, fp2) := by
  have hF := rowFuel_gt (pre ++ A ++ QUOTE :: B ++ LINE_ENDING :: post) pre.length
  simp only [List.length_append, List.length_cons] at hF
  simp only [parseRow]
  generalize rowFuel ⟨pre ++ A ++ QUOTE :: B ++ LINE_ENDING :: post, pre.length⟩ = F at hF ⊢
  have hAq : (A ++ [QUOTE]).length = A.length + 1 := by simp
  obtain ⟨fuel, rfl⟩ : ∃ fuel, F = ((fuel + 1) + B.length) + (A ++ [QUOTE]).length :=
    ⟨F - 1 - B.length - (A.length + 1), by rw [hAq]; omega⟩
  obtain ⟨i1, i2, i3, i4⟩ := scanRow_unquoted A scanStart hqA rfl rfl (by simp [scanStart])
  obtain ⟨X, hX⟩ := scanRow_raw_suffix A scanStart
  have hs1 : scanRow scanStart (A ++ [QUOTE])
      = ⟨ON, QUOTE, 1, (scanRow scanStart A).raw ++ [QUOTE], (scanRow scanStart A).cols⟩ := by
    rw [scanRow_append]
    simp only [scanRow, scanByte, i1, i2, and_self, if_true]
  have hscan := parseRowLoop_scan (B ++ LINE_ENDING :: post) (A ++ [QUOTE]) scanStart pre
    ((fuel + 1) + B.length) (pre ++ A ++ QUOTE :: B ++ LINE_ENDING :: post) pre.length 0 []
    (by simp [scanStart]) (by simp [scanStart]) (by simp [scanStart]) (by simp [scanStart])
    (by simp [scanStart]) (by simp [scanStart])
    (by simp only [List.mem_append, List.mem_singleton, not_or]; exact ⟨hcrA, by decide⟩)
    (by simp only [List.mem_append, List.mem_singleton, not_or]; exact ⟨hnlA, by decide⟩)
  have hq0 : scanStart.colStateQuotes = OFF := rfl
  have hp0 : scanStart.prevChar = 0 := rfl
  have hr0 : scanStart.raw = [] := rfl
  have hc0 : scanStart.cols = [] := rfl
  rw [hq0, hp0, hs1] at hscan
  dsimp only at hscan
  rw [hAq] at hscan ⊢
  rw [hr0] at hX
  simp only [hc0, hr0, List.nil_append, List.length_nil, Nat.zero_add] at i3 i4 hX
  generalize scanRow scanStart A = sA at i3 i4 hX hscan
  have hrawlen : sA.raw.length ≤ A.length := by
    have := congrArg List.length hX
    simp only [List.length_append] at this
    omega
  simp only [List.length_append, List.length_singleton] at hscan
  rw [if_pos (by omega)] at hscan
  have hn : sA.raw.length + 1 - 1 = sA.raw.length := by omega
  rw [hn] at hscan
  have hrun := parseRowLoop_quoted_run (LINE_ENDING :: post) B (pre ++ A ++ [QUOTE]) (fuel + 1)
    QUOTE sA.raw.length (sA.cols.map (List.map some))
    (pre ++ A ++ QUOTE :: B ++ LINE_ENDING :: post) (pre.length + (A.length + 1))
    (by simp) (by simp) hqB hnlB (fun _ => hB)
  have hd1 : pre ++ A ++ QUOTE :: B ++ LINE_ENDING :: post
      = (pre ++ A ++ QUOTE :: B) ++ LINE_ENDING :: post := by simp
  have hg : fgetc ⟨pre ++ A ++ QUOTE :: B ++ LINE_ENDING :: post,
      pre.length + (A.length + 1) + B.length⟩
      = (some LINE_ENDING, ⟨pre ++ A ++ QUOTE :: B ++ LINE_ENDING :: post,
          pre.length + (A.length + 1) + B.length + 1⟩) := by
    have e : pre.length + (A.length + 1) + B.length = (pre ++ A ++ QUOTE :: B).length := by
      simp only [List.length_append, List.length_cons]; omega
    rw [hd1, e]; exact fgetc_at _ _ _
  obtain ⟨s, fp2, hfin, hslen⟩ := finishRow_ok
    (pre ++ A ++ QUOTE :: B ++ LINE_ENDING :: post) (pre.length + (A.length + 1) + B.length)
    (sA.raw.length + B.length) 0 (sA.cols.map (List.map some)) (by omega)
    (by simp only [List.length_map]; omega)
  refine ⟨sA.cols, sA.raw, s, fp2, i3.symm, hslen, ?_⟩
  rw [hscan, hrun]
  simp only [parseRowLoop, hg, if_true, hfin, List.length_map, i4]

theorem rowFields_one_quote_length (A : List Nat) (hq : QUOTE ∉ A) :
    (rowFields (A ++ [QUOTE])).length = A.count COMMA + 1 := by
  obtain ⟨i1, i2, _, i4⟩ := scanRow_unquoted A scanStart hq rfl rfl (by simp [scanStart])
  have hc0 : scanStart.cols = [] := rfl
  simp only [hc0, List.length_nil, Nat.zero_add] at i4
  simp only [rowFields, scanRow_append, scanRow, scanByte, i1, i2, and_self, if_true,
    List.length_append, List.length_singleton, i4]

/-- C15 (as stated, refuted): first, the row `a\rb,c"d` has one double quote, followed by
`d`, and one comma before it, yet it tokenizes to three columns: after the column cut short
at the carriage return the cursor is left before the comma, which is read a second time;
second, the row of 200 commas followed by one double quote gives no row at all, its 201st
column being stored outside the `DEFAULT_COL_NUM` slots of `row.columns`. -/
theorem parseRow_unbalanced_quote_counterexample :
    ([97, 13, 98, 44, 99, 34, 100].count QUOTE = 1 ∧
      [97, 13, 98, 44, 99].count COMMA = 1 ∧
      parseRow (fopen ([97, 13, 98, 44, 99] ++ QUOTE :: [100] ++ LINE_ENDING :: []))
        = .ok (⟨3, 0, [[some 97, none, none], [], [some 34, some 100]]⟩,
            ⟨[97, 13, 98, 44, 99] ++ QUOTE :: [100] ++ LINE_ENDING :: [], 8⟩)) ∧
    (QUOTE ∉ List.replicate 200 COMMA ∧ CR ∉ List.replicate 200 COMMA ∧
      parseRow ⟨[] ++ (List.replicate 200 COMMA ++ [QUOTE]) ++ LINE_ENDING :: [], 0⟩
        = .error .undefined) := by
  refine ⟨by decide, by decide, by decide, ?_⟩
  have h := parseRow_row [] (List.replicate 200 COMMA ++ [QUOTE]) [] (by decide) (by decide)
  have hlen := rowFields_one_quote_length (List.replicate 200 COMMA) (by decide)
  rw [List.count_replicate_self] at hlen
  rw [hlen, if_neg (by decide)] at h
  exact h

/-- C15 (amended): for every row ended by a newline that holds exactly one double quote,
not immediately followed by a comma, with no carriage return and fewer than
`DEFAULT_COL_NUM` commas before the quote, `parseRow` returns a row and raises no error;
every comma before the quote ends a column, so the columns before the last are the fields
of the text before the quote up to its last comma; in the last column the rest of that text
and every byte after the quote are counted, commas included, and the quote is not: its
length is their number; `columnCount` is the number of commas before the quote plus one. -/
theorem parseRow_unbalanced_quote (pre A B post : List Nat)
    (hqA : QUOTE ∉ A) (hqB : QUOTE ∉ B) (hcrA : CR ∉ A) (hnlA : LINE_ENDING ∉ A)
    (hnlB : LINE_ENDING ∉ B) (hB : B.head? ≠ some COMMA)
    (hcap : A.count COMMA < DEFAULT_COL_NUM) :
    ∃ (front : List (List Nat)) (last : List Nat) (s : Buffer) (fp2 : FILE),
      A.splitOn COMMA = front ++ [last] ∧ s.length = last.length + B.length ∧
      parseRow ⟨pre ++ A ++ QUOTE :: B ++ LINE_ENDING :: post, pre.length⟩
        = .ok (⟨A.count COMMA + 1, 0, front.map (List.map some) ++ [s]⟩, fp2) :=
  parseRow_one_quote pre A B post hqA hqB hcrA hnlA hnlB hB hcap

/-- C15 (amended), at the row `a,b"c,d`: two columns, `a` and the four bytes `"c,d`. -/
theorem parseRow_unbalanced_quote_witness :
    (QUOTE ∉ [97, 44, 98] ∧ QUOTE ∉ [99, 44, 100] ∧ CR ∉ [97, 44, 98] ∧
      LINE_ENDING ∉ [97, 44, 98] ∧ LINE_ENDING ∉ [99, 44, 100] ∧
      [99, 44, 100].head? ≠ some COMMA ∧ [97, 44, 98].count COMMA < DEFAULT_COL_NUM) ∧
    (∃ (front : List (List Nat)) (last : List Nat) (s : Buffer) (fp2 : FILE),
      [97, 44, 98].splitOn COMMA = front ++ [last] ∧
      s.length = last.length + [99, 44, 100].length ∧
      parseRow ⟨[] ++ [97, 44, 98] ++ QUOTE :: [99, 44, 100] ++ LINE_ENDING :: [],
          ([] : List Nat).length⟩
        = .ok (⟨[97, 44, 98].count COMMA + 1, 0, front.map (List.map some) ++ [s]⟩, fp2)) ∧
    parseRow (fopen [97, 44, 98, 34, 99, 44, 100, 10])
      = .ok (⟨2, 0, [[some 97], [some 34, some 99, some 44, some 100]]⟩,
          ⟨[97, 44, 98, 34, 99, 44, 100, 10], 8⟩) :=
  ⟨by decide,
    parseRow_unbalanced_quote [] [97, 44, 98] [99, 44, 100] [] (by decide) (by decide)
      (by decide) (by decide) (by decide) (by decide) (by decide),
    by decide⟩

/-! ## C16: what the pattern matcher accepts -/

theorem strlen_cstring_eq (col : List Nat) (slack : Buffer) (h0 : 0 ∉ col) :
    strlen (cstring col slack) = .ok col.length := by
  induction col with
  | nil => simp [cstring, strlen]
  | cons b col ih =>
    have hb : b ≠ 0 := fun e => h0 (by simp [e])
    have hc : 0 ∉ col := fun e => h0 (by simp [e])
    have := ih hc
    simp only [cstring] at this
    simp [cstring, strlen, hb, this]

theorem cstring_drop (col : List Nat) (slack : Buffer) (i : Nat) (h : i ≤ col.length) :
    (cstring col slack).drop i = cstring (col.drop i) slack := by
  simp only [cstring]
  rw [List.drop_append_of_le_length (by simpa using h), List.map_drop]

/-- A run of the inner loop of `search_column` that stops after exactly the length of the
pattern: the pattern stands at the start of the column text and one more column byte
follows it. -/
theorem matchRun_full (slackC slackP : Buffer) : ∀ (pat cs : List Nat), 0 ∉ cs → 0 ∉ pat →
    matchRun (cstring cs slackC) (cstring pat slackP) = .ok pat.length →
    cs.take pat.length = pat ∧ pat.length < cs.length := by
  intro pat
  induction pat with
  | nil =>
    intro cs hcs _ h
    cases cs with
    | nil =>
      exfalso
      have e1 : cstring [] slackC = some 0 :: slackC := rfl
      have e2 : cstring [] slackP = some 0 :: slackP := rfl
      rw [e1, e2] at h
      simp only [matchRun, if_true] at h
      cases hm : matchRun slackC slackP with
      | error e => rw [hm] at h; simp at h
      | ok k => rw [hm] at h; simp at h
    | cons c cs => simp
  | cons p pat ih =>
    intro cs hcs hpat h
    have hp : p ≠ 0 := fun e => hpat (by simp [e])
    have hpat1 : 0 ∉ pat := fun e => hpat (by simp [e])
    cases cs with
    | nil =>
      exfalso
      have e1 : cstring [] slackC = some 0 :: slackC := rfl
      have e2 : cstring (p :: pat) slackP = some p :: cstring pat slackP := rfl
      rw [e1, e2] at h
      simp only [matchRun, if_neg (Ne.symm hp)] at h
      simp at h
    | cons c cs =>
      have hcs1 : 0 ∉ cs := fun e => hcs (by simp [e])
      have e1 : cstring (c :: cs) slackC = some c :: cstring cs slackC := rfl
      have e2 : cstring (p :: pat) slackP = some p :: cstring pat slackP := rfl
      rw [e1, e2] at h
      simp only [matchRun] at h
      by_cases hcp : c = p
      · rw [if_pos hcp] at h
        cases hm : matchRun (cstring cs slackC) (cstring pat slackP) with
        | error e => rw [hm] at h; simp at h
        | ok k =>
          rw [hm] at h
          simp only [Except.ok.injEq, List.length_cons, Nat.add_right_cancel_iff] at h
          subst h
          obtain ⟨h1, h2⟩ := ih cs hcs1 hpat1 hm
          simp only [List.length_cons, List.take_succ_cons, h1, hcp]
          exact ⟨trivial, by omega⟩
      · rw [if_neg hcp] at h
        simp at h

theorem searchLoop_done (fuel : Nat) (column pattern : Buffer)
    (pattern_length col_len i found : Nat) (h : col_len ≤ i) :
    searchLoop fuel column pattern pattern_length col_len i found = .ok found := by
  cases fuel <;> simp [searchLoop, Nat.not_lt.mpr h]

/-- When the `for` loop of `search_column` returns 1, `found` was 1 already or one of its
inner runs stopped after exactly `pattern_length` bytes. -/
theorem searchLoop_one : ∀ (fuel : Nat) (column pattern : Buffer)
    (pattern_length col_len i found : Nat),
    searchLoop fuel column pattern pattern_length col_len i found = .ok 1 →
    found = 1 ∨ ∃ k, k < col_len ∧ matchRun (column.drop k) pattern = .ok pattern_length := by
  intro fuel
  induction fuel with
  | zero =>
    intro column pattern pattern_length col_len i found h
    simp only [searchLoop] at h
    split_ifs at h
    left
    simpa using h
  | succ fuel ih =>
    intro column pattern pattern_length col_len i found h
    simp only [searchLoop] at h
    split_ifs at h with hi
    · cases hm : matchRun (column.drop i) pattern with
      | error e => rw [hm] at h; simp at h
      | ok k =>
        rw [hm] at h
        simp only at h
        rcases ih _ _ _ _ _ _ h with h1 | h1
        · by_cases hk : k = pattern_length
          · right
            exact ⟨i, hi, by rw [hm, hk]⟩
          · left
            simpa [hk] using h1
        · exact Or.inr h1
    · left
      simpa using h

theorem searchLoop_value : ∀ (fuel : Nat) (column pattern : Buffer)
    (pattern_length col_len i found r : Nat),
    searchLoop fuel column pattern pattern_length col_len i found = .ok r →
    r = found ∨ r = 1 := by
  intro fuel
  induction fuel with
  | zero =>
    intro column pattern pattern_length col_len i found r h
    simp only [searchLoop] at h
    split_ifs at h
    left
    simpa using h.symm
  | succ fuel ih =>
    intro column pattern pattern_length col_len i found r h
    simp only [searchLoop] at h
    split_ifs at h with hi
    · cases hm : matchRun (column.drop i) pattern with
      | error e => rw [hm] at h; simp at h
      | ok k =>
        rw [hm] at h
        simp only at h
        rcases ih _ _ _ _ _ _ _ h with h1 | h1
        · by_cases hk : k = pattern_length
          · right; simpa [hk] using h1
          · left; simpa [hk] using h1
        · exact Or.inr h1
    · left
      simpa using h.symm

theorem strlen_error : ∀ (m : Buffer) (e : Fault), strlen m = .error e → e = .undefined := by
  intro m
  induction m with
  | nil => intro e h; simp [strlen] at h; exact h.symm
  | cons c m ih =>
    intro e h
    cases c with
    | none => simp [strlen] at h; exact h.symm
    | some b =>
      simp only [strlen] at h
      split_ifs at h
      cases hm : strlen m with
      | error e2 =>
        rw [hm] at h
        simp only [Except.error.injEq] at h
        exact h ▸ ih e2 hm
      | ok n => rw [hm] at h; simp at h

theorem searchLoop_error : ∀ (fuel : Nat) (column pattern : Buffer)
    (pattern_length col_len i found : Nat) (e : Fault), col_len ≤ i + fuel →
    searchLoop fuel column pattern pattern_length col_len i found = .error e →
    e = .undefined := by
  intro fuel
  induction fuel with
  | zero =>
    intro column pattern pattern_length col_len i found e hf h
    simp only [searchLoop] at h
    rw [if_neg (by omega)] at h
    simp at h
  | succ fuel ih =>
    intro column pattern pattern_length col_len i found e hf h
    simp only [searchLoop] at h
    split_ifs at h with hi
    cases hm : matchRun (column.drop i) pattern with
    | error e2 =>
      rw [hm] at h
      simp only [Except.error.injEq] at h
      exact h ▸ matchRun_error _ _ _ hm
    | ok k =>
      rw [hm] at h
      exact ih _ _ _ _ _ _ e (by omega) h

/-- A call of `search_column` that gives no value has read a cell outside its strings. -/
theorem search_column_error (column pattern : Buffer) (pattern_length : Nat) (e : Fault)
    (h : search_column column pattern pattern_length = .error e) : e = .undefined := by
  simp only [search_column] at h
  cases hs : strlen column with
  | error e2 =>
    rw [hs] at h
    simp only [Except.error.injEq] at h
    exact h ▸ strlen_error _ _ hs
  | ok col_len =>
    rw [hs] at h
    exact searchLoop_error _ _ _ _ _ _ _ e (by omega) h

/-- A call of `search_column` that returns 1 has an occurrence of the pattern that is
followed by one more byte of the column. -/
theorem search_column_one (col pat : List Nat) (slackC slackP : Buffer)
    (hc : 0 ∉ col) (hp : 0 ∉ pat)
    (h : search_column (cstring col slackC) (cstring pat slackP) pat.length = .ok 1) :
    ∃ k, k + pat.length < col.length ∧ (col.drop k).take pat.length = pat := by
  simp only [search_column, strlen_cstring_eq col slackC hc] at h
  rcases searchLoop_one _ _ _ _ _ _ _ h with h1 | ⟨k, hk, hm⟩
  · exact absurd h1 (by decide)
  · rw [cstring_drop col slackC k (by omega)] at hm
    have hdrop : 0 ∉ col.drop k := fun e => hc (List.mem_of_mem_drop e)
    obtain ⟨h1, h2⟩ := matchRun_full slackC slackP pat (col.drop k) hdrop hp hm
    refine ⟨k, ?_, h1⟩
    simp only [List.length_drop] at h2
    omega

/-- The inner loop of `search_column` on two copies of the same string: it runs over the
string and over both terminators, and goes on in the cells that follow them. -/
theorem matchRun_same (slackC slackP : Buffer) : ∀ (s : List Nat),
    matchRun (cstring s slackC) (cstring s slackP)
      = match matchRun slackC slackP with
        | .error e => .error e
        | .ok k => .ok (k + s.length + 1) := by
  intro s
  induction s with
  | nil =>
    have e1 : cstring [] slackC = some 0 :: slackC := rfl
    have e2 : cstring [] slackP = some 0 :: slackP := rfl
    rw [e1, e2]
    simp only [matchRun, if_true, List.length_nil, Nat.add_zero]
  | cons c s ih =>
    have e1 : cstring (c :: s) slackC = some c :: cstring s slackC := rfl
    have e2 : cstring (c :: s) slackP = some c :: cstring s slackP := rfl
    rw [e1, e2]
    simp only [matchRun, if_true, ih]
    cases matchRun slackC slackP with
    | error e => rfl
    | ok k => simp only [List.length_cons]; rfl

theorem search_column_same (s : List Nat) (slackC slackP : Buffer) (hs : 0 ∉ s) :
    search_column (cstring s slackC) (cstring s slackP) s.length
      = if s = [] then .ok 0
        else match matchRun slackC slackP with
          | .error e => .error e
          | .ok _ => .ok 0 := by
  simp only [search_column, strlen_cstring_eq s slackC hs]
  cases s with
  | nil => simp [searchLoop]
  | cons c s =>
    rw [if_neg (by simp)]
    have hlen : (c :: s).length = s.length + 1 := rfl
    rw [hlen]
    simp only [searchLoop, Nat.zero_lt_succ, if_true, List.drop_zero, matchRun_same]
    cases matchRun slackC slackP with
    | error e => rfl
    | ok k =>
      simp only
      rw [searchLoop_done _ _ _ _ _ _ _ (by simp only [List.length_cons]; omega)]
      rw [if_neg (by simp only [List.length_cons]; omega)]

/-- C16 (as stated, refuted): with the string `a` passed as both arguments, the same memory
on both sides, `search_column(s, s, 1)` does not return 0: the inner loop compares equal
bytes over the string, over the terminator and over everything that follows, and leaves
the memory it may read. -/
theorem search_column_same_buffer :
    (0 : Nat) ∉ [97] ∧
    search_column (cstring [97] [some 98, some 0]) (cstring [97] [some 98, some 0])
      [97].length = .error .undefined ∧
    search_column (cstring [97] [some 98, some 0]) (cstring [97] [some 98, some 0])
      [97].length ≠ .ok 0 := by
  decide

/-- C16 (amended): for NUL-free strings, whenever `search_column(column, pattern,
pattern_length)` returns 1 with `pattern_length` the length of the pattern, the pattern
occurs in the column at an index `k` with `k + pattern_length` strictly less than the
length of the column. Consequently the scan that starts on an occurrence ending at the last
byte of the column does not stop at `pattern_length`, and for every string `s`,
`search_column(s, s, length of s)` never returns 1: it returns 0 or reads outside the
memory it may read, and it returns 0 when the cells after the two terminators differ
somewhere. -/
theorem search_column_accepts (col pat u s : List Nat) (slackC slackP : Buffer)
    (hc : 0 ∉ col) (hp : 0 ∉ pat) (hs : 0 ∉ s) :
    (search_column (cstring col slackC) (cstring pat slackP) pat.length = .ok 1 →
      ∃ k, k + pat.length < col.length ∧ (col.drop k).take pat.length = pat) ∧
    matchRun ((cstring (u ++ pat) slackC).drop u.length) (cstring pat slackP)
      ≠ .ok pat.length ∧
    search_column (cstring s slackC) (cstring s slackP) s.length ≠ .ok 1 ∧
    (search_column (cstring s slackC) (cstring s slackP) s.length = .ok 0 ∨
      search_column (cstring s slackC) (cstring s slackP) s.length = .error .undefined) ∧
    ((∃ k, matchRun slackC slackP = .ok k) →
      search_column (cstring s slackC) (cstring s slackP) s.length = .ok 0) := by
  have hne : search_column (cstring s slackC) (cstring s slackP) s.length ≠ .ok 1 := by
    intro h
    obtain ⟨k, hk, _⟩ := search_column_one s s slackC slackP hs hs h
    omega
  refine ⟨search_column_one col pat slackC slackP hc hp, ?_, hne, ?_, ?_⟩
  · intro h
    rw [cstring_drop (u ++ pat) slackC u.length (by simp), List.drop_left] at h
    obtain ⟨_, h2⟩ := matchRun_full slackC slackP pat pat hp hp h
    omega
  · rw [search_column_same s slackC slackP hs]
    split_ifs
    · left; rfl
    · cases hm : matchRun slackC slackP with
      | error e =>
        right
        rw [matchRun_error _ _ _ hm]
      | ok k => left; rfl
  · rintro ⟨k, hk⟩
    rw [search_column_same s slackC slackP hs, hk]
    split_ifs <;> rfl

/-- C16 (amended), at the column `name` with the pattern `na`, the column `xna` and the
string `a`, with different cells after the column and after the pattern. -/
theorem search_column_accepts_witness :
    ((0 : Nat) ∉ [110, 97, 109, 101] ∧ (0 : Nat) ∉ [110, 97] ∧ (0 : Nat) ∉ [97]) ∧
    (∃ k, k + [110, 97].length < [110, 97, 109, 101].length ∧
      ([110, 97, 109, 101].drop k).take [110, 97].length = [110, 97]) ∧
    matchRun ((cstring ([120] ++ [110, 97]) [some 1]).drop [120].length)
      (cstring [110, 97] [some 2]) ≠ .ok [110, 97].length ∧
    search_column (cstring [97] [some 1]) (cstring [97] [some 2]) [97].length = .ok 0 :=
  have h := search_column_accepts [110, 97, 109, 101] [110, 97] [120] [97] [some 1] [some 2]
    (by decide) (by decide) (by decide)
  ⟨by decide, h.1 (by decide), h.2.1, h.2.2.2.2 ⟨0, by decide⟩⟩

/-! ## C17: the first column of a row that starts with a quoted field -/

theorem scanRow_quoted_run : ∀ (B : List Nat) (s : Scan), s.colStateQuotes = ON →
    QUOTE ∉ B → (s.prevChar = QUOTE → B.head? ≠ some COMMA) →
    scanRow s B = ⟨ON, B.getLastD s.prevChar, s.skipped, s.raw ++ B, s.cols⟩ := by
  intro B
  induction B with
  | nil => intro s hq _ _; cases s; simp_all [scanRow]
  | cons c B ih =>
    intro s hq hB hhead
    have hc2 : c ≠ QUOTE := fun e => hB (by simp [e])
    have hB1 : QUOTE ∉ B := fun e => hB (by simp [e])
    have h1 : ¬ (c = QUOTE ∧ s.colStateQuotes = 0) := fun e => hc2 e.1
    have h2 : ¬ (c = COMMA ∧ (s.colStateQuotes = 0 ∨ s.prevChar = QUOTE)) := by
      rintro ⟨hcm, hor⟩
      rcases hor with h0 | hp
      · rw [hq] at h0; exact absurd h0 (by decide)
      · exact hhead hp (by simp [hcm])
    have hs : scanByte s c = ⟨s.colStateQuotes, c, s.skipped, s.raw ++ [c], s.cols⟩ := by
      simp only [scanByte, if_neg h1, if_neg h2]
    simp only [scanRow, hs]
    rw [ih ⟨s.colStateQuotes, c, s.skipped, s.raw ++ [c], s.cols⟩ hq hB1
      (fun e => absurd e hc2), List.getLastD_cons]
    simp

/-- The tokenizer state after the bytes `"c",` at the start of a row. -/
theorem scanRow_quoted_field (c : List Nat) (hq : QUOTE ∉ c) (hc : c.head? ≠ some COMMA) :
    scanRow scanStart (QUOTE :: c ++ [QUOTE, COMMA]) = ⟨ON, COMMA, 0, [], [c ++ [QUOTE]]⟩ := by
  have e : QUOTE :: c ++ [QUOTE, COMMA] = [QUOTE] ++ (c ++ [QUOTE, COMMA]) := by simp
  have h0 : scanRow scanStart [QUOTE] = ⟨ON, QUOTE, 1, [QUOTE], []⟩ := by decide
  rw [e, scanRow_append, h0, scanRow_append,
    scanRow_quoted_run c ⟨ON, QUOTE, 1, [QUOTE], []⟩ rfl hq (fun _ => hc)]
  simp [scanRow, scanByte, ON, QUOTE, COMMA]

theorem scanRow_cols_prefix : ∀ (r : List Nat) (s : Scan),
    ∃ more, (scanRow s r).cols = s.cols ++ more := by
  intro r
  induction r with
  | nil => intro s; exact ⟨[], by simp [scanRow]⟩
  | cons c r ih =>
    intro s
    obtain ⟨more, hm⟩ := ih (scanByte s c)
    have hb : ∃ m1, (scanByte s c).cols = s.cols ++ m1 := by
      simp only [scanByte]
      split_ifs
      · exact ⟨[], by simp⟩
      · exact ⟨[s.raw.drop s.skipped], rfl⟩
      · exact ⟨[], by simp⟩
    obtain ⟨m1, hm1⟩ := hb
    exact ⟨m1 ++ more, by simp only [scanRow, hm, hm1, List.append_assoc]⟩

theorem finishRow_columns (fp : FILE) (n lastRow : Nat) (cols : List Buffer) (row : Row)
    (fp2 : FILE) (h : finishRow fp n lastRow cols = .ok (row, fp2)) :
    ∃ more, row.columns = cols ++ more := by
  simp only [finishRow] at h
  cases hp : parseColumn fp n with
  | error e => rw [hp] at h; simp at h
  | ok r =>
    obtain ⟨s, fp1⟩ := r
    rw [hp] at h
    simp only [storeColumn] at h
    split_ifs at h
    simp only [fseek_one, Except.ok.injEq, Prod.mk.injEq] at h
    exact ⟨[s], by rw [← h.1]⟩

theorem endColumn_columns (fp : FILE) (n : Nat) (cols cols1 : List Buffer) (fp2 : FILE)
    (h : endColumn fp n cols = .ok (cols1, fp2)) : ∃ more, cols1 = cols ++ more := by
  simp only [endColumn] at h
  cases hp : parseColumn fp n with
  | error e => rw [hp] at h; simp at h
  | ok r =>
    obtain ⟨s, fp1⟩ := r
    rw [hp] at h
    simp only [storeColumn] at h
    split_ifs at h
    simp only [fseek_one, Except.ok.injEq, Prod.mk.injEq] at h
    exact ⟨[s], h.1.symm⟩

/-- The columns that `parseRow` has stored stay in the row it returns, in their places. -/
theorem parseRowLoop_columns : ∀ (fuel : Nat) (fp : FILE) (q prev n : Nat)
    (cols : List Buffer) (row : Row) (fp2 : FILE),
    parseRowLoop fuel fp q prev n cols = .ok (row, fp2) →
    ∃ more, row.columns = cols ++ more := by
  intro fuel
  induction fuel with
  | zero => intro fp q prev n cols row fp2 h; simp [parseRowLoop] at h
  | succ fuel ih =>
    intro fp q prev n cols row fp2 h
    simp only [parseRowLoop] at h
    have hend : ∀ (c : Nat) (fp1 : FILE),
        (match endColumn fp1 n cols with
          | .error e => (.error e : Except Fault (Row × FILE))
          | .ok (columns1, fp3) => parseRowLoop fuel fp3 q c 0 columns1) = .ok (row, fp2) →
        ∃ more, row.columns = cols ++ more := by
      intro c fp1 hr
      cases he : endColumn fp1 n cols with
      | error e => rw [he] at hr; simp at hr
      | ok r =>
        obtain ⟨cols1, fp3⟩ := r
        rw [he] at hr
        obtain ⟨m1, hm1⟩ := endColumn_columns _ _ _ _ _ he
        obtain ⟨m2, hm2⟩ := ih _ _ _ _ _ _ _ hr
        exact ⟨m1 ++ m2, by rw [hm2, hm1, List.append_assoc]⟩
    cases hg : fgetc fp with
    | mk o fp1 =>
      rw [hg] at h
      cases o with
      | none =>
        simp only at h
        cases hp : parseColumn fp1 n with
        | error e => rw [hp] at h; simp at h
        | ok r =>
          obtain ⟨s, fp3⟩ := r
          rw [hp] at h
          simp only [storeColumn] at h
          split_ifs at h
          obtain ⟨m, hm⟩ := finishRow_columns _ _ _ _ _ _ h
          exact ⟨s :: m, by rw [hm]; simp⟩
      | some c =>
        simp only at h
        split_ifs at h with a1 a2 a3 a4 a5
        · exact finishRow_columns _ _ _ _ _ _ h
        · exact ih _ _ _ _ _ _ _ h
        · exact hend c fp1 h
        · exact hend c fp1 h
        · exact ih _ _ _ _ _ _ _ h
        · exact ih _ _ _ _ _ _ _ h

/-- The first column of a row that starts with `"c",`, in whatever row `parseRow` returns. -/
theorem parseRow_quoted_head (pre c tail : List Nat) (hq : QUOTE ∉ c) (hcr : CR ∉ c)
    (hnl : LINE_ENDING ∉ c) (hc : c.head? ≠ some COMMA) (row : Row) (fp2 : FILE)
    (h : parseRow ⟨pre ++ QUOTE :: c ++ QUOTE :: COMMA :: tail, pre.length⟩ = .ok (row, fp2)) :
    row.columns.head? = some ((c ++ [QUOTE]).map some) := by
  have hF := rowFuel_gt (pre ++ QUOTE :: c ++ QUOTE :: COMMA :: tail) pre.length
  simp only [List.length_append, List.length_cons] at hF
  simp only [parseRow] at h
  generalize rowFuel ⟨pre ++ QUOTE :: c ++ QUOTE :: COMMA :: tail, pre.length⟩ = F at hF h
  have hr : (QUOTE :: c ++ [QUOTE, COMMA]).length = c.length + 3 := by simp
  obtain ⟨fuel, rfl⟩ : ∃ fuel, F = fuel + (QUOTE :: c ++ [QUOTE, COMMA]).length :=
    ⟨F - (c.length + 3), by rw [hr]; omega⟩
  have hscan := parseRowLoop_scan tail (QUOTE :: c ++ [QUOTE, COMMA]) scanStart pre fuel
    (pre ++ QUOTE :: c ++ QUOTE :: COMMA :: tail) pre.length 0 [] (by simp [scanStart])
    (by simp [scanStart]) (by simp [scanStart]) (by simp [scanStart])
    (by simp [scanStart]) (by simp [scanStart])
    (by
      simp only [List.cons_append, List.mem_cons, List.mem_append, List.mem_singleton,
        List.mem_nil_iff, not_or, or_false]
      exact ⟨by decide, hcr, by decide, by decide⟩)
    (by
      simp only [List.cons_append, List.mem_cons, List.mem_append, List.mem_singleton,
        List.mem_nil_iff, not_or, or_false]
      exact ⟨by decide, hnl, by decide, by decide⟩)
  have hq0 : scanStart.colStateQuotes = OFF := rfl
  have hp0 : scanStart.prevChar = 0 := rfl
  rw [hq0, hp0, scanRow_quoted_field c hq hc] at hscan
  dsimp only at hscan
  rw [if_pos (show [c ++ [QUOTE]].length ≤ DEFAULT_COL_NUM by simp [DEFAULT_COL_NUM])] at hscan
  rw [hscan] at h
  obtain ⟨more, hm⟩ := parseRowLoop_columns _ _ _ _ _ _ _ _ h
  rw [hm]
  simp

/-- C17 (as stated, refuted): the row that starts with `"x",` and goes on with 200 fields
`",` has no carriage return, yet `parseRow` returns no row for it, and so no first column:
the 201st column is stored outside the `DEFAULT_COL_NUM` slots of `row.columns`. -/
theorem parseRow_quoted_first_column_overflow :
    wideQuotedRow = QUOTE :: [120] ++ QUOTE :: COMMA :: (List.replicate 200 [34, 44]).flatten ∧
    QUOTE ∉ [120] ∧ CR ∉ [120] ∧ LINE_ENDING ∉ [120] ∧ [120].head? ≠ some COMMA ∧
    parseRow ⟨[] ++ wideQuotedRow ++ LINE_ENDING :: [], 0⟩ = .error .undefined := by
  have hlen : (rowFields wideQuotedRow).length = 202 := by
    decide!
  have hchars : CR ∉ wideQuotedRow ∧ LINE_ENDING ∉ wideQuotedRow := by
    decide!
  refine ⟨rfl, by decide, by decide, by decide, by decide, ?_⟩
  have h := parseRow_row [] wideQuotedRow [] hchars.1 hchars.2
  rw [hlen, if_neg (by decide)] at h
  exact h

/-- C17 (amended): for every content `c` without double quote, carriage return and
newline that does not begin with a comma, whenever `parseRow` returns a row for a stream
that goes on with `"c",` at the cursor, the first column of that row is `c` followed by one
double-quote byte: the opening quote is dropped and the closing quote is kept. It does
return a row when the rest of the row has no carriage return, is ended by a newline, and
the row has at most `DEFAULT_COL_NUM` columns. -/
theorem parseRow_quoted_first_column (pre c tail : List Nat) (hq : QUOTE ∉ c) (hcr : CR ∉ c)
    (hnl : LINE_ENDING ∉ c) (hc : c.head? ≠ some COMMA) :
    (∀ (row : Row) (fp2 : FILE),
      parseRow ⟨pre ++ QUOTE :: c ++ QUOTE :: COMMA :: tail, pre.length⟩ = .ok (row, fp2) →
      row.columns.head? = some ((c ++ [QUOTE]).map some)) ∧
    (∀ (rest post : List Nat), tail = rest ++ LINE_ENDING :: post → CR ∉ rest →
      LINE_ENDING ∉ rest →
      (rowFields (QUOTE :: c ++ QUOTE :: COMMA :: rest)).length ≤ DEFAULT_COL_NUM →
      ∃ (row : Row) (fp2 : FILE),
        parseRow ⟨pre ++ QUOTE :: c ++ QUOTE :: COMMA :: tail, pre.length⟩ = .ok (row, fp2) ∧
        row.lastRow = 0 ∧ row.columns.head? = some ((c ++ [QUOTE]).map some)) := by
  refine ⟨fun row fp2 h => parseRow_quoted_head pre c tail hq hcr hnl hc row fp2 h, ?_⟩
  intro rest post htail hcr2 hnl2 hcap
  have hline := parseRow_row pre (QUOTE :: c ++ QUOTE :: COMMA :: rest) post
    (by
      simp only [List.cons_append, List.mem_cons, List.mem_append, not_or]
      exact ⟨by decide, hcr, by decide, by decide, hcr2⟩)
    (by
      simp only [List.cons_append, List.mem_cons, List.mem_append, not_or]
      exact ⟨by decide, hnl, by decide, by decide, hnl2⟩)
  rw [if_pos hcap] at hline
  have hd : pre ++ (QUOTE :: c ++ QUOTE :: COMMA :: rest) ++ LINE_ENDING :: post
      = pre ++ QUOTE :: c ++ QUOTE :: COMMA :: tail := by
    rw [htail]; simp
  rw [hd] at hline
  exact ⟨_, _, hline, rfl, parseRow_quoted_head pre c tail hq hcr hnl hc _ _ hline⟩

/-- C17 (amended), at the row text `"hello, world",42\n`: the columns are `hello, world"`
and `42`. -/
theorem parseRow_quoted_first_column_witness :
    (QUOTE ∉ [104, 101, 108, 108, 111, 44, 32, 119, 111, 114, 108, 100] ∧
      CR ∉ [104, 101, 108, 108, 111, 44, 32, 119, 111, 114, 108, 100] ∧
      LINE_ENDING ∉ [104, 101, 108, 108, 111, 44, 32, 119, 111, 114, 108, 100] ∧
      [104, 101, 108, 108, 111, 44, 32, 119, 111, 114, 108, 100].head? ≠ some COMMA) ∧
    (∃ (row : Row) (fp2 : FILE),
      parseRow ⟨[] ++ QUOTE :: [104, 101, 108, 108, 111, 44, 32, 119, 111, 114, 108, 100]
          ++ QUOTE :: COMMA :: [52, 50, 10], ([] : List Nat).length⟩ = .ok (row, fp2) ∧
      row.lastRow = 0 ∧
      row.columns.head? = some (([104, 101, 108, 108, 111, 44, 32, 119, 111, 114, 108, 100]
        ++ [QUOTE]).map some)) ∧
    parseRow (fopen [34, 104, 101, 108, 108, 111, 44, 32, 119, 111, 114, 108, 100, 34, 44,
        52, 50, 10])
      = .ok (⟨2, 0, [[some 104, some 101, some 108, some 108, some 111, some 44, some 32,
                some 119, some 111, some 114, some 108, some 100, some 34],
              [some 52, some 50]]⟩,
            ⟨[34, 104, 101, 108, 108, 111, 44, 32, 119, 111, 114, 108, 100, 34, 44, 52, 50,
                10], 18⟩) :=
  ⟨by decide,
    (parseRow_quoted_first_column [] [104, 101, 108, 108, 111, 44, 32, 119, 111, 114, 108, 100]
      [52, 50, 10] (by decide) (by decide) (by decide) (by decide)).2 [52, 50] [] rfl
      (by decide) (by decide) (by decide),
    by decide⟩

/-! ## C18: the row read at the end of the file -/

/-- With the cursor at the end of a stream of at least two bytes, `parseRow` returns two
empty columns with `lastRow = 1` and leaves the cursor on the last byte. -/
theorem parseRow_eof_row (data : List Nat) (h : 2 ≤ data.length) :
    parseRow ⟨data, data.length⟩ = .ok (⟨2, 1, [[], []]⟩, ⟨data, data.length - 1⟩) := by
  obtain ⟨m, hm⟩ : ∃ m, data.length = m + 2 := ⟨data.length - 2, by omega⟩
  obtain ⟨f, hf⟩ : ∃ f, rowFuel ⟨data, data.length⟩ = f + 1 :=
    ⟨rowFuel ⟨data, data.length⟩ - 1, by have := rowFuel_gt data data.length; omega⟩
  have e1 : parseColumn ⟨data, m + 2⟩ 0 = .ok ([], ⟨data, m + 1⟩) := by
    have := fseek_back data (m + 1) 0
    simp only [parseColumn]
    rw [show m + 2 = m + 1 + 0 + 1 from rfl, this]
    rfl
  have e2 : parseColumn ⟨data, m + 1⟩ 0 = .ok ([], ⟨data, m⟩) := by
    have := fseek_back data m 0
    simp only [parseColumn]
    rw [show m + 1 = m + 0 + 1 from rfl, this]
    rfl
  simp only [parseRow]
  rw [hf, hm]
  simp only [parseRowLoop]
  rw [fgetc_eof data (m + 2) (by omega)]
  simp only [e1, storeColumn_ok [] [] (by decide), finishRow, e2,
    storeColumn_ok [[]] [] (by decide), fseek_one]
  rfl

/-- One iteration of the loop of `parseColumn` on a byte other than a carriage return. -/
theorem readColumn_step (X Y : List Nat) (c n : Nat) (hc : c ≠ CR) :
    readColumn ⟨X ++ c :: Y, X.length⟩ (n + 1)
      = (some c :: (readColumn ⟨X ++ c :: Y, X.length + 1⟩ n).1,
          (readColumn ⟨X ++ c :: Y, X.length + 1⟩ n).2) := by
  simp only [readColumn, fgetc_at, if_neg hc]

/-- The loop of `parseColumn` on a column whose last byte read is a carriage return: the
cell of that byte is left unwritten, the cursor stops after it. -/
theorem readColumn_cr (f : List Nat) : ∀ (X Y : List Nat), CR ∉ f →
    readColumn ⟨X ++ f ++ CR :: Y, X.length⟩ (f.length + 1)
      = (f.map some ++ [none], ⟨X ++ f ++ CR :: Y, X.length + f.length + 1⟩) := by
  induction f with
  | nil =>
    intro X Y _
    have := fgetc_at X Y CR
    simp only [List.append_nil, List.length_nil, readColumn, this]
    simp
  | cons c f ih =>
    intro X Y h
    have hc : c ≠ CR := fun e => h (by simp [e])
    have hf : CR ∉ f := fun e => h (by simp [e])
    have hd : X ++ c :: f ++ CR :: Y = X ++ c :: (f ++ CR :: Y) := by simp
    have hd2 : X ++ c :: (f ++ CR :: Y) = (X ++ [c]) ++ f ++ CR :: Y := by simp
    have hi := ih (X ++ [c]) Y hf
    rw [← hd2] at hi
    simp only [List.length_append, List.length_cons, List.length_nil, Nat.zero_add] at hi
    rw [hd, List.length_cons, readColumn_step X (f ++ CR :: Y) c (f.length + 1) hc, hi]
    simp only [List.map_cons, List.cons_append, Prod.mk.injEq, FILE.mk.injEq, true_and]
    omega

/-- A byte that is neither a quote nor a comma is counted and ends no column. -/
theorem scanByte_plain (s : Scan) (c : Nat) (hq : c ≠ QUOTE) (hc : c ≠ COMMA) :
    scanByte s c = ⟨s.colStateQuotes, c, s.skipped, s.raw ++ [c], s.cols⟩ := by
  simp [scanByte, hq, hc]

theorem parseColumn_cr (X f Y : List Nat) (h : CR ∉ f) :
    parseColumn ⟨X ++ f ++ CR :: Y, X.length + f.length + 2⟩ (f.length + 1)
      = .ok (f.map some ++ [none], ⟨X ++ f ++ CR :: Y, X.length + f.length + 1⟩) := by
  have hs := fseek_back (X ++ f ++ CR :: Y) X.length (f.length + 1)
  simp only [parseColumn]
  rw [show X.length + f.length + 2 = X.length + (f.length + 1) + 1 from rfl, hs]
  simp only [readColumn_cr f X Y h]

theorem finishRow_cr (X f Y : List Nat) (h : CR ∉ f) (lastRow : Nat) (cols : List Buffer)
    (hcap : cols.length < DEFAULT_COL_NUM) :
    finishRow ⟨X ++ f ++ CR :: Y, X.length + f.length + 2⟩ (f.length + 1) lastRow cols
      = .ok (⟨cols.length + 1, lastRow, cols ++ [f.map some ++ [none]]⟩,
          ⟨X ++ f ++ CR :: Y, X.length + f.length + 2⟩) := by
  simp only [finishRow, parseColumn_cr X f Y h, storeColumn_ok cols _ hcap, fseek_one]
  simp

/-- The row of a line that ends with a carriage return before its newline and has no other
carriage return: the columns are those of the line without the carriage return, the cell of
the carriage return is left unwritten in the last one, and the cursor is left after the
newline. -/
theorem parseRow_row_cr (pre body post : List Nat) (hcr : CR ∉ body)
    (hnl : LINE_ENDING ∉ body) (hcap : (rowFields body).length ≤ DEFAULT_COL_NUM) :
    parseRow ⟨pre ++ body ++ CR :: LINE_ENDING :: post, pre.length⟩
      = .ok (⟨(rowFields body).length, 0,
              (scanRow scanStart body).cols.map (List.map some)
                ++ [((scanRow scanStart body).raw.drop (scanRow scanStart body).skipped).map some
                  ++ [none]]⟩,
            ⟨pre ++ body ++ CR :: LINE_ENDING :: post, pre.length + body.length + 2⟩) := by
  have hF := rowFuel_gt (pre ++ body ++ CR :: LINE_ENDING :: post) pre.length
  simp only [List.length_append, List.length_cons] at hF
  simp only [parseRow]
  generalize rowFuel ⟨pre ++ body ++ CR :: LINE_ENDING :: post, pre.length⟩ = F at hF ⊢
  obtain ⟨fuel, rfl⟩ : ∃ fuel, F = (fuel + 2) + body.length :=
    ⟨F - 2 - body.length, by omega⟩
  have hscan := parseRowLoop_scan (CR :: LINE_ENDING :: post) body scanStart pre (fuel + 2)
    (pre ++ body ++ CR :: LINE_ENDING :: post) pre.length 0 [] (by simp [scanStart])
    (by simp [scanStart]) (by simp [scanStart]) (by simp [scanStart])
    (by simp [scanStart]) (by simp [scanStart]) hcr hnl
  obtain ⟨X, hX⟩ := scanRow_raw_suffix body scanStart
  have hsk := scanRow_skipped_le body scanStart (by simp [scanStart])
  have hlen : (rowFields body).length = (scanRow scanStart body).cols.length + 1 := by
    simp [rowFields]
  have hq0 : scanStart.colStateQuotes = OFF := rfl
  have hp0 : scanStart.prevChar = 0 := rfl
  have hr0 : scanStart.raw = [] := rfl
  rw [hq0, hp0] at hscan
  rw [hr0, List.nil_append] at hX
  rw [hlen] at hcap ⊢
  rw [hscan, if_pos (by omega)]
  generalize scanRow scanStart body = s' at hX hsk hcap ⊢
  have hrawcr : CR ∉ s'.raw := fun e => hcr (by rw [hX]; simp [e])
  have hdrop : CR ∉ s'.raw.drop s'.skipped := fun e => hrawcr (List.mem_of_mem_drop e)
  have hd1 : pre ++ body ++ CR :: LINE_ENDING :: post
      = (pre ++ body) ++ CR :: (LINE_ENDING :: post) := by simp
  have hd1b : pre ++ body ++ CR :: LINE_ENDING :: post
      = (pre ++ body ++ [CR]) ++ LINE_ENDING :: post := by simp
  have hg1 : fgetc ⟨pre ++ body ++ CR :: LINE_ENDING :: post, pre.length + body.length⟩
      = (some CR, ⟨pre ++ body ++ CR :: LINE_ENDING :: post,
          pre.length + body.length + 1⟩) := by
    rw [hd1, ← List.length_append]; exact fgetc_at _ _ _
  have hg2 : fgetc ⟨pre ++ body ++ CR :: LINE_ENDING :: post, pre.length + body.length + 1⟩
      = (some LINE_ENDING, ⟨pre ++ body ++ CR :: LINE_ENDING :: post,
          pre.length + body.length + 1 + 1⟩) := by
    have h := fgetc_at (pre ++ body ++ [CR]) post LINE_ENDING
    rw [← hd1b] at h
    simpa using h
  have hd2 : pre ++ body ++ CR :: LINE_ENDING :: post
      = (pre ++ X ++ s'.raw.take s'.skipped) ++ s'.raw.drop s'.skipped
        ++ CR :: (LINE_ENDING :: post) := by
    rw [List.append_assoc (pre ++ X), List.take_append_drop, List.append_assoc pre X, ← hX]
  have hp2 : pre.length + body.length + 1 + 1 = (pre ++ X ++ s'.raw.take s'.skipped).length
      + (s'.raw.drop s'.skipped).length + 2 := by
    have : body.length = X.length + s'.raw.length := by rw [hX]; simp
    simp only [List.length_append, List.length_take, List.length_drop]
    omega
  have hn2 : s'.raw.length - s'.skipped + 1 = (s'.raw.drop s'.skipped).length + 1 := by
    simp only [List.length_drop]
  have hfin := finishRow_cr (pre ++ X ++ s'.raw.take s'.skipped)
    (s'.raw.drop s'.skipped) (LINE_ENDING :: post) hdrop 0
    (s'.cols.map (List.map some)) (by simp; omega)
  rw [← hd2, ← hp2, ← hn2] at hfin
  simp only [parseRowLoop, hg1, hg2, show ¬ (CR = LINE_ENDING) from by decide,
    show ¬ (CR = QUOTE) from by decide, show ¬ (CR = COMMA) from by decide, if_false,
    false_and, if_true, hfin]
  simp

theorem rowFields_length_cr (body : List Nat) :
    (rowFields (body ++ [CR])).length = (rowFields body).length := by
  have h : (scanRow scanStart (body ++ [CR])).cols = (scanRow scanStart body).cols := by
    rw [scanRow_append]
    simp only [scanRow, scanByte_plain _ CR (by decide) (by decide)]
  simp only [rowFields, List.length_append, List.length_singleton, h]

/-- A line ended by a newline, with no carriage return except possibly as its last byte and
with at most `DEFAULT_COL_NUM` columns: `parseRow` returns a row with `lastRow = 0` and
leaves the cursor after the newline. -/
theorem parseRow_text_line (pre line post : List Nat) (hcr : CR ∉ line.dropLast)
    (hnl : LINE_ENDING ∉ line) (hcap : (rowFields line).length ≤ DEFAULT_COL_NUM) :
    ∃ row, parseRow ⟨pre ++ line ++ LINE_ENDING :: post, pre.length⟩
        = .ok (row, ⟨pre ++ line ++ LINE_ENDING :: post, pre.length + line.length + 1⟩) ∧
      row.lastRow = 0 ∧ row.columnCount = (rowFields line).length := by
  by_cases hin : CR ∈ line
  · rcases List.eq_nil_or_concat line with hnil | ⟨body, b, hb⟩
    · rw [hnil] at hin; simp at hin
    · subst hb
      rw [List.concat_eq_append] at hcr hnl hcap hin ⊢
      rw [List.dropLast_concat] at hcr
      have hbcr : b = CR := by
        rcases List.mem_append.mp hin with h | h
        · exact absurd h hcr
        · exact (List.mem_singleton.mp h).symm
      subst hbcr
      have hnl2 : LINE_ENDING ∉ body := fun e => hnl (List.mem_append_left _ e)
      rw [rowFields_length_cr] at hcap ⊢
      have h := parseRow_row_cr pre body post hcr hnl2 hcap
      have hd : pre ++ (body ++ [CR]) ++ LINE_ENDING :: post
          = pre ++ body ++ CR :: LINE_ENDING :: post := by simp
      have hp : pre.length + (body ++ [CR]).length + 1 = pre.length + body.length + 2 := by
        simp [Nat.add_assoc]
      rw [hd, h, hp]
      exact ⟨_, rfl, rfl, rfl⟩
  · have h := parseRow_row pre line post hin hnl
    rw [if_pos hcap] at h
    exact ⟨_, h, rfl, rfl⟩

theorem fileOfLines_cons (l : List Nat) (ls : List (List Nat)) :
    fileOfLines (l :: ls) = l ++ LINE_ENDING :: fileOfLines ls := by
  simp [fileOfLines]

theorem fileOfLines_length : ∀ (lines : List (List Nat)),
    lines.length ≤ (fileOfLines lines).length := by
  intro lines
  induction lines with
  | nil => simp
  | cons l ls ih =>
    rw [fileOfLines_cons]
    simp only [List.length_cons, List.length_append]
    omega

/-- The loop of `parseFile` over a file of lines: one row per line, then the row read at
the end of the file. -/
theorem parseFileLoop_lines : ∀ (lines : List (List Nat)) (pre : List Nat) (fuel : Nat),
    (∀ l ∈ lines, CR ∉ l.dropLast ∧ LINE_ENDING ∉ l ∧
      (rowFields l).length ≤ DEFAULT_COL_NUM) →
    lines.length < fuel → 2 ≤ (pre ++ fileOfLines lines).length →
    ∃ rows, parseFileLoop fuel ⟨pre ++ fileOfLines lines, pre.length⟩
        = .ok (rows ++ [⟨2, 1, [[], []]⟩],
            ⟨pre ++ fileOfLines lines, (pre ++ fileOfLines lines).length - 1⟩) ∧
      rows.length = lines.length ∧ (∀ r ∈ rows, r.lastRow = 0) ∧
      rows.map Row.columnCount = lines.map fun l => (rowFields l).length := by
  intro lines
  induction lines with
  | nil =>
    intro pre fuel _ hfuel h2
    obtain ⟨f, rfl⟩ : ∃ f, fuel = f + 1 := ⟨fuel - 1, by omega⟩
    have hnil : fileOfLines [] = [] := rfl
    rw [hnil, List.append_nil] at h2 ⊢
    refine ⟨[], ?_, rfl, by simp, rfl⟩
    simp only [parseFileLoop, parseRow_eof_row pre h2]
    simp
  | cons l ls ih =>
    intro pre fuel hl hfuel h2
    obtain ⟨f, rfl⟩ : ∃ f, fuel = f + 1 := ⟨fuel - 1, by omega⟩
    obtain ⟨h1, h2l, h3⟩ := hl l (by simp)
    obtain ⟨row, hrow, hlast, hcount⟩ := parseRow_text_line pre l (fileOfLines ls) h1 h2l h3
    have hd : pre ++ fileOfLines (l :: ls) = pre ++ l ++ LINE_ENDING :: fileOfLines ls := by
      rw [fileOfLines_cons]; simp
    have hd2 : pre ++ l ++ LINE_ENDING :: fileOfLines ls
        = (pre ++ l ++ [LINE_ENDING]) ++ fileOfLines ls := by simp
    have hp : pre.length + l.length + 1 = (pre ++ l ++ [LINE_ENDING]).length := by
      simp [Nat.add_assoc]
    obtain ⟨rows, hrows, hlen, hall, hcounts⟩ := ih (pre ++ l ++ [LINE_ENDING]) f
      (fun l2 hl2 => hl l2 (by simp [hl2])) (by simpa using hfuel)
      (by rw [← hd2, ← hd]; exact h2)
    rw [← hd2, ← hp] at hrows
    rw [hd]
    refine ⟨row :: rows, ?_, by simp [hlen], ?_, by simp [hcount, hcounts]⟩
    · simp only [parseFileLoop, hrow, hlast, hrows]
      simp
    · intro r hr
      rcases List.mem_cons.mp hr with h | h
      · rw [h]; exact hlast
      · exact hall r h

/-- One row of the loop of `filter` reports the stream and the `lastRow` of `parseRow`. -/
theorem filterRow_parse (fp : FILE) (index : Nat) (pattern_str : Buffer)
    (pattern_length : Nat) (slack : Buffer) (t : Option PyTuple) (lastRow : Nat)
    (fp1 : FILE)
    (h : filterRow fp index pattern_str pattern_length slack = .ok (t, lastRow, fp1)) :
    ∃ row, parseRow fp = .ok (row, fp1) ∧ row.lastRow = lastRow := by
  simp only [filterRow] at h
  cases hrow : parseRow fp with
  | error e => rw [hrow] at h; cases h
  | ok r =>
    obtain ⟨row, fp2⟩ := r
    rw [hrow] at h
    dsimp only at h
    cases hcol : row.columns[index]? with
    | none => rw [hcol] at h; cases h
    | some column =>
      rw [hcol] at h
      dsimp only at h
      cases hs : search_column (column ++ some 0 :: slack) pattern_str pattern_length with
      | error e => rw [hs] at h; cases h
      | ok found =>
        rw [hs] at h
        dsimp only at h
        by_cases hf : found = 1
        · rw [if_pos hf] at h
          cases ht : convert_row_to_tuple row with
          | error e => rw [ht] at h; cases h
          | ok row_tuple =>
            rw [ht] at h
            cases h
            exact ⟨row, rfl, rfl⟩
        · rw [if_neg hf] at h
          cases h
          exact ⟨row, rfl, rfl⟩

/-- The loop of `filter` over a file of lines calls `parseRow` once per line and once more
at the end of the file, whenever it ends. -/
theorem acceptedRows_lines (index : Nat) (pattern_str : Buffer) (pattern_length : Nat)
    (slack : Buffer) : ∀ (lines : List (List Nat)) (pre : List Nat) (fuel : Nat)
    (ts : List PyTuple) (n : Nat),
    (∀ l ∈ lines, CR ∉ l.dropLast ∧ LINE_ENDING ∉ l ∧
      (rowFields l).length ≤ DEFAULT_COL_NUM) →
    2 ≤ (pre ++ fileOfLines lines).length →
    acceptedRows fuel ⟨pre ++ fileOfLines lines, pre.length⟩ index pattern_str
      pattern_length slack = .ok (ts, n) →
    n = lines.length + 1 := by
  intro lines
  induction lines with
  | nil =>
    intro pre fuel ts n _ h2 h
    have hnil : fileOfLines [] = [] := rfl
    rw [hnil, List.append_nil] at h2 h
    cases fuel with
    | zero => simp only [acceptedRows] at h; cases h
    | succ f =>
      simp only [acceptedRows] at h
      cases hfr : filterRow ⟨pre, pre.length⟩ index pattern_str pattern_length slack with
      | error e => rw [hfr] at h; cases h
      | ok r =>
        obtain ⟨t, lastRow, fp1⟩ := r
        obtain ⟨row, hrow, hlast⟩ := filterRow_parse _ _ _ _ _ _ _ _ hfr
        rw [parseRow_eof_row pre h2] at hrow
        cases hrow
        rw [hfr] at h
        dsimp only at h
        rw [← hlast, if_pos rfl] at h
        cases h
        rfl
  | cons l ls ih =>
    intro pre fuel ts n hl h2 h
    obtain ⟨h1, h2l, h3⟩ := hl l (by simp)
    obtain ⟨row0, hrow0, hlast0, _⟩ := parseRow_text_line pre l (fileOfLines ls) h1 h2l h3
    have hd : pre ++ fileOfLines (l :: ls) = pre ++ l ++ LINE_ENDING :: fileOfLines ls := by
      rw [fileOfLines_cons]; simp
    have hd2 : pre ++ l ++ LINE_ENDING :: fileOfLines ls
        = (pre ++ l ++ [LINE_ENDING]) ++ fileOfLines ls := by simp
    have hp : pre.length + l.length + 1 = (pre ++ l ++ [LINE_ENDING]).length := by
      simp [Nat.add_assoc]
    rw [hd] at h h2
    cases fuel with
    | zero => simp only [acceptedRows] at h; cases h
    | succ f =>
      simp only [acceptedRows] at h
      cases hfr : filterRow ⟨pre ++ l ++ LINE_ENDING :: fileOfLines ls, pre.length⟩ index
          pattern_str pattern_length slack with
      | error e => rw [hfr] at h; cases h
      | ok r =>
        obtain ⟨t, lastRow, fp1⟩ := r
        obtain ⟨row, hrow, hlast⟩ := filterRow_parse _ _ _ _ _ _ _ _ hfr
        rw [hrow0] at hrow
        cases hrow
        rw [hfr] at h
        dsimp only at h
        rw [← hlast, hlast0, if_neg (by decide)] at h
        rw [hd2, hp] at h
        cases hrest : acceptedRows f ⟨pre ++ l ++ [LINE_ENDING] ++ fileOfLines ls,
            (pre ++ l ++ [LINE_ENDING]).length⟩ index pattern_str pattern_length slack with
        | error e => rw [hrest] at h; cases h
        | ok r2 =>
          obtain ⟨ts2, n2⟩ := r2
          rw [hrest] at h
          cases h
          have := ih (pre ++ l ++ [LINE_ENDING]) f ts2 n2
            (fun l2 hl2 => hl l2 (by simp [hl2])) (by rw [← hd2]; exact h2) hrest
          simp [this]

/-- A file of one line on which `parseRow` fails: `parseFile` fails the same way. -/
theorem parseFile_one_line_error (line : List Nat) (e : Fault)
    (h : parseRow ⟨[] ++ line ++ LINE_ENDING :: [], 0⟩ = .error e) :
    parseFile (fopen (fileOfLines [line])) = .error e := by
  have hd : fopen (fileOfLines [line])
      = ⟨[] ++ line ++ LINE_ENDING :: [], 0⟩ := by
    simp [fopen, fileOfLines]
  rw [hd]
  simp only [parseFile, parseFileLoop, h]

/-- C18 (as stated, refuted): the count of `k + 1` rows fails for files of newline-ended
lines. The file of the one empty line (one byte) gives no row at all: the call at the end
of the file seeks before the start of the stream. The file of the one line `a\rbcd` gives
three rows, not two: the carriage return leaves the cursor inside the line. The file of the
one line of 200 commas gives no row: its 201st column is stored outside `row.columns`. -/
theorem parseFile_row_count_counterexample :
    parseFile (fopen (fileOfLines [[]])) = .error .exit_failure ∧
    parseFile (fopen (fileOfLines [[97, 13, 98, 99, 100]]))
      = .ok ([⟨1, 0, [[some 97, none, none, none, none]]⟩, ⟨1, 0, [[some 99, some 100]]⟩,
            ⟨2, 1, [[], []]⟩], ⟨[97, 13, 98, 99, 100, 10], 5⟩) ∧
    parseFile (fopen (fileOfLines [List.replicate 200 COMMA])) = .error .undefined := by
  refine ⟨by decide, by decide, ?_⟩
  exact parseFile_one_line_error _ _
    (parseRow_line_full [] (List.replicate 200 COMMA) [] (by decide) (by decide)
      (by decide) (by rw [List.count_replicate_self]; decide))

/-- C18 (amended): for every stream of length `L ≥ 2`, `parseRow` called with the cursor at
the end of the stream returns a row with `columnCount = 2`, two empty columns and
`lastRow = 1`, and leaves the cursor at `L - 1`. For every file of `k` newline-ended lines
that has at least two bytes, whose lines have no carriage return except possibly as their
last byte and at most `DEFAULT_COL_NUM` columns each, `parseFile` reads `k + 1` rows: one
row with `lastRow = 0` per line, with the column count of that line, then the row of two
empty columns; and `filter`, whenever it opens that file and returns, has called `parseRow`
`k + 1` times. -/
theorem parseFile_row_count (data : List Nat) (lines : List (List Nat))
    (hdata : 2 ≤ data.length) (hfile : 2 ≤ (fileOfLines lines).length)
    (hlines : ∀ l ∈ lines, CR ∉ l.dropLast ∧ LINE_ENDING ∉ l ∧
      (rowFields l).length ≤ DEFAULT_COL_NUM) :
    parseRow ⟨data, data.length⟩ = .ok (⟨2, 1, [[], []]⟩, ⟨data, data.length - 1⟩) ∧
    (∃ rows, parseFile (fopen (fileOfLines lines))
        = .ok (rows ++ [⟨2, 1, [[], []]⟩],
            ⟨fileOfLines lines, (fileOfLines lines).length - 1⟩) ∧
      rows.length = lines.length ∧ (∀ r ∈ rows, r.lastRow = 0) ∧
      rows.map Row.columnCount = lines.map fun l => (rowFields l).length) ∧
    (∀ (headers : PyDict) (column pattern : PyStr) (slackC slackP : Buffer)
      (r : FilterResult),
      filter (some (fileOfLines lines)) headers column pattern slackC slackP = .ok r →
      r.opened = true → r.parsed = lines.length + 1) := by
  refine ⟨parseRow_eof_row data hdata, ?_, ?_⟩
  · have h := parseFileLoop_lines lines [] ((fileOfLines lines).length + 2) hlines
      (by have := fileOfLines_length lines; omega) (by simpa using hfile)
    simpa [parseFile, fopen] using h
  · intro headers column pattern slackC slackP r hr hopen
    rw [filter_eq_acceptedRows] at hr
    cases hlen : strlen (cstring pattern slackP) with
    | error e => rw [hlen] at hr; cases hr
    | ok pattern_length =>
      rw [hlen] at hr
      dsimp only at hr
      cases hget : PyDict_GetItem headers column with
      | none =>
        rw [hget] at hr
        cases hr
        cases hopen
      | some index =>
        rw [hget] at hr
        dsimp only at hr
        cases hacc : acceptedRows (filterFuel (fileOfLines lines)) (fopen (fileOfLines lines))
            index (cstring pattern slackP) pattern_length slackC with
        | error e => rw [hacc] at hr; cases hr
        | ok p =>
          obtain ⟨ts, n⟩ := p
          rw [hacc] at hr
          cases hr
          exact acceptedRows_lines index (cstring pattern slackP) pattern_length slackC lines []
            (filterFuel (fileOfLines lines)) ts n hlines (by simpa using hfile)
            (by simpa [fopen] using hacc)

/-- C18 (amended), at the stream `xy` and at the file of the lines `a,b` and `c\r`: three
rows are read, of 2, 1 and 2 columns. -/
theorem parseFile_row_count_witness :
    (2 ≤ [120, 121].length ∧ 2 ≤ (fileOfLines [[97, 44, 98], [99, 13]]).length ∧
      ∀ l ∈ [[97, 44, 98], [99, 13]], CR ∉ l.dropLast ∧ LINE_ENDING ∉ l ∧
        (rowFields l).length ≤ DEFAULT_COL_NUM) ∧
    parseRow ⟨[120, 121], [120, 121].length⟩
      = .ok (⟨2, 1, [[], []]⟩, ⟨[120, 121], [120, 121].length - 1⟩) ∧
    (∃ rows, parseFile (fopen (fileOfLines [[97, 44, 98], [99, 13]]))
        = .ok (rows ++ [⟨2, 1, [[], []]⟩], ⟨fileOfLines [[97, 44, 98], [99, 13]],
            (fileOfLines [[97, 44, 98], [99, 13]]).length - 1⟩) ∧
      rows.length = [[97, 44, 98], [99, 13]].length ∧ (∀ r ∈ rows, r.lastRow = 0) ∧
      rows.map Row.columnCount
        = [[97, 44, 98], [99, 13]].map fun l => (rowFields l).length) ∧
    parseFile (fopen [97, 44, 98, 10, 99, 13, 10])
      = .ok ([⟨2, 0, [[some 97], [some 98]]⟩, ⟨1, 0, [[some 99, none]]⟩, ⟨2, 1, [[], []]⟩],
          ⟨[97, 44, 98, 10, 99, 13, 10], 6⟩) :=
  ⟨⟨by decide, by decide, by decide⟩,
    (parseFile_row_count [120, 121] [[97, 44, 98], [99, 13]] (by decide) (by decide)
      (by decide)).1,
    (parseFile_row_count [120, 121] [[97, 44, 98], [99, 13]] (by decide) (by decide)
      (by decide)).2.1,
    by decide⟩

/-! ## C19: a stream without comma and newline -/

theorem fseek_before_start (data : List Nat) (p n : Nat) (h : p ≤ n) :
    fseek ⟨data, p⟩ (-(n : Int) - 1) = none := by
  simp only [fseek]
  rw [if_neg (by omega)]

theorem parseColumn_before_start (data : List Nat) (p n : Nat) (h : p ≤ n) :
    parseColumn ⟨data, p⟩ n = .error .exit_failure := by
  simp only [parseColumn, fseek_before_start data p n h]

/-- The `while` loop of `parseRow` on the rest of a stream that has neither comma nor
newline, no column stored so far and every byte read so far counted, but for an opening
quote: a seek before the start of the stream ends it. -/
theorem parseRowLoop_no_delimiter : ∀ (r X : List Nat) (fuel : Nat) (data : List Nat)
    (pos q prev n : Nat),
    data = X ++ r → pos = X.length → (q = 0 ∧ n = pos) ∨ (q ≠ 0 ∧ n + 1 = pos) →
    COMMA ∉ r → LINE_ENDING ∉ r → r.length < fuel →
    parseRowLoop fuel ⟨data, pos⟩ q prev n [] = .error .exit_failure := by
  intro r
  induction r with
  | nil =>
    intro X fuel data pos q prev n hd hp hinv _ _ hfuel
    obtain ⟨f, rfl⟩ : ∃ f, fuel = f + 1 := ⟨fuel - 1, by simp at hfuel; omega⟩
    have hlen : data.length = pos := by rw [hd, hp]; simp
    simp only [parseRowLoop]
    rw [fgetc_eof data pos (by omega)]
    dsimp only
    rcases hinv with ⟨_, hn⟩ | ⟨_, hn⟩
    · rw [parseColumn_before_start data pos n (by omega)]
    · have hs := fseek_back data 0 n
      rw [Nat.zero_add] at hs
      have hpc : parseColumn ⟨data, pos⟩ n = .ok (readColumn ⟨data, 0⟩ n) := by
        simp only [parseColumn]
        rw [← hn, hs]
      have hpos := (readColumn_pos n ⟨data, 0⟩).2.2
      rw [hpc]
      dsimp only
      rw [storeColumn_ok [] _ (by decide)]
      dsimp only
      simp only [finishRow]
      have hfp : (readColumn ⟨data, 0⟩ n).2
          = ⟨(readColumn ⟨data, 0⟩ n).2.data, (readColumn ⟨data, 0⟩ n).2.pos⟩ := rfl
      rw [hfp, parseColumn_before_start _ _ n (by simpa using hpos)]
  | cons c r ih =>
    intro X fuel data pos q prev n hd hp hinv hcm hnl hfuel
    obtain ⟨f, rfl⟩ : ∃ f, fuel = f + 1 := ⟨fuel - 1, by simp at hfuel; omega⟩
    have hc1 : c ≠ COMMA := fun e => hcm (by simp [e])
    have hc2 : c ≠ LINE_ENDING := fun e => hnl (by simp [e])
    have hcm2 : COMMA ∉ r := fun e => hcm (by simp [e])
    have hnl2 : LINE_ENDING ∉ r := fun e => hnl (by simp [e])
    have hg : fgetc ⟨data, pos⟩ = (some c, ⟨data, pos + 1⟩) := by
      rw [hd, hp]; exact fgetc_at X r c
    have hd2 : data = (X ++ [c]) ++ r := by rw [hd]; simp
    have hp2 : pos + 1 = (X ++ [c]).length := by rw [hp]; simp
    have hf2 : r.length < f := by simp at hfuel; omega
    simp only [parseRowLoop, hg, if_neg hc2, if_neg hc1]
    by_cases hq : c = QUOTE ∧ q = 0
    · rw [if_pos hq]
      rcases hinv with ⟨_, hn⟩ | ⟨hq0, _⟩
      · exact ih (X ++ [c]) f data (pos + 1) ON c n hd2 hp2
          (Or.inr ⟨by decide, by omega⟩) hcm2 hnl2 hf2
      · exact absurd hq.2 hq0
    · rw [if_neg hq]
      refine ih (X ++ [c]) f data (pos + 1) q c (n + 1) hd2 hp2 ?_ hcm2 hnl2 hf2
      rcases hinv with ⟨hq0, hn⟩ | ⟨hq0, hn⟩
      · exact Or.inl ⟨hq0, by omega⟩
      · exact Or.inr ⟨hq0, by omega⟩

/-- C19: for every stream that contains no comma and no newline, the empty stream
included, `parseRow` called with the cursor at offset 0 returns no row: it ends in the
`exit(EXIT_FAILURE)` of `parseColumn`, taken when `fseek` is asked for an offset before the
start of the stream. -/
theorem parseRow_no_delimiter (data : List Nat) (hc : COMMA ∉ data)
    (hn : LINE_ENDING ∉ data) :
    parseRow ⟨data, 0⟩ = .error .exit_failure ∧
    (∀ (row : Row) (fp2 : FILE), parseRow ⟨data, 0⟩ ≠ .ok (row, fp2)) := by
  have h : parseRow ⟨data, 0⟩ = .error .exit_failure :=
    parseRowLoop_no_delimiter data [] _ data 0 OFF 0 0 (by simp) rfl (Or.inl ⟨rfl, rfl⟩)
      hc hn (rowFuel_gt data 0)
  refine ⟨h, ?_⟩
  intro row fp2 e
  rw [h] at e
  cases e

/-- C19, at the stream `ab"c` and at the empty stream. -/
theorem parseRow_no_delimiter_witness :
    (COMMA ∉ [97, 98, 34, 99] ∧ LINE_ENDING ∉ [97, 98, 34, 99]) ∧
    parseRow ⟨[97, 98, 34, 99], 0⟩ = .error .exit_failure ∧
    parseRow ⟨[], 0⟩ = .error .exit_failure :=
  ⟨by decide,
    (parseRow_no_delimiter [97, 98, 34, 99] (by decide) (by decide)).1,
    by decide⟩

/-! ## C20: the header row in the result of `filter` -/

/-- The bytes of the columns the tokenizer cuts are bytes it has read. -/
theorem scanRow_bytes (P : Nat → Prop) : ∀ (r : List Nat) (s : Scan),
    (∀ b ∈ s.raw, P b) → (∀ f ∈ s.cols, ∀ b ∈ f, P b) → (∀ b ∈ r, P b) →
    (∀ b ∈ (scanRow s r).raw, P b) ∧ (∀ f ∈ (scanRow s r).cols, ∀ b ∈ f, P b) := by
  intro r
  induction r with
  | nil => intro s h1 h2 _; exact ⟨h1, h2⟩
  | cons c r ih =>
    intro s h1 h2 h3
    have hc : P c := h3 c (by simp)
    have hr : ∀ b ∈ r, P b := fun b hb => h3 b (by simp [hb])
    have hraw : ∀ b ∈ s.raw ++ [c], P b := by
      intro b hb
      rcases List.mem_append.mp hb with h | h
      · exact h1 b h
      · rw [List.mem_singleton.mp h]; exact hc
    simp only [scanRow]
    apply ih _ _ _ hr
    · simp only [scanByte]
      split_ifs
      · exact hraw
      · intro b hb; simp at hb
      · exact hraw
    · simp only [scanByte]
      split_ifs
      · exact h2
      · intro f hf b hb
        rcases List.mem_append.mp hf with h | h
        · exact h2 f h b hb
        · rw [List.mem_singleton.mp h] at hb
          exact h1 b (List.mem_of_mem_drop hb)
      · exact h2

theorem rowFields_no_nul (line : List Nat) (h0 : 0 ∉ line) :
    ∀ f ∈ rowFields line, 0 ∉ f := by
  have h := scanRow_bytes (fun b => b ≠ 0) line scanStart (by simp [scanStart])
    (by simp [scanStart]) (fun b hb e => h0 (e ▸ hb))
  intro f hf hz
  simp only [rowFields] at hf
  rcases List.mem_append.mp hf with h1 | h1
  · exact h.2 f h1 0 hz rfl
  · rw [List.mem_singleton.mp h1] at hz
    exact h.1 0 (List.mem_of_mem_drop hz) rfl

theorem tupleLoop_map_some : ∀ (fs : List (List Nat)), (∀ f ∈ fs, 0 ∉ f) →
    (∀ f ∈ fs, utf8Valid f = true) →
    tupleLoop (fs.map (List.map some)) = .ok (fs.map some) := by
  intro fs
  induction fs with
  | nil => intro _ _; rfl
  | cons f fs ih =>
    intro h hv
    have h1 := PyUnicode_FromString_map_some f (h f (by simp)) (hv f (by simp))
    have h2 := ih (fun g hg => h g (by simp [hg])) (fun g hg => hv g (by simp [hg]))
    simp only [List.map_cons, tupleLoop, h1, h2]

theorem convert_row_to_tuple_fields (fs : List (List Nat)) (lastRow : Nat)
    (h : ∀ f ∈ fs, 0 ∉ f) (hv : ∀ f ∈ fs, utf8Valid f = true) :
    convert_row_to_tuple ⟨fs.length, lastRow, fs.map (List.map some)⟩
      = .ok (fs.map some) := by
  simp only [convert_row_to_tuple, List.length_map, le_refl, if_true]
  rw [← List.length_map fs (List.map some), List.take_length]
  exact tupleLoop_map_some fs h hv

/-- The first row of the loop of `filter`, on a header line that `search_column` accepts in
the target column. -/
theorem filterRow_header (line post col : List Nat) (index : Nat) (pattern_str : Buffer)
    (pattern_length : Nat) (slack : Buffer)
    (hcr : CR ∉ line) (hnl : LINE_ENDING ∉ line) (h0 : 0 ∉ line)
    (hutf : ∀ f ∈ rowFields line, utf8Valid f = true)
    (hcol : (rowFields line)[index]? = some col)
    (hacc : search_column (cstring col slack) pattern_str pattern_length = .ok 1) :
    filterRow (fopen (line ++ LINE_ENDING :: post)) index pattern_str pattern_length slack
      = if (rowFields line).length ≤ DEFAULT_COL_NUM then
          .ok (some ((rowFields line).map some), 0,
            ⟨line ++ LINE_ENDING :: post, line.length + 1⟩)
        else .error .undefined := by
  have hrow := parseRow_row [] line post hcr hnl
  simp only [List.nil_append, List.length_nil, Nat.zero_add] at hrow
  simp only [filterRow, fopen, hrow]
  by_cases hcap : (rowFields line).length ≤ DEFAULT_COL_NUM
  · simp only [if_pos hcap]
    have hc : (List.map (List.map some) (rowFields line))[index]? = some (col.map some) := by
      rw [List.getElem?_map, hcol]; rfl
    have hs : search_column (col.map some ++ some 0 :: slack) pattern_str pattern_length
        = .ok 1 := hacc
    simp only [hc, hs, if_true, convert_row_to_tuple_fields (rowFields line) 0
      (rowFields_no_nul line h0) hutf]
  · simp only [if_neg hcap]

/-- C20 (as stated, refuted): first, in the file of the one line `a,b,xc`,
`search_column` accepts the header text `xc` of the third column for the pattern `x`, yet
`filter` returns no list: the row read at the end of the file has two columns, and
`row.columns[2]` of that row is read without ever having been written. Second, in the file
`xa,b`, whose header line is not ended by a newline, the header text `xa` is accepted for
the pattern `x` and `filter` returns, but the first element of its list is
`("xa", ",", "a")`, not the header row. Third, in the file `xa,\xff\n`, whose second header
column is not valid UTF-8, the header text `xa` is accepted and `filter` returns, with a
`UnicodeDecodeError` set, a tuple whose second slot is `NULL`. -/
theorem filter_header_row_counterexample :
    (PyDict_GetItem [([97], 0), ([98], 1), ([120, 99], 2)] [120, 99] = some 2 ∧
      (rowFields [97, 44, 98, 44, 120, 99])[2]? = some [120, 99] ∧
      strlen (cstring [120] [some 0]) = .ok 1 ∧
      search_column (cstring [120, 99] [some 0]) (cstring [120] [some 0]) 1 = .ok 1 ∧
      parseRow ⟨[97, 44, 98, 44, 120, 99, 10], 7⟩
        = .ok (⟨2, 1, [[], []]⟩, ⟨[97, 44, 98, 44, 120, 99, 10], 6⟩) ∧
      filter (some [97, 44, 98, 44, 120, 99, 10]) [([97], 0), ([98], 1), ([120, 99], 2)]
        [120, 99] [120] [some 0] [some 0] = .error .undefined) ∧
    (PyDict_GetItem [([120, 97], 0), ([98], 1)] [120, 97] = some 0 ∧
      search_column (cstring [120, 97] [some 0]) (cstring [120] [some 0]) 1 = .ok 1 ∧
      parseRow (fopen [120, 97, 44, 98])
        = .ok (⟨3, 1, [[some 120, some 97], [some 44], [some 97]]⟩,
            ⟨[120, 97, 44, 98], 3⟩) ∧
      filter (some [120, 97, 44, 98]) [([120, 97], 0), ([98], 1)] [120, 97] [120]
          [some 0] [some 0]
        = .ok ⟨some [[some [120, 97], some [44], some [97]]], none, true, 1⟩) ∧
    (PyDict_GetItem [([120, 97], 0)] [120, 97] = some 0 ∧
      rowFields [120, 97, 44, 255] = [[120, 97], [255]] ∧
      utf8Valid [255] = false ∧
      search_column (cstring [120, 97] [some 0]) (cstring [120] [some 0]) 1 = .ok 1 ∧
      filter (some ([120, 97, 44, 255] ++ LINE_ENDING :: [])) [([120, 97], 0)] [120, 97]
          [120] [some 0] [some 0]
        = .ok ⟨some [[some [120, 97], none]], some .UnicodeDecodeError, true, 2⟩) := by
  decide

/-- C20 (amended): `filter` scans from byte 0 of the file and applies the matcher to the
first (header) row like any other row. For every file whose first line is ended by a
newline, has no carriage return and no NUL byte, and has columns that are valid UTF-8,
whenever `search_column` accepts the text of that line in the target column and `filter`
returns a result, the header row is the first element of the returned list. For the file
`name,age\nbob,3\n`, `filter(column="name", pattern="na")` does return, whatever follows
the strings in memory: the list `[("name", "age")]`, with no error set, after three calls
of `parseRow`. -/
theorem filter_header_row_first (line post col : List Nat) (headers : PyDict)
    (column pattern : PyStr) (slackC slackP : Buffer) (index plen : Nat) (r : FilterResult)
    (hcr : CR ∉ line) (hnl : LINE_ENDING ∉ line) (h0 : 0 ∉ line)
    (hutf : ∀ f ∈ rowFields line, utf8Valid f = true)
    (hget : PyDict_GetItem headers column = some index)
    (hcol : (rowFields line)[index]? = some col)
    (hlen : strlen (cstring pattern slackP) = .ok plen)
    (hacc : search_column (cstring col slackC) (cstring pattern slackP) plen = .ok 1)
    (hret : filter (some (line ++ LINE_ENDING :: post)) headers column pattern slackC slackP
      = .ok r) :
    (∃ rest, r.results = some ((rowFields line).map some :: rest)) ∧
    filter (some nameAge) [([110, 97, 109, 101], 0), ([97, 103, 101], 1)]
      [110, 97, 109, 101] [110, 97] slackC slackP
      = .ok ⟨some [[some [110, 97, 109, 101], some [97, 103, 101]]], none, true, 3⟩ := by
  refine ⟨?_, rfl⟩
  rw [filter_eq_acceptedRows, hlen] at hret
  dsimp only at hret
  rw [hget] at hret
  dsimp only at hret
  obtain ⟨f, hf⟩ : ∃ f, filterFuel (line ++ LINE_ENDING :: post) = f + 1 := ⟨_, rfl⟩
  rw [hf] at hret
  simp only [acceptedRows, filterRow_header line post col index (cstring pattern slackP) plen
    slackC hcr hnl h0 hutf hcol hacc] at hret
  by_cases hcap : (rowFields line).length ≤ DEFAULT_COL_NUM
  · simp only [if_pos hcap, show ¬ ((0 : Nat) = 1) from by decide, if_false] at hret
    cases hrest : acceptedRows f ⟨line ++ LINE_ENDING :: post, line.length + 1⟩ index
        (cstring pattern slackP) plen slackC with
    | error e => rw [hrest] at hret; cases hret
    | ok p =>
      obtain ⟨ts, n⟩ := p
      rw [hrest] at hret
      cases hret
      exact ⟨ts, rfl⟩
  · simp only [if_neg hcap] at hret
    cases hret

/-- C20 (amended), at the file `name,age\nbob,3\n`, the column `name` and the pattern
`na`. -/
theorem filter_header_row_first_witness :
    (CR ∉ [110, 97, 109, 101, 44, 97, 103, 101] ∧
      LINE_ENDING ∉ [110, 97, 109, 101, 44, 97, 103, 101] ∧
      0 ∉ [110, 97, 109, 101, 44, 97, 103, 101] ∧
      (∀ f ∈ rowFields [110, 97, 109, 101, 44, 97, 103, 101], utf8Valid f = true) ∧
      PyDict_GetItem [([110, 97, 109, 101], 0), ([97, 103, 101], 1)] [110, 97, 109, 101]
        = some 0 ∧
      (rowFields [110, 97, 109, 101, 44, 97, 103, 101])[0]? = some [110, 97, 109, 101] ∧
      strlen (cstring [110, 97] []) = .ok 2 ∧
      search_column (cstring [110, 97, 109, 101] []) (cstring [110, 97] []) 2 = .ok 1 ∧
      filter (some ([110, 97, 109, 101, 44, 97, 103, 101] ++ LINE_ENDING :: [98, 111, 98,
          44, 51, 10])) [([110, 97, 109, 101], 0), ([97, 103, 101], 1)] [110, 97, 109, 101]
          [110, 97] [] []
        = .ok ⟨some [[some [110, 97, 109, 101], some [97, 103, 101]]], none, true, 3⟩) ∧
    (∃ rest, (⟨some [[some [110, 97, 109, 101], some [97, 103, 101]]], none, true, 3⟩ :
        FilterResult).results
      = some ((rowFields [110, 97, 109, 101, 44, 97, 103, 101]).map some :: rest)) :=
  ⟨by decide,
    (filter_header_row_first [110, 97, 109, 101, 44, 97, 103, 101] [98, 111, 98, 44, 51, 10]
      [110, 97, 109, 101] [([110, 97, 109, 101], 0), ([97, 103, 101], 1)]
      [110, 97, 109, 101] [110, 97] [] [] 0 2
      ⟨some [[some [110, 97, 109, 101], some [97, 103, 101]]], none, true, 3⟩
      (by decide) (by decide) (by decide) (by decide) (by decide) (by decide) (by decide)
      (by decide) (by decide)).1⟩

end Ccsv
